import Mathlib

/-!
Verification of the RecipeOptimizer core: a shallow embedding of
src/solver.py (the feasibility checker validate_product) and of
src/graph.py (the flow-graph builder ProductionGraph.create), together
with theorems settling the specified properties of both components.

Modelling conventions:
* Python dicts are association lists in insertion order; assignment
  overwrites the value of an existing key in place and appends new keys.
* Python floats are rationals; round_float_to_2 becomes nearest-integer
  rounding of 100 times the value (the trailing-zero normalisation in
  common.py is value-preserving, and no property below depends on the
  half-way behaviour of binary floats).
* The recursion of validate_product is driven by an explicit fuel
  parameter returning none when it runs out; a fuel bound sufficient for
  every input is computed and proved sufficient, which is the
  termination statement for the recursion.
* Python set iteration order is implementation-defined; the iteration
  over recipe.in_products() is modelled as the insertion order of
  add_input calls.
-/

namespace RecipeOpt

attribute [local semireducible] Rat.add Rat.mul Rat.sub Rat.inv

/-- Products are identified by name, with name-based equality (recipe.py). -/
abbrev Product := String

/-- Recipe (recipe.py): input and output rate maps, modelled as association
lists in insertion order. The building label and alternate flag play no role
in validation or graph construction and are omitted. -/
structure Recipe where
  name : String
  inputs : List (Product × ℚ)
  outputs : List (Product × ℚ)
deriving Repr, DecidableEq

/-- Keys of the input map: recipe.in_products(). In Python this is a set;
its iteration order is modelled as insertion order. -/
def Recipe.inProducts (r : Recipe) : List Product :=
  r.inputs.map Prod.fst

/-- Keys of the output map: recipe.out_products(); only membership is used. -/
def Recipe.outProducts (r : Recipe) : List Product :=
  r.outputs.map Prod.fst

/-- Lookup in an association list: Python dict read d[k] or k in d. -/
def dictGet {κ β : Type} [DecidableEq κ] (d : List (κ × β)) (k : κ) : Option β :=
  match d with
  | [] => none
  | (k0, v) :: rest => if k0 = k then some v else dictGet rest k

/-- Write to an association list: Python dict assignment d[k] = v overwrites
an existing binding in place and appends a fresh key at the end. -/
def dictSet {κ β : Type} [DecidableEq κ] (d : List (κ × β)) (k : κ) (v : β) : List (κ × β) :=
  match d with
  | [] => [(k, v)]
  | (k0, v0) :: rest => if k0 = k then (k, v) :: rest else (k0, v0) :: dictSet rest k v

/-- State threaded through validate_product: the visiting_set (a list
without duplicates, newest first) and the valid_dict memo table. -/
structure VState where
  visiting : List Product
  valid : List (Product × Bool)
deriving Repr, DecidableEq

/-- The ingredient check of validate_product (solver.py lines 169-174):
every input product of the candidate recipe must itself validate; stop at
the first failure. The recursive validate_product call (at one less fuel)
is passed in as vpf. -/
def vpIngredients (vpf : Product → VState → Option (Bool × VState)) :
    List Product → VState → Option (Bool × VState)
  | [], st => some (true, st)
  | i :: is, st =>
    match vpf i st with
    | none => none
    | some (true, st1) => vpIngredients vpf is st1
    | some (false, st1) => some (false, st1)

/-- The recipe scan of validate_product (solver.py lines 166-184): try each
catalog recipe producing the target in order; on the first whose ingredients
all validate, record success and unmark the target; if none works, record
failure and unmark the target. -/
def vpRecipes (vpf : Product → VState → Option (Bool × VState))
    (target : Product) : List Recipe → VState → Option (Bool × VState)
  | [], st =>
    some (false, { st with visiting := st.visiting.erase target,
                           valid := dictSet st.valid target false })
  | r :: rs, st =>
    if target ∈ r.outProducts then
      match vpIngredients vpf r.inProducts st with
      | none => none
      | some (true, st1) =>
        some (true, { st1 with visiting := st1.visiting.erase target,
                               valid := dictSet st1.valid target true })
      | some (false, st1) => vpRecipes vpf target rs st1
    else
      vpRecipes vpf target rs st

/-- Shallow embedding of validate_product (solver.py lines 134-184).
Fuel bounds the recursion depth; the function returns none when it runs
out, and vp_fuel_sufficient below shows this never happens for the fuel
computed by validateFuel. -/
def vp (recipes : List Recipe) (avail : List Product) :
    Nat → Product → VState → Option (Bool × VState)
  | 0, _, _ => none
  | Nat.succ f, target, st =>
    match dictGet st.valid target with
    | some b => some (b, st)
    | none =>
      if target ∈ avail then
        some (true, { st with valid := dictSet st.valid target true })
      else if target ∈ st.visiting then
        some (false, { st with valid := dictSet st.valid target false })
      else
        vpRecipes (vp recipes avail f) target recipes
          { st with visiting := target :: st.visiting }

/-- Every product that can become a recursion target: the initial target and
the ingredients of every recipe. Recursion depth is bounded by its size. -/
def productUniverse (recipes : List Recipe) (target : Product) : List Product :=
  (target :: (recipes.map Recipe.inProducts).flatten).dedup

/-- Fuel sufficient for a full run of validate_product on target. -/
def validateFuel (recipes : List Recipe) (target : Product) : Nat :=
  (productUniverse recipes target).length + 1

/-- Top-level validate_product with fresh tables (the None defaults of
solver.py line 134): the is_producible contract of the spec. The none
branch is unreachable for this fuel (vp_fuel_sufficient). -/
def validate_product (recipes : List Recipe) (avail : List Product)
    (target : Product) : Bool :=
  match vp recipes avail (validateFuel recipes target) target ⟨[], []⟩ with
  | some (b, _) => b
  | none => false

/-- Specification notion of producibility: reachable from the available
ground products through a finite, acyclic chain of catalog recipes (a recipe
is usable only when every one of its input products is producible). -/
inductive Producible (recipes : List Recipe) (avail : List Product) : Product → Prop
  | base {p : Product} : p ∈ avail → Producible recipes avail p
  | step {p : Product} {r : Recipe} : r ∈ recipes → p ∈ r.outProducts →
      (∀ q ∈ r.inProducts, Producible recipes avail q) →
      Producible recipes avail p

/-- Two queries against a shared memo table, in order: the validation pass of
ProductionProblem.validate (solver.py lines 46-56) calls validate_product for
each requested output with one shared visiting_set and one shared valid_dict;
this is that pass specialised to two targets, returning both results. -/
def sharedPair (recipes : List Recipe) (avail : List Product)
    (t1 t2 : Product) : Option (Bool × Bool) :=
  match vp recipes avail (validateFuel recipes t1) t1 ⟨[], []⟩ with
  | none => none
  | some (b1, st1) =>
    match vp recipes avail (validateFuel recipes t2) t2 st1 with
    | none => none
    | some (b2, _) => some (b1, b2)

section DictLemmas

variable {κ β : Type} [DecidableEq κ]

theorem dictGet_dictSet_self (d : List (κ × β)) (k : κ) (v : β) :
    dictGet (dictSet d k v) k = some v := by
  induction d with
  | nil => simp [dictGet, dictSet]
  | cons kv rest ih =>
    obtain ⟨k0, v0⟩ := kv
    by_cases h : k0 = k
    · simp [dictSet, h, dictGet]
    · simp [dictSet, h, dictGet, ih]

theorem dictGet_dictSet_ne (d : List (κ × β)) (k k' : κ) (v : β) (h : k' ≠ k) :
    dictGet (dictSet d k v) k' = dictGet d k' := by
  have hne : ¬(k = k') := fun hh => h hh.symm
  induction d with
  | nil => simp [dictGet, dictSet, hne]
  | cons kv rest ih =>
    obtain ⟨k0, v0⟩ := kv
    by_cases hk : k0 = k
    · subst hk
      simp [dictSet, dictGet, hne]
    · simp [dictSet, hk, dictGet, ih]

end DictLemmas

/-! Visiting-set restoration: a completed validate_product call leaves the
visiting_set exactly as it found it, because the product added on entry is
removed on every exit path (solver.py lines 178 and 182). -/

theorem vpIngredients_visiting (vpf : Product → VState → Option (Bool × VState))
    (hpres : ∀ i st b st1, vpf i st = some (b, st1) → st1.visiting = st.visiting) :
    ∀ ings st b st1, vpIngredients vpf ings st = some (b, st1) →
      st1.visiting = st.visiting := by
  intro ings
  induction ings with
  | nil => intro st b st1 h; simp [vpIngredients] at h; rw [← h.2]
  | cons i is ih =>
    intro st b st1 h
    simp only [vpIngredients] at h
    cases hv : vpf i st with
    | none => rw [hv] at h; exact absurd h (by simp)
    | some p =>
      obtain ⟨b0, st0⟩ := p
      rw [hv] at h
      cases b0 with
      | true =>
        simp only at h
        rw [ih st0 b st1 h, hpres i st true st0 hv]
      | false =>
        simp only at h
        obtain ⟨hb, hst⟩ := Prod.mk.injEq .. ▸ (Option.some.injEq .. ▸ h)
        rw [← hst]
        exact hpres i st false st0 hv

theorem vpRecipes_visiting (vpf : Product → VState → Option (Bool × VState))
    (hpres : ∀ i st b st1, vpf i st = some (b, st1) → st1.visiting = st.visiting)
    (t : Product) :
    ∀ rem st b st1, vpRecipes vpf t rem st = some (b, st1) →
      st1.visiting = st.visiting.erase t := by
  intro rem
  induction rem with
  | nil =>
    intro st b st1 h
    simp only [vpRecipes, Option.some.injEq, Prod.mk.injEq] at h
    rw [← h.2]
  | cons r rs ih =>
    intro st b st1 h
    simp only [vpRecipes] at h
    by_cases hout : t ∈ r.outProducts
    · simp only [hout, if_true] at h
      cases hv : vpIngredients vpf r.inProducts st with
      | none => rw [hv] at h; exact absurd h (by simp)
      | some p =>
        obtain ⟨b0, st0⟩ := p
        rw [hv] at h
        cases b0 with
        | true =>
          simp only [Option.some.injEq, Prod.mk.injEq] at h
          rw [← h.2]
          simp only
          rw [vpIngredients_visiting vpf hpres r.inProducts st true st0 hv]
        | false =>
          simp only at h
          rw [ih st0 b st1 h, vpIngredients_visiting vpf hpres r.inProducts st false st0 hv]
    · simp only [hout, if_false] at h
      exact ih st b st1 h

theorem vp_visiting (recipes : List Recipe) (avail : List Product) :
    ∀ fuel t st b st1, vp recipes avail fuel t st = some (b, st1) →
      st1.visiting = st.visiting := by
  intro fuel
  induction fuel with
  | zero => intro t st b st1 h; exact absurd h (by simp [vp])
  | succ f ih =>
    intro t st b st1 h
    simp only [vp] at h
    cases hm : dictGet st.valid t with
    | some b0 =>
      rw [hm] at h
      simp only [Option.some.injEq, Prod.mk.injEq] at h
      rw [← h.2]
    | none =>
      rw [hm] at h
      by_cases hav : t ∈ avail
      · simp only [hav, if_true, Option.some.injEq, Prod.mk.injEq] at h
        rw [← h.2]
      · by_cases hvis : t ∈ st.visiting
        · simp only [hav, hvis, if_false, if_true, Option.some.injEq, Prod.mk.injEq] at h
          rw [← h.2]
        · simp only [hav, hvis, if_false] at h
          have := vpRecipes_visiting (vp recipes avail f) (ih) t recipes
            { st with visiting := t :: st.visiting } b st1 h
          rw [this]
          simp [List.erase_cons_head]

/-! Final memo value: whatever intermediate writes happen during the
exploration of a product (including the cycle-breaking write at solver.py
line 160 performed by deeper frames), the frame that owns the product ends
by writing its own outcome (solver.py lines 177 and 183), so a completed
call leaves valid_dict mapping the product to the returned result. -/

theorem vpRecipes_valid_target (vpf : Product → VState → Option (Bool × VState))
    (t : Product) :
    ∀ rem st b st1, vpRecipes vpf t rem st = some (b, st1) →
      dictGet st1.valid t = some b := by
  intro rem
  induction rem with
  | nil =>
    intro st b st1 h
    simp only [vpRecipes, Option.some.injEq, Prod.mk.injEq] at h
    rw [← h.2, ← h.1]
    exact dictGet_dictSet_self ..
  | cons r rs ih =>
    intro st b st1 h
    simp only [vpRecipes] at h
    by_cases hout : t ∈ r.outProducts
    · simp only [hout, if_true] at h
      cases hv : vpIngredients vpf r.inProducts st with
      | none => rw [hv] at h; exact absurd h (by simp)
      | some p =>
        obtain ⟨b0, st0⟩ := p
        rw [hv] at h
        cases b0 with
        | true =>
          simp only [Option.some.injEq, Prod.mk.injEq] at h
          rw [← h.2, ← h.1]
          exact dictGet_dictSet_self ..
        | false =>
          simp only at h
          exact ih st0 b st1 h
    · simp only [hout, if_false] at h
      exact ih st b st1 h

theorem vp_valid_target (recipes : List Recipe) (avail : List Product) :
    ∀ fuel t st b st1, t ∉ st.visiting →
      vp recipes avail fuel t st = some (b, st1) →
      dictGet st1.valid t = some b := by
  intro fuel t st b st1 hnv h
  cases fuel with
  | zero => exact absurd h (by simp [vp])
  | succ f =>
    simp only [vp] at h
    cases hm : dictGet st.valid t with
    | some b0 =>
      rw [hm] at h
      simp only [Option.some.injEq, Prod.mk.injEq] at h
      rw [← h.2, ← h.1]
      exact hm
    | none =>
      rw [hm] at h
      by_cases hav : t ∈ avail
      · simp only [hav, if_true, Option.some.injEq, Prod.mk.injEq] at h
        rw [← h.2, ← h.1]
        exact dictGet_dictSet_self ..
      · simp only [hav, hnv, if_false] at h
        exact vpRecipes_valid_target (vp recipes avail f) t recipes _ b st1 h

/-! Soundness: every true verdict (returned or cached) is backed by a
genuine Producible derivation, because true is only ever written for an
available product or after all ingredients of an applicable recipe were
themselves validated. -/

/-- Every product cached as valid in the memo table is genuinely producible. -/
def SoundDict (recipes : List Recipe) (avail : List Product)
    (d : List (Product × Bool)) : Prop :=
  ∀ p, dictGet d p = some true → Producible recipes avail p

theorem SoundDict.setFalse {recipes : List Recipe} {avail : List Product}
    {d : List (Product × Bool)} (hd : SoundDict recipes avail d) (p : Product) :
    SoundDict recipes avail (dictSet d p false) := by
  intro q hq
  by_cases h : q = p
  · subst h
    rw [dictGet_dictSet_self] at hq
    exact absurd hq (by simp)
  · rw [dictGet_dictSet_ne d p q false h] at hq
    exact hd q hq

theorem SoundDict.setTrue {recipes : List Recipe} {avail : List Product}
    {d : List (Product × Bool)} (hd : SoundDict recipes avail d)
    {p : Product} (hp : Producible recipes avail p) :
    SoundDict recipes avail (dictSet d p true) := by
  intro q hq
  by_cases h : q = p
  · subst h
    exact hp
  · rw [dictGet_dictSet_ne d p q true h] at hq
    exact hd q hq

theorem vpIngredients_sound {recipes : List Recipe} {avail : List Product}
    (vpf : Product → VState → Option (Bool × VState))
    (hvpf : ∀ i st b st1, SoundDict recipes avail st.valid →
      vpf i st = some (b, st1) →
      SoundDict recipes avail st1.valid ∧ (b = true → Producible recipes avail i)) :
    ∀ ings st b st1, SoundDict recipes avail st.valid →
      vpIngredients vpf ings st = some (b, st1) →
      SoundDict recipes avail st1.valid ∧
        (b = true → ∀ q ∈ ings, Producible recipes avail q) := by
  intro ings
  induction ings with
  | nil =>
    intro st b st1 hs h
    simp only [vpIngredients, Option.some.injEq, Prod.mk.injEq] at h
    rw [← h.2]
    exact ⟨hs, by simp⟩
  | cons i is ih =>
    intro st b st1 hs h
    simp only [vpIngredients] at h
    cases hv : vpf i st with
    | none => rw [hv] at h; exact absurd h (by simp)
    | some p =>
      obtain ⟨b0, st0⟩ := p
      rw [hv] at h
      have h0 := hvpf i st b0 st0 hs hv
      cases b0 with
      | true =>
        simp only at h
        have h1 := ih st0 b st1 h0.1 h
        refine ⟨h1.1, fun hb q hq => ?_⟩
        rcases List.mem_cons.mp hq with hq | hq
        · subst hq
          exact h0.2 rfl
        · exact h1.2 hb q hq
      | false =>
        simp only [Option.some.injEq, Prod.mk.injEq] at h
        rw [← h.2]
        exact ⟨h0.1, fun hb => absurd (h.1 ▸ hb) (by simp)⟩

theorem vpRecipes_sound {recipes : List Recipe} {avail : List Product}
    (vpf : Product → VState → Option (Bool × VState))
    (hvpf : ∀ i st b st1, SoundDict recipes avail st.valid →
      vpf i st = some (b, st1) →
      SoundDict recipes avail st1.valid ∧ (b = true → Producible recipes avail i))
    (t : Product) :
    ∀ rem st b st1, (∀ r ∈ rem, r ∈ recipes) →
      SoundDict recipes avail st.valid →
      vpRecipes vpf t rem st = some (b, st1) →
      SoundDict recipes avail st1.valid ∧ (b = true → Producible recipes avail t) := by
  intro rem
  induction rem with
  | nil =>
    intro st b st1 _ hs h
    simp only [vpRecipes, Option.some.injEq, Prod.mk.injEq] at h
    rw [← h.2]
    exact ⟨hs.setFalse t, fun hb => absurd (h.1 ▸ hb) (by simp)⟩
  | cons r rs ih =>
    intro st b st1 hrem hs h
    simp only [vpRecipes] at h
    by_cases hout : t ∈ r.outProducts
    · simp only [hout, if_true] at h
      cases hv : vpIngredients vpf r.inProducts st with
      | none => rw [hv] at h; exact absurd h (by simp)
      | some p =>
        obtain ⟨b0, st0⟩ := p
        rw [hv] at h
        cases b0 with
        | true =>
          have h1 := vpIngredients_sound vpf hvpf r.inProducts st true st0 hs hv
          have hpt : Producible recipes avail t :=
            Producible.step (hrem r (List.mem_cons_self r rs)) hout (h1.2 rfl)
          simp only [Option.some.injEq, Prod.mk.injEq] at h
          rw [← h.2]
          exact ⟨h1.1.setTrue hpt, fun _ => hpt⟩
        | false =>
          simp only at h
          have h1 := vpIngredients_sound vpf hvpf r.inProducts st false st0 hs hv
          exact ih st0 b st1 (fun r2 hr2 => hrem r2 (List.mem_cons_of_mem r hr2)) h1.1 h
    · simp only [hout, if_false] at h
      exact ih st b st1 (fun r2 hr2 => hrem r2 (List.mem_cons_of_mem r hr2)) hs h

theorem vp_sound (recipes : List Recipe) (avail : List Product) :
    ∀ fuel t st b st1, SoundDict recipes avail st.valid →
      vp recipes avail fuel t st = some (b, st1) →
      SoundDict recipes avail st1.valid ∧ (b = true → Producible recipes avail t) := by
  intro fuel
  induction fuel with
  | zero => intro t st b st1 _ h; exact absurd h (by simp [vp])
  | succ f ih =>
    intro t st b st1 hs h
    simp only [vp] at h
    cases hm : dictGet st.valid t with
    | some b0 =>
      rw [hm] at h
      simp only [Option.some.injEq, Prod.mk.injEq] at h
      rw [← h.2]
      exact ⟨hs, fun hb => hs t (by rw [hm, h.1, hb])⟩
    | none =>
      rw [hm] at h
      by_cases hav : t ∈ avail
      · simp only [hav, if_true, Option.some.injEq, Prod.mk.injEq] at h
        have hpt : Producible recipes avail t := Producible.base hav
        rw [← h.2]
        exact ⟨hs.setTrue hpt, fun _ => hpt⟩
      · by_cases hvis : t ∈ st.visiting
        · simp only [hav, hvis, if_false, if_true, Option.some.injEq, Prod.mk.injEq] at h
          rw [← h.2]
          exact ⟨hs.setFalse t, fun hb => absurd (h.1 ▸ hb) (by simp)⟩
        · simp only [hav, hvis, if_false] at h
          exact vpRecipes_sound (vp recipes avail f) ih t recipes
            { st with visiting := t :: st.visiting } b st1 (fun r hr => hr) hs h

/-! With no available ground products and every recipe demanding at least
one input, nothing is ever validated: the memo table never contains a true
entry and every completed call answers false. -/

/-- The memo table contains no positive verdict. -/
def NoTrue (d : List (Product × Bool)) : Prop :=
  ∀ p, dictGet d p ≠ some true

theorem NoTrue.addFalse {d : List (Product × Bool)} (hd : NoTrue d) (p : Product) :
    NoTrue (dictSet d p false) := by
  intro q hq
  by_cases h : q = p
  · subst h
    rw [dictGet_dictSet_self] at hq
    exact absurd hq (by simp)
  · rw [dictGet_dictSet_ne d p q false h] at hq
    exact hd q hq

theorem vpIngredients_notrue (vpf : Product → VState → Option (Bool × VState))
    (hvpf : ∀ i st b st1, NoTrue st.valid → vpf i st = some (b, st1) →
      NoTrue st1.valid ∧ b = false) :
    ∀ ings st b st1, NoTrue st.valid → vpIngredients vpf ings st = some (b, st1) →
      NoTrue st1.valid ∧ (b = true → ings = []) := by
  intro ings
  induction ings with
  | nil =>
    intro st b st1 hs h
    simp only [vpIngredients, Option.some.injEq, Prod.mk.injEq] at h
    rw [← h.2]
    exact ⟨hs, fun _ => rfl⟩
  | cons i is _ =>
    intro st b st1 hs h
    simp only [vpIngredients] at h
    cases hv : vpf i st with
    | none => rw [hv] at h; exact absurd h (by simp)
    | some p =>
      obtain ⟨b0, st0⟩ := p
      rw [hv] at h
      have h0 := hvpf i st b0 st0 hs hv
      rw [h0.2] at h
      simp only [Option.some.injEq, Prod.mk.injEq] at h
      rw [← h.2]
      exact ⟨h0.1, fun hb => absurd (h.1 ▸ hb) (by simp)⟩

theorem vpRecipes_notrue (vpf : Product → VState → Option (Bool × VState))
    (hvpf : ∀ i st b st1, NoTrue st.valid → vpf i st = some (b, st1) →
      NoTrue st1.valid ∧ b = false)
    (t : Product) :
    ∀ rem st b st1, (∀ r ∈ rem, r.inProducts ≠ []) → NoTrue st.valid →
      vpRecipes vpf t rem st = some (b, st1) →
      NoTrue st1.valid ∧ b = false := by
  intro rem
  induction rem with
  | nil =>
    intro st b st1 _ hs h
    simp only [vpRecipes, Option.some.injEq, Prod.mk.injEq] at h
    rw [← h.2, ← h.1]
    exact ⟨hs.addFalse t, rfl⟩
  | cons r rs ih =>
    intro st b st1 hrem hs h
    simp only [vpRecipes] at h
    by_cases hout : t ∈ r.outProducts
    · simp only [hout, if_true] at h
      cases hv : vpIngredients vpf r.inProducts st with
      | none => rw [hv] at h; exact absurd h (by simp)
      | some p =>
        obtain ⟨b0, st0⟩ := p
        rw [hv] at h
        have h1 := vpIngredients_notrue vpf hvpf r.inProducts st b0 st0 hs hv
        cases b0 with
        | true => exact absurd (h1.2 rfl) (hrem r (List.mem_cons_self r rs))
        | false =>
          simp only at h
          exact ih st0 b st1 (fun r2 hr2 => hrem r2 (List.mem_cons_of_mem r hr2)) h1.1 h
    · simp only [hout, if_false] at h
      exact ih st b st1 (fun r2 hr2 => hrem r2 (List.mem_cons_of_mem r hr2)) hs h

theorem vp_notrue (recipes : List Recipe)
    (hrec : ∀ r ∈ recipes, r.inProducts ≠ []) :
    ∀ fuel t st b st1, NoTrue st.valid →
      vp recipes [] fuel t st = some (b, st1) →
      NoTrue st1.valid ∧ b = false := by
  intro fuel
  induction fuel with
  | zero => intro t st b st1 _ h; exact absurd h (by simp [vp])
  | succ f ih =>
    intro t st b st1 hs h
    simp only [vp] at h
    cases hm : dictGet st.valid t with
    | some b0 =>
      rw [hm] at h
      simp only [Option.some.injEq, Prod.mk.injEq] at h
      cases b0 with
      | true => exact absurd hm (hs t)
      | false =>
        rw [← h.2, ← h.1]
        exact ⟨hs, rfl⟩
    | none =>
      rw [hm] at h
      simp only [List.not_mem_nil, if_false] at h
      by_cases hvis : t ∈ st.visiting
      · simp only [hvis, if_true, Option.some.injEq, Prod.mk.injEq] at h
        rw [← h.2, ← h.1]
        exact ⟨hs.addFalse t, rfl⟩
      · simp only [hvis, if_false] at h
        exact vpRecipes_notrue (vp recipes [] f) ih t recipes
          { st with visiting := t :: st.visiting } b st1 hrec hs h

/-! Fuel sufficiency: recursion depth is bounded because the visiting set
grows strictly on every nested frame and its members are drawn from the
finite universe of the initial target and all recipe ingredients. This is
the termination argument for validate_product. -/

theorem vpIngredients_isSome (U : List Product) (f : Nat)
    (vpf : Product → VState → Option (Bool × VState))
    (hpres : ∀ i st b st1, vpf i st = some (b, st1) → st1.visiting = st.visiting)
    (hsome : ∀ i st, i ∈ U → st.visiting.Nodup → (∀ v ∈ st.visiting, v ∈ U) →
      U.length - st.visiting.length < f → (vpf i st).isSome) :
    ∀ ings st, (∀ i ∈ ings, i ∈ U) → st.visiting.Nodup →
      (∀ v ∈ st.visiting, v ∈ U) → U.length - st.visiting.length < f →
      (vpIngredients vpf ings st).isSome := by
  intro ings
  induction ings with
  | nil => intro st _ _ _ _; simp [vpIngredients]
  | cons i is ih =>
    intro st hi hnd hsub hf
    simp only [vpIngredients]
    have h1 := hsome i st (hi i (List.mem_cons_self i is)) hnd hsub hf
    cases hv : vpf i st with
    | none => rw [hv] at h1; exact absurd h1 (by simp)
    | some p =>
      obtain ⟨b0, st0⟩ := p
      cases b0 with
      | true =>
        have hvv := hpres i st true st0 hv
        exact ih st0 (fun q hq => hi q (List.mem_cons_of_mem i hq))
          (hvv ▸ hnd) (hvv ▸ hsub) (hvv ▸ hf)
      | false => simp

theorem vpRecipes_isSome (U : List Product) (f : Nat)
    (vpf : Product → VState → Option (Bool × VState))
    (hpres : ∀ i st b st1, vpf i st = some (b, st1) → st1.visiting = st.visiting)
    (hsome : ∀ i st, i ∈ U → st.visiting.Nodup → (∀ v ∈ st.visiting, v ∈ U) →
      U.length - st.visiting.length < f → (vpf i st).isSome)
    (t : Product) :
    ∀ rem st, (∀ r ∈ rem, ∀ i ∈ r.inProducts, i ∈ U) → st.visiting.Nodup →
      (∀ v ∈ st.visiting, v ∈ U) → U.length - st.visiting.length < f →
      (vpRecipes vpf t rem st).isSome := by
  intro rem
  induction rem with
  | nil => intro st _ _ _ _; simp [vpRecipes]
  | cons r rs ih =>
    intro st hrem hnd hsub hf
    simp only [vpRecipes]
    by_cases hout : t ∈ r.outProducts
    · simp only [hout, if_true]
      have h1 := vpIngredients_isSome U f vpf hpres hsome r.inProducts st
        (hrem r (List.mem_cons_self r rs)) hnd hsub hf
      cases hv : vpIngredients vpf r.inProducts st with
      | none => rw [hv] at h1; exact absurd h1 (by simp)
      | some p =>
        obtain ⟨b0, st0⟩ := p
        cases b0 with
        | true => simp
        | false =>
          have hvv := vpIngredients_visiting vpf hpres r.inProducts st false st0 hv
          exact ih st0 (fun r2 hr2 => hrem r2 (List.mem_cons_of_mem r hr2))
            (hvv ▸ hnd) (hvv ▸ hsub) (hvv ▸ hf)
    · simp only [hout, if_false]
      exact ih st (fun r2 hr2 => hrem r2 (List.mem_cons_of_mem r hr2)) hnd hsub hf

theorem vp_isSome (recipes : List Recipe) (avail : List Product)
    (U : List Product)
    (hUI : ∀ r ∈ recipes, ∀ i ∈ r.inProducts, i ∈ U) :
    ∀ fuel t st, t ∈ U → st.visiting.Nodup → (∀ v ∈ st.visiting, v ∈ U) →
      U.length - st.visiting.length < fuel →
      (vp recipes avail fuel t st).isSome := by
  intro fuel
  induction fuel with
  | zero => intro t st _ _ _ hf; exact absurd hf (by omega)
  | succ f ih =>
    intro t st ht hnd hsub hf
    simp only [vp]
    cases hm : dictGet st.valid t with
    | some b0 => simp
    | none =>
      by_cases hav : t ∈ avail
      · simp [hav]
      · by_cases hvis : t ∈ st.visiting
        · simp [hav, hvis]
        · simp only [hav, hvis, if_false]
          have hnd1 : (t :: st.visiting).Nodup := List.nodup_cons.mpr ⟨hvis, hnd⟩
          have hsub1 : ∀ v ∈ t :: st.visiting, v ∈ U := by
            intro v hv
            rcases List.mem_cons.mp hv with hv | hv
            · exact hv ▸ ht
            · exact hsub v hv
          have hss : (t :: st.visiting) ⊆ U := by
            intro v hv
            exact hsub1 v hv
          have hlen : (t :: st.visiting).length ≤ U.length :=
            (hnd1.subperm hss).length_le
          apply vpRecipes_isSome U f (vp recipes avail f) (vp_visiting recipes avail f)
            (fun i st2 hi hnd2 hsub2 hf2 => ih i st2 hi hnd2 hsub2 hf2) t recipes
            { st with visiting := t :: st.visiting } hUI hnd1 hsub1
          simp only [List.length_cons] at hlen ⊢
          omega

theorem vp_fuel_sufficient (recipes : List Recipe) (avail : List Product)
    (t : Product) :
    (vp recipes avail (validateFuel recipes t) t ⟨[], []⟩).isSome := by
  apply vp_isSome recipes avail (productUniverse recipes t)
  · intro r hr i hi
    exact List.mem_dedup.mpr (List.mem_cons_of_mem t
      (List.mem_flatten.mpr ⟨r.inProducts, List.mem_map_of_mem Recipe.inProducts hr, hi⟩))
  · exact List.mem_dedup.mpr
      (List.mem_cons_self t ((recipes.map Recipe.inProducts).flatten))
  · exact List.nodup_nil
  · intro v hv; exact absurd hv (List.not_mem_nil v)
  · simp [validateFuel]

/-! Concrete catalogs used by the claims below. All recipes use rate 1;
only the product names matter to validation. -/

/-- Produces T from D and Z (the ingredient D is listed before Z). -/
def recT1 : Recipe := ⟨"RT1", [("D", 1), ("Z", 1)], [("T", 1)]⟩

/-- Produces C from D. -/
def recC1 : Recipe := ⟨"RC1", [("D", 1)], [("C", 1)]⟩

/-- Produces D from C (a cycle with recC1). -/
def recD1 : Recipe := ⟨"RD1", [("C", 1)], [("D", 1)]⟩

/-- Produces D from the ground product G. -/
def recD2 : Recipe := ⟨"RD2", [("G", 1)], [("D", 1)]⟩

/-- Produces T from C. -/
def recT2 : Recipe := ⟨"RT2", [("C", 1)], [("T", 1)]⟩

/-- Catalog on which the checker is incomplete: T is reachable through
recT2 and recC1 and recD2, but the exploration of recT1 first caches C as
unproducible (its only recipe needs D while D is on the recursion path),
and Z is unproducible, so recT1 fails and recT2 then reads the stale
cache entry for C. -/
def poisonCatalog : List Recipe := [recT1, recC1, recD1, recD2, recT2]

/-- Catalog whose shared-table validation is order-sensitive: querying D
first caches C as unproducible while D is in progress; querying C first
resolves C through D and G. -/
def sharedCatalog : List Recipe := [recC1, recD1, recD2]

/-- Produces Y from X. -/
def recYX : Recipe := ⟨"RY", [("X", 1)], [("Y", 1)]⟩

/-- Produces X from Y. -/
def recXY : Recipe := ⟨"RX", [("Y", 1)], [("X", 1)]⟩

/-- The two-recipe cycle of spec section 8: X needs Y, Y needs X, nothing
directly available. -/
def cycleCatalog : List Recipe := [recYX, recXY]

/-- C1 (counterexample). The claim states that is_producible returns true
if and only if the target is reachable from the ground inputs through a
finite acyclic chain of recipes. The only-if direction holds (see
claim1_producible_sound), but the if direction fails: on poisonCatalog
with ground input G, the target T is reachable (T through recT2 from C,
C through recC1 from D, D through recD2 from G), yet validate_product
returns false, because the failed exploration of the earlier candidate
recT1 permanently caches C as unproducible. This instance fixes the
iteration order of recipe.in_products(), which Python leaves to set
iteration order, as the insertion order D before Z. -/
theorem claim1_counterexample :
    validate_product poisonCatalog ["G"] "T" = false ∧
      Producible poisonCatalog ["G"] "T" := by
  refine ⟨by decide, ?_⟩
  have hG : Producible poisonCatalog ["G"] "G" := .base (by simp)
  have hD : Producible poisonCatalog ["G"] "D" := by
    refine .step (r := recD2) (by simp [poisonCatalog]) (by simp [recD2, Recipe.outProducts]) ?_
    intro q hq
    simp only [recD2, Recipe.inProducts, List.map_cons, List.map_nil, List.mem_singleton] at hq
    exact hq ▸ hG
  have hC : Producible poisonCatalog ["G"] "C" := by
    refine .step (r := recC1) (by simp [poisonCatalog]) (by simp [recC1, Recipe.outProducts]) ?_
    intro q hq
    simp only [recC1, Recipe.inProducts, List.map_cons, List.map_nil, List.mem_singleton] at hq
    exact hq ▸ hD
  refine .step (r := recT2) (by simp [poisonCatalog]) (by simp [recT2, Recipe.outProducts]) ?_
  intro q hq
  simp only [recT2, Recipe.inProducts, List.map_cons, List.map_nil, List.mem_singleton] at hq
  exact hq ▸ hC

/-- C1 (amended): the direction of the claimed equivalence that survives.
Whenever validate_product answers true, the target really is reachable
from the available ground products through a finite acyclic chain of
catalog recipes; the converse fails (claim1_counterexample). -/
theorem claim1_producible_sound (recipes : List Recipe) (avail : List Product)
    (t : Product) (h : validate_product recipes avail t = true) :
    Producible recipes avail t := by
  unfold validate_product at h
  cases hv : vp recipes avail (validateFuel recipes t) t ⟨[], []⟩ with
  | none => rw [hv] at h; exact absurd h (by simp)
  | some p =>
    obtain ⟨b, st1⟩ := p
    rw [hv] at h
    simp only at h
    subst h
    refine (vp_sound recipes avail _ t ⟨[], []⟩ true st1 ?_ hv).2 rfl
    intro q hq
    simp [dictGet] at hq

/-- Witness for claim1_producible_sound: the spec scenario Smelt then
Forge, where validate_product answers true and soundness yields the
reachability derivation. -/
theorem claim1_sound_witness :
    Producible [⟨"Smelt", [("Ore", 1)], [("Ingot", 1)]⟩,
                ⟨"Forge", [("Ingot", 1)], [("Part", 1)]⟩] ["Ore"] "Part" :=
  claim1_producible_sound _ ["Ore"] "Part" (by decide)

/-- C5 (confirmed). First part: when the target is already on the active
recursion path (and not memoized or directly available), the call returns
false, writing false for the target into valid_dict (solver.py lines
159-161). Second part: that write is not permanent; for any call whose
target is not currently in progress, the valid_dict returned at the end
maps the target to the result of its own exploration (the frame that
owns a product concludes by overwriting its memo entry at solver.py line
177 or 183), so a product is finally memoized as unproducible only when
its own scan of all candidate recipes has failed. -/
theorem claim5_cycle_no_permanent_record :
    (∀ (recipes : List Recipe) (avail : List Product) (f : Nat)
        (t : Product) (st : VState),
        dictGet st.valid t = none → t ∉ avail → t ∈ st.visiting →
        vp recipes avail (f + 1) t st =
          some (false, { st with valid := dictSet st.valid t false })) ∧
    (∀ (recipes : List Recipe) (avail : List Product) (fuel : Nat)
        (t : Product) (st : VState) (b : Bool) (st1 : VState),
        t ∉ st.visiting → vp recipes avail fuel t st = some (b, st1) →
        dictGet st1.valid t = some b) := by
  constructor
  · intro recipes avail f t st hm hav hvis
    simp [vp, hm, hav, hvis]
  · intro recipes avail fuel t st b st1 hnv h
    exact vp_valid_target recipes avail fuel t st b st1 hnv h

/-- Witness for claim5_cycle_no_permanent_record at concrete inputs: with
C already on the recursion path the call returns false and writes the
temporary entry, and a completed top-level query for C leaves valid_dict
mapping C to its own (true) outcome. -/
theorem claim5_witness :
    vp sharedCatalog ["G"] 5 "C" ⟨["C"], []⟩ =
      some (false, ⟨["C"], [("C", false)]⟩) ∧
    dictGet (⟨[], [("C", true), ("G", true), ("D", true)]⟩ : VState).valid "C" =
      some true := by
  constructor
  · exact claim5_cycle_no_permanent_record.1 sharedCatalog ["G"] 4 "C"
      ⟨["C"], []⟩ (by decide) (by decide) (by decide)
  · exact claim5_cycle_no_permanent_record.2 sharedCatalog ["G"]
      (validateFuel sharedCatalog "C") "C" ⟨[], []⟩ true
      ⟨[], [("C", true), ("G", true), ("D", true)]⟩ (by decide) (by decide)

/-- C6 (counterexample). Validating the two targets D and C of
sharedCatalog with a shared memoization table is order-sensitive: querying
D first yields (D true, C false) because the exploration of D caches C as
unproducible while D is in progress, while querying C first yields
(C true, D true). The claimed order-independence of the shared-table pass
fails. -/
theorem claim6_counterexample :
    sharedPair sharedCatalog ["G"] "D" "C" = some (true, false) ∧
      sharedPair sharedCatalog ["G"] "C" "D" = some (true, true) := by
  constructor
  · decide
  · decide

/-- C6 (amended): what survives of memoization correctness under a shared
table. In a shared-table pass over two targets, in either order, every
true verdict is sound: the corresponding target is genuinely producible.
False verdicts, and hence the pair of results, can depend on the query
order (claim6_counterexample). -/
theorem claim6_shared_true_sound (recipes : List Recipe) (avail : List Product)
    (t1 t2 : Product) (b1 b2 : Bool)
    (h : sharedPair recipes avail t1 t2 = some (b1, b2)) :
    (b1 = true → Producible recipes avail t1) ∧
      (b2 = true → Producible recipes avail t2) := by
  unfold sharedPair at h
  cases hv1 : vp recipes avail (validateFuel recipes t1) t1 ⟨[], []⟩ with
  | none => rw [hv1] at h; exact absurd h (by simp)
  | some p1 =>
    obtain ⟨c1, st1⟩ := p1
    rw [hv1] at h
    dsimp only at h
    have hs1 := vp_sound recipes avail (validateFuel recipes t1) t1 ⟨[], []⟩ c1 st1
      (by intro q hq; simp [dictGet] at hq) hv1
    cases hv2 : vp recipes avail (validateFuel recipes t2) t2 st1 with
    | none => rw [hv2] at h; exact absurd h (by simp)
    | some p2 =>
      obtain ⟨c2, st2⟩ := p2
      rw [hv2] at h
      have hs2 := vp_sound recipes avail (validateFuel recipes t2) t2 st1 c2 st2
        hs1.1 hv2
      simp only [Option.some.injEq, Prod.mk.injEq] at h
      exact ⟨fun hb => hs1.2 (h.1 ▸ hb), fun hb => hs2.2 (h.2 ▸ hb)⟩

/-- Witness for claim6_shared_true_sound: the order C then D on
sharedCatalog returns (true, true), and both verdicts are sound. -/
theorem claim6_witness :
    Producible sharedCatalog ["G"] "C" ∧ Producible sharedCatalog ["G"] "D" := by
  have h := claim6_shared_true_sound sharedCatalog ["G"] "C" "D" true true (by decide)
  exact ⟨h.1 rfl, h.2 rfl⟩

/-- C7 (confirmed, generalised). For every catalog in which each recipe
needs at least one input and no product is directly available — in
particular any catalog whose dependency graph is a cycle with no
reachable ground input — the checker terminates and answers false: the
fuel-bounded run completes (returning some rather than the out-of-fuel
none, which is the termination statement for the recursion) with result
false, and validate_product returns false. -/
theorem claim7_cycle_terminates_false (recipes : List Recipe) (t : Product)
    (hrec : ∀ r ∈ recipes, r.inProducts ≠ []) :
    (vp recipes [] (validateFuel recipes t) t ⟨[], []⟩).map Prod.fst =
        some false ∧
      validate_product recipes [] t = false := by
  have hs := vp_fuel_sufficient recipes [] t
  cases hv : vp recipes [] (validateFuel recipes t) t ⟨[], []⟩ with
  | none => rw [hv] at hs; exact absurd hs (by simp)
  | some p =>
    obtain ⟨b, st1⟩ := p
    have hb := (vp_notrue recipes hrec (validateFuel recipes t) t ⟨[], []⟩ b st1
      (by intro q hq; simp [dictGet] at hq) hv).2
    subst hb
    refine ⟨rfl, ?_⟩
    unfold validate_product
    rw [hv]

/-- Witness for claim7_cycle_terminates_false: the spec scenario with
recipes X needs Y and Y needs X and nothing available terminates with
answer false. -/
theorem claim7_witness :
    (vp cycleCatalog [] (validateFuel cycleCatalog "X") "X" ⟨[], []⟩).map
        Prod.fst = some false ∧
      validate_product cycleCatalog [] "X" = false :=
  claim7_cycle_terminates_false cycleCatalog "X" (by decide)

/-! Part B: the flow-graph builder ProductionGraph.create (graph.py).
Vertices are identified by their index in the vertex list (Python object
identity); each vertex owns two adjacency dicts mapping a neighbour
vertex to the connecting edge (modelled as neighbour index to edge index,
with Python dict overwrite semantics). Rates are rationals. -/

/-- Floor of a rational, written out so that the kernel can evaluate it
on concrete inputs; rfloor_eq identifies it with the floor of Mathlib. -/
def rfloor (q : ℚ) : ℤ := q.num / (q.den : ℤ)

/-- round_float_to_2 (common.py): round to two decimal places. The
trailing-zero normalisation of the Python function only changes the
display type and is value-preserving; the half-way behaviour of binary
floats is modelled as nearest-integer rounding. -/
def round2 (q : ℚ) : ℚ := (rfloor (100 * q + 1 / 2) : ℚ) / 100

theorem rfloor_eq (q : ℚ) : rfloor q = ⌊q⌋ := Rat.floor_def.symm

theorem round2_eq (q : ℚ) : round2 q = (round (100 * q) : ℚ) / 100 := by
  rw [round2, rfloor_eq, round_eq]

/-- FlowEdge (graph.py lines 8-13). -/
structure FlowEdge where
  product : Product
  provide : ℚ
  consume : ℚ
deriving Repr, DecidableEq

/-- The four vertex variants of graph.py with their defining fields. -/
inductive VKind where
  | source (product : Product) (provideRate : ℚ)
  | sink (product : Product) (receiveRate : ℚ)
  | machine (recipe : Recipe) (scale : ℤ)
  | waste (product : Product) (wastedRate : ℚ)
deriving Repr, DecidableEq

/-- A vertex: its variant data plus the two adjacency dicts of the Vertex
base class (graph.py lines 17-27), keyed by neighbour vertex (index) with
the connecting edge (index) as value. -/
structure Vertex where
  kind : VKind
  src : List (Nat × Nat)
  dst : List (Nat × Nat)
deriving Repr, DecidableEq

/-- ProductionGraph state: the vertex list and edge list (graph.py lines
91-101); both grow by appending. -/
structure PGraph where
  vertices : List Vertex
  edges : List FlowEdge
deriving Repr, DecidableEq

/-- MachineVertex.in_demands (graph.py lines 59-62): recipe input rates
scaled by the machine scale, in recipe insertion order. -/
def inDemands (r : Recipe) (scale : ℤ) : List (Product × ℚ) :=
  r.inputs.map (fun pr => (pr.1, pr.2 * scale))

/-- MachineVertex.out_available (graph.py lines 64-67). -/
def outAvailable (r : Recipe) (scale : ℤ) : List (Product × ℚ) :=
  r.outputs.map (fun pr => (pr.1, pr.2 * scale))

/-- Replace the element at an index, leaving the list unchanged when the
index is out of range. -/
def listModify {α : Type} (l : List α) (i : Nat) (f : α → α) : List α :=
  match l, i with
  | [], _ => []
  | a :: as, 0 => f a :: as
  | a :: as, n + 1 => a :: listModify as n f

/-- Vertex data at an index. -/
def kindAt (g : PGraph) (i : Nat) : Option VKind :=
  (g.vertices[i]?).map Vertex.kind

/-- Append a fresh vertex with empty adjacency dicts. -/
def addVertex (g : PGraph) (k : VKind) : PGraph :=
  { g with vertices := g.vertices ++ [⟨k, [], []⟩] }

/-- In-place update of the vertex at an index. -/
def modifyVertex (g : PGraph) (i : Nat) (f : Vertex → Vertex) : PGraph :=
  { g with vertices := listModify g.vertices i f }

/-- The edge-creation triple used at every creation site of create:
self.add_edge(edge); producer.add_dst(consumer, edge);
consumer.add_src(producer, edge) (graph.py lines 138-140, 151-153,
182-184, 201-203, 216-218). -/
def connect (g : PGraph) (i j : Nat) (e : FlowEdge) : PGraph :=
  let k := g.edges.length
  let g1 : PGraph := { g with edges := g.edges ++ [e] }
  let g2 := modifyVertex g1 i (fun v => { v with dst := dictSet v.dst j k })
  modifyVertex g2 j (fun v => { v with src := dictSet v.src i k })

/-- Errors: the ValueError raises of create, with the offending product
and remainder. -/
inductive BuildErr where
  | sourceUnused (p : Product) (q : ℚ)
  | negativeRemaining (p : Product) (q : ℚ)
  | machineUnused (p : Product) (q : ℚ)
deriving Repr, DecidableEq

/-- Run a loop body over a list, stopping at the first error but keeping
the state built so far (a raise in Python propagates with self already
mutated). -/
def runSteps {σ α : Type} (f : σ → α → σ × Option BuildErr) :
    σ → List α → σ × Option BuildErr
  | s, [] => (s, none)
  | s, a :: as =>
    match f s a with
    | (s1, none) => runSteps f s1 as
    | (s1, some e) => (s1, some e)

/-- Inner body of the Source to Machine loop (graph.py lines 129-144):
for one source (index i, product sp) and one candidate vertex index j,
connect at the machine's full demand, decrement the unused rate, and
raise if it went negative. -/
def sourceMachineStep (i : Nat) (sp : Product) (s : PGraph × ℚ) (j : Nat) :
    (PGraph × ℚ) × Option BuildErr :=
  match (s.1.vertices[j]?).map Vertex.kind with
  | some (.machine r sc) =>
    match dictGet (inDemands r sc) sp with
    | some d =>
      let g1 := connect s.1 i j ⟨sp, round2 d, round2 d⟩
      let unused1 := round2 (s.2 - d)
      ((g1, unused1),
        if unused1 < 0 then some (.sourceUnused sp unused1) else none)
    | none => (s, none)
  | _ => (s, none)

/-- One source vertex of the ingredient-edge pass (graph.py lines
121-153): walk all vertices connecting to the machines that demand the
product, then park any positive remainder on a fresh Waste vertex. In
Python the walked list is self.vertices, which can already contain Waste
vertices appended for earlier sources; those fail the MachineVertex
check, so walking the indices present on entry is equivalent. -/
def sourceStep (g : PGraph) (i : Nat) : PGraph × Option BuildErr :=
  match (g.vertices[i]?).map Vertex.kind with
  | some (.source sp rate) =>
    match runSteps (sourceMachineStep i sp) (g, rate)
        (List.range g.vertices.length) with
    | ((g1, unused), none) =>
      if 0 < unused then
        let w := g1.vertices.length
        let g2 := addVertex g1 (.waste sp (round2 unused))
        (connect g2 i w ⟨sp, round2 unused, round2 unused⟩, none)
      else (g1, none)
    | ((g1, _), some e) => (g1, some e)
  | _ => (g, none)

/-- The remaining-demand ledger (graph.py lines 156-159): for every
machine vertex, a fresh copy of its input demand dict. -/
def initRemaining (g : PGraph) : List (Nat × List (Product × ℚ)) :=
  (List.range g.vertices.length).filterMap fun j =>
    match (g.vertices[j]?).map Vertex.kind with
    | some (.machine r sc) => some (j, inDemands r sc)
    | _ => none

/-- Inner body of the Machine to Machine loop (graph.py lines 171-188):
for producer i, product p and candidate consumer index j. Vertices
without a ledger entry (non-machines) are skipped, matching the
isinstance plus membership guard. The ledger read
remaining_demands[vertex][product] and the unused read
unused_products[product] cannot miss in Python; absent keys default to
skip and 0 respectively. -/
def m2mConsumerStep (i : Nat) (p : Product)
    (s : PGraph × List (Nat × List (Product × ℚ)) × List (Product × ℚ))
    (j : Nat) :
    (PGraph × List (Nat × List (Product × ℚ)) × List (Product × ℚ)) ×
      Option BuildErr :=
  let (g, rem, unu) := s
  match dictGet rem j with
  | none => (s, none)
  | some dm =>
    match dictGet dm p with
    | none => (s, none)
    | some rd =>
      if rd < 0 then (s, some (.negativeRemaining p rd))
      else if rd = 0 then (s, none)
      else
        let up := (dictGet unu p).getD 0
        let assign := min up rd
        let g1 := connect g i j ⟨p, round2 assign, round2 assign⟩
        let rem1 := dictSet rem j (dictSet dm p (rd - assign))
        let unu1 := dictSet unu p (up - assign)
        ((g1, rem1, unu1),
          if up - assign < 0 then some (.machineUnused p (up - assign))
          else none)

/-- First index of a Sink vertex for the product, scanning from index k:
the located target output vertex of graph.py lines 194-198. -/
def findSinkFrom (vs : List Vertex) (p : Product) (k : Nat) : Option Nat :=
  match vs with
  | [] => none
  | v :: rest =>
    match v.kind with
    | .sink q _ => if q = p then some k else findSinkFrom rest p (k + 1)
    | _ => findSinkFrom rest p (k + 1)

/-- Add remain to the receive_rate of the sink at index oj (graph.py line
205). -/
def bumpSink (g : PGraph) (oj : Nat) (remain : ℚ) : PGraph :=
  modifyVertex g oj (fun v =>
    match v.kind with
    | .sink q rr => { v with kind := .sink q (rr + remain) }
    | _ => v)

/-- One product of the output-to-sink routing (graph.py lines 190-208):
if the product is a requested output with a nonzero leftover, route the
leftover in full to the first matching Sink, increment its accumulated
rate, and zero the leftover. No raise can occur here. -/
def sinkStep (outKeys : List Product) (i : Nat)
    (s : PGraph × List (Product × ℚ)) (p : Product) :
    PGraph × List (Product × ℚ) :=
  let (g, unu) := s
  let remainQ := (dictGet unu p).getD 0
  if p ∈ outKeys ∧ remainQ ≠ 0 then
    match findSinkFrom g.vertices p 0 with
    | some oj =>
      let g1 := connect g i oj ⟨p, round2 remainQ, round2 remainQ⟩
      let g2 := bumpSink g1 oj remainQ
      (g2, dictSet unu p (round2 0))
    | none => (g, unu)
  else (g, unu)

/-- One product of the waste recording (graph.py lines 210-218): a
positive leftover gets a dedicated Waste vertex fed by the producer. -/
def wasteStep (i : Nat) (g : PGraph) (pu : Product × ℚ) : PGraph :=
  if 0 < pu.2 then
    let w := g.vertices.length
    let g1 := addVertex g (.waste pu.1 (round2 pu.2))
    connect g1 i w ⟨pu.1, round2 pu.2, round2 pu.2⟩
  else g

/-- One producing machine of the output-edge pass (graph.py lines
162-218): walk the output products in order, allocating
min(remaining output, remaining demand) to each machine that still has
unmet demand, then route leftovers of requested products to their sinks,
then park any remaining leftover on Waste vertices. As with the source
pass, walking the vertex indices present on entry is equivalent to
walking self.vertices, since vertices appended meanwhile are Waste
vertices with no ledger entry. -/
def machineStep (outKeys : List Product)
    (s : PGraph × List (Nat × List (Product × ℚ))) (i : Nat) :
    (PGraph × List (Nat × List (Product × ℚ))) × Option BuildErr :=
  let (g, rem) := s
  match (g.vertices[i]?).map Vertex.kind with
  | some (.machine r sc) =>
    let avail := outAvailable r sc
    let consumers := List.range g.vertices.length
    match runSteps (fun s3 p => runSteps (m2mConsumerStep i p) s3 consumers)
        (g, rem, avail) (avail.map Prod.fst) with
    | ((g1, rem1, _), some e) => ((g1, rem1), some e)
    | ((g1, rem1, unu1), none) =>
      let (g2, unu2) := (unu1.map Prod.fst).foldl (sinkStep outKeys i) (g1, unu1)
      let g3 := unu2.foldl (wasteStep i) g2
      ((g3, rem1), none)
  | _ => (s, none)

/-- Vertex instantiation for the inputs (graph.py lines 106-108). -/
def addSourceVertices (g : PGraph) (inputsL : List (Product × ℚ)) : PGraph :=
  inputsL.foldl (fun g2 pr => addVertex g2 (.source pr.1 (round2 pr.2))) g

/-- Vertex instantiation for the outputs (graph.py lines 110-112): the
score is ignored and the accumulated rate starts at 0. -/
def addSinkVertices (g : PGraph) (outputsL : List (Product × ℚ)) : PGraph :=
  outputsL.foldl (fun g2 pr => addVertex g2 (.sink pr.1 0)) g

/-- Vertex instantiation for the plan (graph.py lines 114-118): one
machine per entry, skipping only scale equal to zero. -/
def addMachineVertices (g : PGraph) (plan : List (Recipe × ℤ)) : PGraph :=
  plan.foldl (fun g2 rs => if rs.2 = 0 then g2 else
    addVertex g2 (.machine rs.1 rs.2)) g

/-- Pass 1 of ProductionGraph.create (graph.py lines 105-118): vertex
instantiation for inputs, outputs and the non-zero-scale plan entries. -/
def createBase (plan : List (Recipe × ℤ)) (inputsL : List (Product × ℚ))
    (outputsL : List (Product × ℚ)) : PGraph :=
  addMachineVertices
    (addSinkVertices (addSourceVertices ⟨[], []⟩ inputsL) outputsL) plan

/-- ProductionGraph.create (graph.py lines 103-218). Returns the graph
state together with the raised error, if any; on an error the state is
the partially built graph at the moment of the raise, exactly as the
mutated self of the Python object. -/
def create (plan : List (Recipe × ℤ)) (inputsL : List (Product × ℚ))
    (outputsL : List (Product × ℚ)) : PGraph × Option BuildErr :=
  let g0 := createBase plan inputsL outputsL
  match runSteps sourceStep g0 (List.range g0.vertices.length) with
  | (g1, some e) => (g1, some e)
  | (g1, none) =>
    match runSteps (machineStep (outputsL.map Prod.fst)) (g1, initRemaining g1)
        (List.range g1.vertices.length) with
    | ((g2, _), e) => (g2, e)

/-- MachineVertex.satisfied (graph.py lines 69-77) for the machine at
index i: every scaled input demand is covered by the incoming flows of
that product. Non-machine vertices have no demands and count as
satisfied. -/
def inFlowSum (g : PGraph) (v : Vertex) (p : Product) : ℚ :=
  (v.src.map fun jk =>
    match g.edges[jk.2]? with
    | some e => if e.product = p then e.provide else 0
    | none => 0).sum

/-- Decision of satisfied for the vertex at index i. -/
def satisfied (g : PGraph) (i : Nat) : Bool :=
  match g.vertices[i]? with
  | some v =>
    match v.kind with
    | .machine r sc =>
      (inDemands r sc).all fun pd => decide (pd.2 ≤ inFlowSum g v pd.1)
    | _ => true
  | none => true

/-! Rounding and two-decimal representability. -/

/-- A rate representable exactly at two decimal places. -/
def TwoDec (q : ℚ) : Prop := ∃ n : ℤ, q = n / 100

theorem TwoDec.round2_self : ∀ {q : ℚ}, TwoDec q → round2 q = q := by
  rintro q ⟨n, rfl⟩
  rw [round2_eq]
  have h100 : (100 : ℚ) ≠ 0 := by norm_num
  have harg : 100 * ((n : ℚ) / 100) = (n : ℚ) := by field_simp
  rw [harg, round_intCast]

theorem TwoDec.sub {a b : ℚ} (ha : TwoDec a) (hb : TwoDec b) : TwoDec (a - b) := by
  obtain ⟨n, rfl⟩ := ha
  obtain ⟨m, rfl⟩ := hb
  exact ⟨n - m, by push_cast; ring⟩

theorem TwoDec.zero : TwoDec 0 := ⟨0, by norm_num⟩

theorem round2_twoDec (q : ℚ) : TwoDec (round2 q) :=
  ⟨rfloor (100 * q + 1 / 2), rfl⟩

theorem round2_nonneg {q : ℚ} (h : 0 ≤ q) : 0 ≤ round2 q := by
  rw [round2_eq]
  have h1 : (0 : ℤ) ≤ round (100 * q) := by
    rw [round_eq]
    refine Int.le_floor.mpr ?_
    push_cast
    linarith
  positivity

theorem round2_zero : round2 0 = 0 := TwoDec.round2_self TwoDec.zero

/-! Small access lemmas for the graph operations. -/

/-- Outgoing adjacency dict of the vertex at an index. -/
def dstAt (g : PGraph) (i : Nat) : List (Nat × Nat) :=
  ((g.vertices[i]?).map Vertex.dst).getD []

/-- Incoming adjacency dict of the vertex at an index. -/
def srcAt (g : PGraph) (i : Nat) : List (Nat × Nat) :=
  ((g.vertices[i]?).map Vertex.src).getD []

theorem listModify_get {α : Type} (l : List α) (i : Nat) (f : α → α) (j : Nat) :
    (listModify l i f)[j]? = if i = j then (l[j]?).map f else l[j]? := by
  induction l generalizing i j with
  | nil => simp [listModify]
  | cons a as ih =>
    cases i with
    | zero =>
      cases j with
      | zero => simp [listModify]
      | succ j2 => simp [listModify]
    | succ i2 =>
      cases j with
      | zero => simp [listModify]
      | succ j2 =>
        simp only [listModify, List.getElem?_cons_succ]
        rw [ih i2 j2]
        by_cases h : i2 = j2
        · simp [h]
        · have h2 : ¬(i2 + 1 = j2 + 1) := fun hh => h (Nat.succ_injective hh)
          simp [h, h2]

theorem listModify_length {α : Type} (l : List α) (i : Nat) (f : α → α) :
    (listModify l i f).length = l.length := by
  induction l generalizing i with
  | nil => simp [listModify]
  | cons a as ih =>
    cases i with
    | zero => simp [listModify]
    | succ i2 => simp [listModify, ih i2]

theorem dictSet_fresh {κ β : Type} [DecidableEq κ] (d : List (κ × β)) (k : κ)
    (v : β) (h : k ∉ d.map Prod.fst) :
    dictSet d k v = d ++ [(k, v)] := by
  induction d with
  | nil => simp [dictSet]
  | cons kv rest ih =>
    obtain ⟨k0, v0⟩ := kv
    simp only [List.map_cons, List.mem_cons, not_or] at h
    have hk0 : ¬(k0 = k) := fun hh => h.1 hh.symm
    simp only [dictSet, hk0, if_false]
    rw [ih h.2]
    simp

theorem dictSet_keys {κ β : Type} [DecidableEq κ] (d : List (κ × β)) (k : κ)
    (v : β) (x : κ) (hx : x ∈ (dictSet d k v).map Prod.fst) :
    x ∈ d.map Prod.fst ∨ x = k := by
  induction d with
  | nil =>
    simp [dictSet] at hx
    exact Or.inr hx
  | cons kv rest ih =>
    obtain ⟨k0, v0⟩ := kv
    by_cases h : k0 = k
    · simp only [dictSet, h, if_true, List.map_cons, List.mem_cons] at hx
      rcases hx with hx | hx
      · exact Or.inr hx
      · exact Or.inl (by simp [hx])
    · simp only [dictSet, h, if_false, List.map_cons, List.mem_cons] at hx
      rcases hx with hx | hx
      · exact Or.inl (by simp [hx])
      · rcases ih hx with h2 | h2
        · exact Or.inl (by simp [h2])
        · exact Or.inr h2

/-! Behaviour of the primitive graph operations on the accessors. -/

theorem edges_addVertex (g : PGraph) (k : VKind) :
    (addVertex g k).edges = g.edges := rfl

theorem vertices_length_addVertex (g : PGraph) (k : VKind) :
    (addVertex g k).vertices.length = g.vertices.length + 1 := by
  simp [addVertex]

theorem get_append_one {α : Type} (l : List α) (x : α) (i : Nat) :
    (l ++ [x])[i]? =
      if i < l.length then l[i]?
      else if i = l.length then some x else none := by
  induction l generalizing i with
  | nil =>
    cases i with
    | zero => simp
    | succ i2 => simp
  | cons a as ih =>
    cases i with
    | zero => simp
    | succ i2 =>
      simp only [List.cons_append, List.getElem?_cons_succ, ih i2, List.length_cons]
      by_cases h1 : i2 < as.length
      · simp [h1, Nat.succ_lt_succ h1]
      · by_cases h2 : i2 = as.length
        · simp [h1, h2]
        · have h3 : ¬(i2 + 1 < as.length + 1) := by omega
          have h4 : ¬(i2 + 1 = as.length + 1) := by omega
          simp [h1, h2, h3, h4]

theorem getElem_none_of_le {α : Type} (l : List α) (i : Nat)
    (h : l.length ≤ i) : l[i]? = none := by
  induction l generalizing i with
  | nil => simp
  | cons a as ih =>
    cases i with
    | zero => simp at h
    | succ i2 =>
      simp only [List.getElem?_cons_succ]
      exact ih i2 (by simpa using h)

theorem kindAt_addVertex (g : PGraph) (k : VKind) (i : Nat) :
    kindAt (addVertex g k) i =
      if i = g.vertices.length then some k else kindAt g i := by
  simp only [kindAt, addVertex, get_append_one]
  by_cases h1 : i < g.vertices.length
  · have h2 : ¬(i = g.vertices.length) := by omega
    simp [h1, h2]
  · by_cases h2 : i = g.vertices.length
    · simp [h1, h2]
    · have h3 : (g.vertices[i]?) = none := getElem_none_of_le _ _ (by omega)
      simp [h1, h2, h3]

theorem dstAt_addVertex (g : PGraph) (k : VKind) (i : Nat) :
    dstAt (addVertex g k) i = dstAt g i := by
  simp only [dstAt, addVertex, get_append_one]
  by_cases h1 : i < g.vertices.length
  · have h2 : ¬(i = g.vertices.length) := by omega
    simp [h1, h2]
  · have h3 : (g.vertices[i]?) = none := getElem_none_of_le _ _ (by omega)
    by_cases h2 : i = g.vertices.length
    · simp [h1, h2, h3]
    · simp [h1, h2, h3]

theorem srcAt_addVertex (g : PGraph) (k : VKind) (i : Nat) :
    srcAt (addVertex g k) i = srcAt g i := by
  simp only [srcAt, addVertex, get_append_one]
  by_cases h1 : i < g.vertices.length
  · have h2 : ¬(i = g.vertices.length) := by omega
    simp [h1, h2]
  · have h3 : (g.vertices[i]?) = none := getElem_none_of_le _ _ (by omega)
    by_cases h2 : i = g.vertices.length
    · simp [h1, h2, h3]
    · simp [h1, h2, h3]

theorem edges_connect (g : PGraph) (i j : Nat) (e : FlowEdge) :
    (connect g i j e).edges = g.edges ++ [e] := by
  simp [connect, modifyVertex]

theorem vertices_length_connect (g : PGraph) (i j : Nat) (e : FlowEdge) :
    (connect g i j e).vertices.length = g.vertices.length := by
  simp [connect, modifyVertex, listModify_length]

theorem kindAt_connect (g : PGraph) (i j : Nat) (e : FlowEdge) (x : Nat) :
    kindAt (connect g i j e) x = kindAt g x := by
  simp only [connect, modifyVertex, kindAt, listModify_get]
  by_cases h1 : j = x
  · by_cases h2 : i = x <;> simp [h1, h2] <;> cases g.vertices[x]? <;> rfl
  · by_cases h2 : i = x
    · simp only [h1, h2, if_true, if_false]
      cases g.vertices[x]? <;> rfl
    · simp [h1, h2]

theorem dstAt_connect_self (g : PGraph) (i j : Nat) (e : FlowEdge)
    (hi : i < g.vertices.length) :
    dstAt (connect g i j e) i = dictSet (dstAt g i) j g.edges.length := by
  obtain ⟨v, hv⟩ : ∃ v, g.vertices[i]? = some v := by
    rw [List.getElem?_eq_getElem hi]
    exact ⟨_, rfl⟩
  simp only [connect, modifyVertex, dstAt, listModify_get]
  by_cases h1 : j = i
  · simp [h1, hv]
  · simp [h1, hv]

theorem dstAt_connect_ne (g : PGraph) (i j : Nat) (e : FlowEdge) (x : Nat)
    (hx : x ≠ i) :
    dstAt (connect g i j e) x = dstAt g x := by
  have hxi : ¬(i = x) := fun hh => hx hh.symm
  simp only [connect, modifyVertex, dstAt, listModify_get, hxi, if_false]
  by_cases h1 : j = x
  · simp only [h1, if_true]
    cases g.vertices[x]? <;> rfl
  · simp [h1]

theorem srcAt_connect_self (g : PGraph) (i j : Nat) (e : FlowEdge)
    (hj : j < g.vertices.length) :
    srcAt (connect g i j e) j = dictSet (srcAt g j) i g.edges.length := by
  obtain ⟨v, hv⟩ : ∃ v, g.vertices[j]? = some v := by
    rw [List.getElem?_eq_getElem hj]
    exact ⟨_, rfl⟩
  simp only [connect, modifyVertex, srcAt, listModify_get]
  by_cases h1 : i = j
  · simp [h1, hv]
  · simp [h1, hv]

theorem srcAt_connect_ne (g : PGraph) (i j : Nat) (e : FlowEdge) (x : Nat)
    (hx : x ≠ j) :
    srcAt (connect g i j e) x = srcAt g x := by
  have hxj : ¬(j = x) := fun hh => hx hh.symm
  simp only [connect, modifyVertex, srcAt, listModify_get, hxj, if_false]
  by_cases h1 : i = x
  · simp only [h1, if_true]
    cases g.vertices[x]? <;> rfl
  · simp [h1]

theorem edges_bumpSink (g : PGraph) (oj : Nat) (d : ℚ) :
    (bumpSink g oj d).edges = g.edges := rfl

theorem vertices_length_bumpSink (g : PGraph) (oj : Nat) (d : ℚ) :
    (bumpSink g oj d).vertices.length = g.vertices.length := by
  simp [bumpSink, modifyVertex, listModify_length]

theorem dstAt_bumpSink (g : PGraph) (oj : Nat) (d : ℚ) (x : Nat) :
    dstAt (bumpSink g oj d) x = dstAt g x := by
  simp only [bumpSink, modifyVertex, dstAt, listModify_get]
  by_cases h1 : oj = x
  · simp only [h1, if_true]
    cases hv : g.vertices[x]? with
    | none => rfl
    | some v => cases hk : v.kind <;> simp [hk]
  · simp [h1]

theorem srcAt_bumpSink (g : PGraph) (oj : Nat) (d : ℚ) (x : Nat) :
    srcAt (bumpSink g oj d) x = srcAt g x := by
  simp only [bumpSink, modifyVertex, srcAt, listModify_get]
  by_cases h1 : oj = x
  · simp only [h1, if_true]
    cases hv : g.vertices[x]? with
    | none => rfl
    | some v => cases hk : v.kind <;> simp [hk]
  · simp [h1]

theorem kindAt_bumpSink_ne (g : PGraph) (oj : Nat) (d : ℚ) (x : Nat)
    (hx : x ≠ oj) :
    kindAt (bumpSink g oj d) x = kindAt g x := by
  have h1 : ¬(oj = x) := fun hh => hx hh.symm
  simp [bumpSink, modifyVertex, kindAt, listModify_get, h1]

theorem kindAt_bumpSink_cases (g : PGraph) (oj : Nat) (d : ℚ) (x : Nat) :
    kindAt (bumpSink g oj d) x = kindAt g x ∨
      ∃ p r, kindAt g x = some (.sink p r) ∧
        kindAt (bumpSink g oj d) x = some (.sink p (r + d)) := by
  by_cases h1 : x = oj
  · subst h1
    simp only [bumpSink, modifyVertex, kindAt, listModify_get, if_pos rfl]
    cases hv : g.vertices[x]? with
    | none => left; rfl
    | some v =>
      cases hk : v.kind with
      | sink p r => right; exact ⟨p, r, by simp [hk], by simp [hk]⟩
      | source p r => left; simp [hk]
      | machine r sc => left; simp [hk]
      | waste p r => left; simp [hk]
  · exact Or.inl (kindAt_bumpSink_ne g oj d x h1)

/-! Stability of the construction: edges are append-only, vertex kinds
change only by a sink accumulating rate, and every vertex appended after
pass 1 is a Waste vertex. -/

/-- Provide rate of the edge at an index (0 when absent). -/
def edgeVal (g : PGraph) (k : Nat) : ℚ :=
  match g.edges[k]? with
  | some e => e.provide
  | none => 0

/-- Whether the vertex at an index is a Waste vertex. -/
def isWasteTgt (g : PGraph) (j : Nat) : Bool :=
  match kindAt g j with
  | some (.waste _ _) => true
  | _ => false

/-- How one builder step may change the graph: edges only appended, kinds
fixed except sink rate accumulation, vertices only appended, and appended
vertices are Waste vertices. -/
def Evolves (g g' : PGraph) : Prop :=
  (∀ (k : Nat) (e : FlowEdge), g.edges[k]? = some e → g'.edges[k]? = some e) ∧
  (∀ x k, kindAt g x = some k →
    (kindAt g' x = some k ∨
      ∃ p r r2, k = VKind.sink p r ∧ kindAt g' x = some (.sink p r2))) ∧
  g.vertices.length ≤ g'.vertices.length ∧
  (∀ x, g.vertices.length ≤ x →
    kindAt g' x = none ∨ ∃ p r, kindAt g' x = some (.waste p r))

theorem evolves_self (g : PGraph) : Evolves g g := by
  refine ⟨fun k e h => h, fun x k h => Or.inl h, Nat.le_refl _, fun x hx => ?_⟩
  left
  simp only [kindAt]
  rw [getElem_none_of_le _ _ hx]
  rfl

theorem Evolves.trans {g1 g2 g3 : PGraph} (h12 : Evolves g1 g2)
    (h23 : Evolves g2 g3) : Evolves g1 g3 := by
  obtain ⟨e12, k12, l12, w12⟩ := h12
  obtain ⟨e23, k23, l23, w23⟩ := h23
  refine ⟨fun k e h => e23 k e (e12 k e h), ?_, Nat.le_trans l12 l23, ?_⟩
  · intro x k h
    rcases k12 x k h with h2 | ⟨p, r, r2, hk, h2⟩
    · exact k23 x k h2
    · rcases k23 x _ h2 with h3 | ⟨p2, r3, r4, hk2, h3⟩
      · exact Or.inr ⟨p, r, r2, hk, h3⟩
      · obtain ⟨hp, _⟩ := VKind.sink.injEq .. ▸ hk2
        exact Or.inr ⟨p, r, r4, hk, hp ▸ h3⟩
  · intro x hx
    rcases w12 x hx with h2 | ⟨p, r, h2⟩
    · rcases Nat.lt_or_ge x g2.vertices.length with hlt | hge
      · exfalso
        have : ∃ v, g2.vertices[x]? = some v := by
          rw [List.getElem?_eq_getElem hlt]
          exact ⟨_, rfl⟩
        obtain ⟨v, hv⟩ := this
        simp [kindAt, hv] at h2
      · exact w23 x hge
    · rcases k23 x _ h2 with h3 | ⟨p2, r3, r4, hk2, h3⟩
      · exact Or.inr ⟨p, r, h3⟩
      · exact absurd hk2 (by simp)

theorem evolves_addVertex (g : PGraph) (p : Product) (r : ℚ) :
    Evolves g (addVertex g (.waste p r)) := by
  refine ⟨fun k e h => h, ?_, ?_, ?_⟩
  · intro x k h
    left
    rw [kindAt_addVertex]
    have hx : x < g.vertices.length := by
      by_contra hc
      rw [kindAt, getElem_none_of_le _ _ (by omega)] at h
      simp at h
    have h2 : ¬(x = g.vertices.length) := by omega
    simp [h2, h]
  · rw [vertices_length_addVertex]
    omega
  · intro x hx
    rw [kindAt_addVertex]
    by_cases h2 : x = g.vertices.length
    · exact Or.inr ⟨p, r, by simp [h2]⟩
    · left
      simp only [h2, if_false, kindAt]
      rw [getElem_none_of_le _ _ hx]
      rfl

theorem evolves_connect (g : PGraph) (i j : Nat) (e : FlowEdge) :
    Evolves g (connect g i j e) := by
  refine ⟨?_, ?_, ?_, ?_⟩
  · intro k e2 h
    rw [edges_connect, get_append_one]
    have hk : k < g.edges.length := by
      by_contra hc
      rw [getElem_none_of_le _ _ (by omega)] at h
      simp at h
    simp [hk, h]
  · intro x k h
    left
    rw [kindAt_connect]
    exact h
  · rw [vertices_length_connect]
  · intro x hx
    left
    rw [kindAt_connect]
    simp only [kindAt]
    rw [getElem_none_of_le _ _ hx]
    rfl

theorem evolves_bumpSink (g : PGraph) (oj : Nat) (d : ℚ) :
    Evolves g (bumpSink g oj d) := by
  refine ⟨?_, ?_, ?_, ?_⟩
  · intro k e h
    rw [edges_bumpSink]
    exact h
  · intro x k h
    rcases kindAt_bumpSink_cases g oj d x with h2 | ⟨p, r, h2, h3⟩
    · exact Or.inl (h2 ▸ h)
    · rw [h2] at h
      obtain hk := Option.some.injEq .. ▸ h
      exact Or.inr ⟨p, r, r + d, hk.symm, h3⟩
  · rw [vertices_length_bumpSink]
  · intro x hx
    rcases kindAt_bumpSink_cases g oj d x with h2 | ⟨p, r, h2, h3⟩
    · left
      rw [h2]
      simp only [kindAt]
      rw [getElem_none_of_le _ _ hx]
      rfl
    · exfalso
      rw [kindAt, getElem_none_of_le _ _ hx] at h2
      simp at h2

/-! Generic induction lemmas for the loop combinators. -/

theorem runSteps_obs {σ α β : Type} (f : σ → α → σ × Option BuildErr)
    (obs : σ → β) (h : ∀ s a, obs (f s a).1 = obs s) :
    ∀ l s, obs (runSteps f s l).1 = obs s := by
  intro l
  induction l with
  | nil => intro s; rfl
  | cons a as ih =>
    intro s
    simp only [runSteps]
    cases hf : f s a with
    | mk s1 err =>
      cases err with
      | none =>
        simp only
        rw [ih s1, ← h s a, hf]
      | some e =>
        simp only
        rw [← h s a, hf]

theorem foldl_obs {σ α β : Type} (f : σ → α → σ) (obs : σ → β)
    (h : ∀ s a, obs (f s a) = obs s) :
    ∀ (l : List α) (s : σ), obs (l.foldl f s) = obs s := by
  intro l
  induction l with
  | nil => intro s; rfl
  | cons a as ih =>
    intro s
    simp only [List.foldl_cons]
    rw [ih (f s a), h s a]

theorem runSteps_rel {σ α : Type} (f : σ → α → σ × Option BuildErr)
    (rel : σ → σ → Prop) (hrfl : ∀ s, rel s s)
    (htrans : ∀ a b c, rel a b → rel b c → rel a c)
    (h : ∀ s a, rel s (f s a).1) :
    ∀ l s, rel s (runSteps f s l).1 := by
  intro l
  induction l with
  | nil => intro s; exact hrfl s
  | cons a as ih =>
    intro s
    simp only [runSteps]
    cases hf : f s a with
    | mk s1 err =>
      cases err with
      | none =>
        have h1 : rel s s1 := by
          have h2 := h s a
          rw [hf] at h2
          exact h2
        exact htrans _ _ _ h1 (ih s1)
      | some e =>
        have h2 := h s a
        rw [hf] at h2
        exact h2

theorem foldl_rel {σ α : Type} (f : σ → α → σ)
    (rel : σ → σ → Prop) (hrfl : ∀ s, rel s s)
    (htrans : ∀ a b c, rel a b → rel b c → rel a c)
    (h : ∀ s a, rel s (f s a)) :
    ∀ (l : List α) (s : σ), rel s (l.foldl f s) := by
  intro l
  induction l with
  | nil => intro s; exact hrfl s
  | cons a as ih =>
    intro s
    exact htrans _ _ _ (h s a) (ih (f s a))

theorem runSteps_inv {σ α : Type} (f : σ → α → σ × Option BuildErr)
    (Q : σ → Prop) :
    ∀ l s, (∀ s2 b, b ∈ l → Q s2 → (f s2 b).2 = none → Q (f s2 b).1) →
      Q s → (runSteps f s l).2 = none → Q (runSteps f s l).1 := by
  intro l
  induction l with
  | nil => intro s _ hQ _; exact hQ
  | cons a as ih =>
    intro s hstep hQ hok
    simp only [runSteps] at hok ⊢
    cases hf : f s a with
    | mk s1 err =>
      cases err with
      | none =>
        simp only
        have h1 : Q s1 := by
          have := hstep s a (List.mem_cons_self a as) hQ (by rw [hf])
          rw [hf] at this
          exact this
        rw [hf] at hok
        simp only at hok
        exact ih s1 (fun s2 b hb => hstep s2 b (List.mem_cons_of_mem a hb)) h1 hok
      | some e =>
        rw [hf] at hok
        simp at hok

/-! Every builder step evolves the graph in the Evolves sense, and a step
processing producer i changes no outgoing adjacency dict but that of i. -/

theorem evolves_sourceMachineStep (i : Nat) (sp : Product) (s : PGraph × ℚ)
    (j : Nat) : Evolves s.1 (sourceMachineStep i sp s j).1.1 := by
  simp only [sourceMachineStep]
  split
  · split
    · exact evolves_connect s.1 i j _
    · exact evolves_self s.1
  · exact evolves_self s.1

theorem evolves_sourceStep (g : PGraph) (i : Nat) :
    Evolves g (sourceStep g i).1 := by
  simp only [sourceStep]
  split
  · rename_i sp rate hkind
    have hloop := runSteps_rel (sourceMachineStep i sp)
      (fun a b => Evolves a.1 b.1) (fun s => evolves_self s.1)
      (fun _ _ _ => Evolves.trans)
      (fun s a => evolves_sourceMachineStep i sp s a)
      (List.range g.vertices.length) (g, rate)
    split
    · rename_i g1 unused heq
      rw [heq] at hloop
      split
      · exact hloop.trans ((evolves_addVertex g1 sp _).trans
          (evolves_connect _ i g1.vertices.length _))
      · exact hloop
    · rename_i g1 u e heq
      rw [heq] at hloop
      exact hloop
  · exact evolves_self g

theorem evolves_m2mConsumerStep (i : Nat) (p : Product)
    (s : PGraph × List (Nat × List (Product × ℚ)) × List (Product × ℚ))
    (j : Nat) : Evolves s.1 (m2mConsumerStep i p s j).1.1 := by
  obtain ⟨g, rem, unu⟩ := s
  simp only [m2mConsumerStep]
  split
  · exact evolves_self g
  · split
    · exact evolves_self g
    · split
      · exact evolves_self g
      · split
        · exact evolves_self g
        · exact evolves_connect g i j _

theorem evolves_sinkStep (outKeys : List Product) (i : Nat)
    (s : PGraph × List (Product × ℚ)) (p : Product) :
    Evolves s.1 (sinkStep outKeys i s p).1 := by
  obtain ⟨g, unu⟩ := s
  simp only [sinkStep]
  split
  · split
    · exact (evolves_connect g i _ _).trans (evolves_bumpSink _ _ _)
    · exact evolves_self g
  · exact evolves_self g

theorem evolves_wasteStep (i : Nat) (g : PGraph) (pu : Product × ℚ) :
    Evolves g (wasteStep i g pu) := by
  simp only [wasteStep]
  split
  · exact (evolves_addVertex g pu.1 (round2 pu.2)).trans
      (evolves_connect _ i _ _)
  · exact evolves_self g

theorem evolves_machineStep (outKeys : List Product)
    (s : PGraph × List (Nat × List (Product × ℚ))) (i : Nat) :
    Evolves s.1 (machineStep outKeys s i).1.1 := by
  obtain ⟨g, rem⟩ := s
  simp only [machineStep]
  split
  · rename_i r sc hkind
    have hloop := runSteps_rel (fun s3 p =>
        runSteps (m2mConsumerStep i p) s3 (List.range g.vertices.length))
      (fun a b => Evolves a.1 b.1) (fun s2 => evolves_self s2.1)
      (fun _ _ _ => Evolves.trans)
      (fun s2 a => runSteps_rel (m2mConsumerStep i a)
        (fun a2 b => Evolves a2.1 b.1) (fun s3 => evolves_self s3.1)
        (fun _ _ _ => Evolves.trans)
        (fun s3 a2 => evolves_m2mConsumerStep i a s3 a2)
        (List.range g.vertices.length) s2)
      ((outAvailable r sc).map Prod.fst) (g, rem, outAvailable r sc)
    split
    · rename_i g1 rem1 unu1 e heq
      rw [heq] at hloop
      exact hloop
    · rename_i g1 rem1 unu1 heq
      rw [heq] at hloop
      have hsink := foldl_rel (sinkStep outKeys i)
        (fun a b => Evolves a.1 b.1) (fun s2 => evolves_self s2.1)
        (fun _ _ _ => Evolves.trans)
        (fun s2 a => evolves_sinkStep outKeys i s2 a)
        (unu1.map Prod.fst) (g1, unu1)
      cases hs2 : (unu1.map Prod.fst).foldl (sinkStep outKeys i) (g1, unu1) with
      | mk g2 unu2 =>
        rw [hs2] at hsink
        have hwaste := foldl_rel (wasteStep i) Evolves evolves_self
          (fun _ _ _ => Evolves.trans)
          (fun s2 a => evolves_wasteStep i s2 a) unu2 g2
        simp only [hs2]
        exact (hloop.trans hsink).trans hwaste
  · exact evolves_self g

theorem evolves_sourcePass (g : PGraph) (l : List Nat) :
    Evolves g (runSteps sourceStep g l).1 :=
  runSteps_rel sourceStep Evolves evolves_self (fun _ _ _ => Evolves.trans)
    evolves_sourceStep l g

theorem evolves_machinePass (outKeys : List Product)
    (s : PGraph × List (Nat × List (Product × ℚ))) (l : List Nat) :
    Evolves s.1 (runSteps (machineStep outKeys) s l).1.1 :=
  runSteps_rel (machineStep outKeys) (fun a b => Evolves a.1 b.1)
    (fun s2 => evolves_self s2.1) (fun _ _ _ => Evolves.trans)
    (evolves_machineStep outKeys) l s

/-! More loop lemmas: unconditional invariants, list-indexed invariants for
freshness bookkeeping, and the process-one-element pattern. -/

theorem runSteps_always {σ α : Type} (f : σ → α → σ × Option BuildErr)
    (Q : σ → Prop) (hstep : ∀ s a, Q s → Q (f s a).1) :
    ∀ l s, Q s → Q (runSteps f s l).1 := by
  intro l
  induction l with
  | nil => intro s h; exact h
  | cons a as ih =>
    intro s h
    simp only [runSteps]
    cases hf : f s a with
    | mk s1 err =>
      have h1 : Q s1 := by
        have h2 := hstep s a h
        rw [hf] at h2
        exact h2
      cases err with
      | none => exact ih s1 h1
      | some e => exact h1

theorem foldl_always {σ α : Type} (f : σ → α → σ)
    (Q : σ → Prop) (hstep : ∀ s a, Q s → Q (f s a)) :
    ∀ (l : List α) (s : σ), Q s → Q (l.foldl f s) := by
  intro l
  induction l with
  | nil => intro s h; exact h
  | cons a as ih =>
    intro s h
    exact ih (f s a) (hstep s a h)

theorem runSteps_inv2 {σ α : Type} (f : σ → α → σ × Option BuildErr)
    (Q : σ → List α → Prop)
    (hstep : ∀ s b bs, b ∉ bs → Q s (b :: bs) → (f s b).2 = none →
      Q (f s b).1 bs) :
    ∀ l s, l.Nodup → Q s l → (runSteps f s l).2 = none →
      Q (runSteps f s l).1 [] := by
  intro l
  induction l with
  | nil => intro s _ hQ _; exact hQ
  | cons a as ih =>
    intro s hnd hQ hok
    simp only [runSteps] at hok ⊢
    cases hf : f s a with
    | mk s1 err =>
      cases err with
      | none =>
        simp only
        rw [hf] at hok
        simp only at hok
        have hna : a ∉ as := (List.nodup_cons.mp hnd).1
        have h1 : Q s1 as := by
          have h2 := hstep s a as hna hQ (by rw [hf])
          rw [hf] at h2
          exact h2
        exact ih s1 (List.nodup_cons.mp hnd).2 h1 hok
      | some e =>
        rw [hf] at hok
        simp at hok

theorem runSteps_one {σ α : Type} [DecidableEq α]
    (f : σ → α → σ × Option BuildErr) (i : α) (P Q : σ → Prop)
    (hP : ∀ s b, b ≠ i → P s → (f s b).2 = none → P (f s b).1)
    (hQ : ∀ s b, b ≠ i → Q s → (f s b).2 = none → Q (f s b).1)
    (hproc : ∀ s, P s → (f s i).2 = none → Q (f s i).1) :
    ∀ l s, i ∈ l → l.Nodup → P s → (runSteps f s l).2 = none →
      Q (runSteps f s l).1 := by
  intro l
  induction l with
  | nil => intro s h; exact absurd h (List.not_mem_nil i)
  | cons a as ih =>
    intro s hmem hnd hP0 hok
    simp only [runSteps] at hok ⊢
    cases hf : f s a with
    | mk s1 err =>
      cases err with
      | none =>
        simp only
        rw [hf] at hok
        simp only at hok
        by_cases ha : a = i
        · subst ha
          have h1 : Q s1 := by
            have h2 := hproc s hP0 (by rw [hf])
            rw [hf] at h2
            exact h2
          exact runSteps_inv f Q as s1
            (fun s2 b hb hQ2 hok2 =>
              hQ s2 b (fun hbi => (List.nodup_cons.mp hnd).1 (hbi ▸ hb)) hQ2 hok2)
            h1 hok
        · have hmem2 : i ∈ as := by
            rcases List.mem_cons.mp hmem with h | h
            · exact absurd h.symm ha
            · exact h
          have h1 : P s1 := by
            have h2 := hP s a ha hP0 (by rw [hf])
            rw [hf] at h2
            exact h2
          exact ih s1 hmem2 (List.nodup_cons.mp hnd).2 h1 hok
      | some e =>
        rw [hf] at hok
        simp at hok

/-! Extra association-list lemmas. -/

theorem dictGet_mem {κ β : Type} [DecidableEq κ] (d : List (κ × β)) (k : κ)
    (v : β) (h : dictGet d k = some v) : (k, v) ∈ d := by
  induction d with
  | nil => simp [dictGet] at h
  | cons kv rest ih =>
    obtain ⟨k0, v0⟩ := kv
    by_cases h0 : k0 = k
    · subst h0
      simp only [dictGet, if_true] at h
      obtain hv := Option.some.injEq .. ▸ h
      rw [← hv]
      exact List.mem_cons_self _ _
    · simp only [dictGet, h0, if_false] at h
      exact List.mem_cons_of_mem _ (ih h)

theorem dictGet_of_mem_nodup {κ β : Type} [DecidableEq κ]
    (d : List (κ × β)) (k : κ) (v : β) (hnd : (d.map Prod.fst).Nodup)
    (h : (k, v) ∈ d) : dictGet d k = some v := by
  induction d with
  | nil => simp at h
  | cons kv rest ih =>
    obtain ⟨k0, v0⟩ := kv
    simp only [List.map_cons, List.nodup_cons] at hnd
    rcases List.mem_cons.mp h with h1 | h1
    · obtain ⟨hk, hv⟩ := Prod.mk.injEq .. ▸ h1.symm
      simp [dictGet, hk, hv]
    · have hk0 : ¬(k0 = k) := by
        intro hc
        subst hc
        exact hnd.1 (by
          have : (k0, v) ∈ rest := h1
          exact List.mem_map_of_mem Prod.fst this)
      simp only [dictGet, hk0, if_false]
      exact ih hnd.2 h1

theorem dictSet_mem {κ β : Type} [DecidableEq κ] (d : List (κ × β)) (k : κ)
    (v : β) (x : κ × β) (hx : x ∈ dictSet d k v) :
    x ∈ d ∨ x = (k, v) := by
  induction d with
  | nil =>
    simp [dictSet] at hx
    exact Or.inr hx
  | cons kv rest ih =>
    obtain ⟨k0, v0⟩ := kv
    by_cases h : k0 = k
    · simp only [dictSet, h, if_true, List.mem_cons] at hx
      rcases hx with hx | hx
      · exact Or.inr hx
      · exact Or.inl (List.mem_cons_of_mem _ hx)
    · simp only [dictSet, h, if_false, List.mem_cons] at hx
      rcases hx with hx | hx
      · exact Or.inl (hx ▸ List.mem_cons_self _ _)
      · rcases ih hx with h2 | h2
        · exact Or.inl (List.mem_cons_of_mem _ h2)
        · exact Or.inr h2

/-! Pass 1 characterisation. -/

theorem addSourceVertices_cons (g : PGraph) (pr : Product × ℚ)
    (rest : List (Product × ℚ)) :
    addSourceVertices g (pr :: rest) =
      addSourceVertices (addVertex g (.source pr.1 (round2 pr.2))) rest := rfl

theorem addSinkVertices_cons (g : PGraph) (pr : Product × ℚ)
    (rest : List (Product × ℚ)) :
    addSinkVertices g (pr :: rest) =
      addSinkVertices (addVertex g (.sink pr.1 0)) rest := rfl

theorem addMachineVertices_cons (g : PGraph) (rs : Recipe × ℤ)
    (rest : List (Recipe × ℤ)) :
    addMachineVertices g (rs :: rest) =
      addMachineVertices
        (if rs.2 = 0 then g else addVertex g (.machine rs.1 rs.2)) rest := rfl

theorem dstAt_empty_base (plan : List (Recipe × ℤ))
    (inputsL outputsL : List (Product × ℚ)) (x : Nat) :
    dstAt (createBase plan inputsL outputsL) x = [] ∧
      srcAt (createBase plan inputsL outputsL) x = [] := by
  have hsrc : ∀ (l : List (Product × ℚ)) (g : PGraph),
      dstAt g x = [] ∧ srcAt g x = [] →
      dstAt (addSourceVertices g l) x = [] ∧
        srcAt (addSourceVertices g l) x = [] := by
    intro l
    induction l with
    | nil => intro g h; exact h
    | cons pr rest ih =>
      intro g h
      exact ih _ ⟨by rw [dstAt_addVertex]; exact h.1,
        by rw [srcAt_addVertex]; exact h.2⟩
  have hsink : ∀ (l : List (Product × ℚ)) (g : PGraph),
      dstAt g x = [] ∧ srcAt g x = [] →
      dstAt (addSinkVertices g l) x = [] ∧
        srcAt (addSinkVertices g l) x = [] := by
    intro l
    induction l with
    | nil => intro g h; exact h
    | cons pr rest ih =>
      intro g h
      exact ih _ ⟨by rw [dstAt_addVertex]; exact h.1,
        by rw [srcAt_addVertex]; exact h.2⟩
  have hmach : ∀ (l : List (Recipe × ℤ)) (g : PGraph),
      dstAt g x = [] ∧ srcAt g x = [] →
      dstAt (addMachineVertices g l) x = [] ∧
        srcAt (addMachineVertices g l) x = [] := by
    intro l
    induction l with
    | nil => intro g h; exact h
    | cons rs rest ih =>
      intro g h
      refine ih _ ?_
      by_cases h0 : rs.2 = 0
      · simpa [h0] using h
      · simp only [h0, if_false]
        exact ⟨by rw [dstAt_addVertex]; exact h.1,
          by rw [srcAt_addVertex]; exact h.2⟩
  refine hmach plan _ (hsink outputsL _ (hsrc inputsL _ ?_))
  constructor
  · simp [dstAt]
  · simp [srcAt]

theorem edges_base (plan : List (Recipe × ℤ))
    (inputsL outputsL : List (Product × ℚ)) :
    (createBase plan inputsL outputsL).edges = [] := by
  have hsrc : ∀ (l : List (Product × ℚ)) (g : PGraph),
      (addSourceVertices g l).edges = g.edges := by
    intro l
    induction l with
    | nil => intro g; rfl
    | cons pr rest ih => intro g; rw [addSourceVertices_cons]; exact ih _
  have hsink : ∀ (l : List (Product × ℚ)) (g : PGraph),
      (addSinkVertices g l).edges = g.edges := by
    intro l
    induction l with
    | nil => intro g; rfl
    | cons pr rest ih => intro g; rw [addSinkVertices_cons]; exact ih _
  have hmach : ∀ (l : List (Recipe × ℤ)) (g : PGraph),
      (addMachineVertices g l).edges = g.edges := by
    intro l
    induction l with
    | nil => intro g; rfl
    | cons rs rest ih =>
      intro g
      rw [addMachineVertices_cons, ih]
      by_cases h0 : rs.2 = 0 <;> simp [h0, edges_addVertex]
  rw [createBase, hmach, hsink, hsrc]

/-- Every vertex kind present after pass 1 is a source made from an input
entry (rate already rounded), a sink made from an output entry (rate 0),
or a machine made from a non-zero plan entry. -/
theorem kindAt_base (plan : List (Recipe × ℤ))
    (inputsL outputsL : List (Product × ℚ)) (x : Nat) (k : VKind)
    (h : kindAt (createBase plan inputsL outputsL) x = some k) :
    (∃ pr ∈ inputsL, k = VKind.source pr.1 (round2 pr.2)) ∨
    (∃ pr ∈ outputsL, k = VKind.sink pr.1 0) ∨
    (∃ rs ∈ plan, rs.2 ≠ 0 ∧ k = VKind.machine rs.1 rs.2) := by
  have hmach : ∀ (l : List (Recipe × ℤ)) (g : PGraph),
      kindAt (addMachineVertices g l) x = some k →
      kindAt g x = some k ∨ ∃ rs ∈ l, rs.2 ≠ 0 ∧ k = VKind.machine rs.1 rs.2 := by
    intro l
    induction l with
    | nil => intro g h2; exact Or.inl h2
    | cons rs rest ih =>
      intro g h2
      rw [addMachineVertices_cons] at h2
      rcases ih _ h2 with h3 | h3
      · by_cases h0 : rs.2 = 0
        · rw [if_pos h0] at h3
          exact Or.inl h3
        · rw [if_neg h0, kindAt_addVertex] at h3
          by_cases hx : x = g.vertices.length
          · rw [if_pos hx] at h3
            exact Or.inr ⟨rs, List.mem_cons_self rs rest, h0,
              (Option.some.injEq .. ▸ h3).symm⟩
          · rw [if_neg hx] at h3
            exact Or.inl h3
      · obtain ⟨rs2, hrs2, h4, h5⟩ := h3
        exact Or.inr ⟨rs2, List.mem_cons_of_mem rs hrs2, h4, h5⟩
  have hsink : ∀ (l : List (Product × ℚ)) (g : PGraph),
      kindAt (addSinkVertices g l) x = some k →
      kindAt g x = some k ∨ ∃ pr ∈ l, k = VKind.sink pr.1 0 := by
    intro l
    induction l with
    | nil => intro g h2; exact Or.inl h2
    | cons pr rest ih =>
      intro g h2
      rw [addSinkVertices_cons] at h2
      rcases ih _ h2 with h3 | h3
      · rw [kindAt_addVertex] at h3
        by_cases hx : x = g.vertices.length
        · rw [if_pos hx] at h3
          exact Or.inr ⟨pr, List.mem_cons_self pr rest,
            (Option.some.injEq .. ▸ h3).symm⟩
        · rw [if_neg hx] at h3
          exact Or.inl h3
      · obtain ⟨pr2, hpr2, h4⟩ := h3
        exact Or.inr ⟨pr2, List.mem_cons_of_mem pr hpr2, h4⟩
  have hsrc : ∀ (l : List (Product × ℚ)) (g : PGraph),
      kindAt (addSourceVertices g l) x = some k →
      kindAt g x = some k ∨ ∃ pr ∈ l, k = VKind.source pr.1 (round2 pr.2) := by
    intro l
    induction l with
    | nil => intro g h2; exact Or.inl h2
    | cons pr rest ih =>
      intro g h2
      rw [addSourceVertices_cons] at h2
      rcases ih _ h2 with h3 | h3
      · rw [kindAt_addVertex] at h3
        by_cases hx : x = g.vertices.length
        · rw [if_pos hx] at h3
          exact Or.inr ⟨pr, List.mem_cons_self pr rest,
            (Option.some.injEq .. ▸ h3).symm⟩
        · rw [if_neg hx] at h3
          exact Or.inl h3
      · obtain ⟨pr2, hpr2, h4⟩ := h3
        exact Or.inr ⟨pr2, List.mem_cons_of_mem pr hpr2, h4⟩
  rcases hmach plan _ h with h2 | h2
  · rcases hsink outputsL _ h2 with h3 | h3
    · rcases hsrc inputsL _ h3 with h4 | h4
      · simp [kindAt] at h4
      · exact Or.inl h4
    · exact Or.inr (Or.inl h3)
  · exact Or.inr (Or.inr h2)

/-- Every non-zero plan entry gets a machine vertex in pass 1. -/
theorem machine_mem_base (plan : List (Recipe × ℤ))
    (inputsL outputsL : List (Product × ℚ)) (r : Recipe) (sc : ℤ)
    (hmem : (r, sc) ∈ plan) (hsc : sc ≠ 0) :
    ∃ x, kindAt (createBase plan inputsL outputsL) x =
      some (VKind.machine r sc) := by
  have key : ∀ (l : List (Recipe × ℤ)) (g : PGraph), (r, sc) ∈ l →
      ∃ x, kindAt (addMachineVertices g l) x = some (VKind.machine r sc) := by
    intro l
    induction l with
    | nil => intro g h; simp at h
    | cons rs rest ih =>
      intro g h
      rw [addMachineVertices_cons]
      rcases List.mem_cons.mp h with h1 | h1
      · obtain ⟨hr, hs⟩ := Prod.mk.injEq .. ▸ h1.symm
        subst hr
        subst hs
        rw [if_neg hsc]
        have hpres : ∀ (l2 : List (Recipe × ℤ)) (g2 : PGraph) (x : Nat)
            (k : VKind), kindAt g2 x = some k →
            kindAt (addMachineVertices g2 l2) x = some k := by
          intro l2
          induction l2 with
          | nil => intro g2 x k hk; exact hk
          | cons rs2 rest2 ih2 =>
            intro g2 x k hk
            rw [addMachineVertices_cons]
            refine ih2 _ x k ?_
            by_cases h0 : rs2.2 = 0
            · rw [if_pos h0]; exact hk
            · rw [if_neg h0, kindAt_addVertex]
              have hx : x < g2.vertices.length := by
                by_contra hc
                rw [kindAt, getElem_none_of_le _ _ (by omega)] at hk
                simp at hk
              rw [if_neg (by omega)]
              exact hk
        refine ⟨g.vertices.length, hpres rest _ _ _ ?_⟩
        rw [kindAt_addVertex, if_pos rfl]
      · exact ih _ h1
  have key2 : ∀ (l : List (Recipe × ℤ)) (g : PGraph), (r, sc) ∈ l →
      ∃ x, kindAt (addMachineVertices g l) x = some (VKind.machine r sc) :=
    key
  exact key2 plan _ hmem

theorem kindAt_total (g : PGraph) (x : Nat) (hx : x < g.vertices.length) :
    ∃ k, kindAt g x = some k := by
  obtain ⟨v, hv⟩ : ∃ v, g.vertices[x]? = some v := by
    rw [List.getElem?_eq_getElem hx]
    exact ⟨_, rfl⟩
  exact ⟨v.kind, by simp [kindAt, hv]⟩

theorem evolves_back_machine {g0 g : PGraph} (h01 : Evolves g0 g) (x : Nat)
    (r : Recipe) (sc : ℤ) (h : kindAt g x = some (.machine r sc)) :
    kindAt g0 x = some (.machine r sc) := by
  obtain ⟨hE, hK, hL, hW⟩ := h01
  by_cases hx : x < g0.vertices.length
  · obtain ⟨k0, hk0⟩ := kindAt_total g0 x hx
    rcases hK x k0 hk0 with h2 | ⟨p, r2, r3, hk, h2⟩
    · rw [h2] at h
      rw [hk0, h]
    · rw [h2] at h
      exact absurd (Option.some.injEq .. ▸ h) (by simp)
  · rcases hW x (by omega) with h2 | ⟨p, r2, h2⟩
    · rw [h2] at h
      exact absurd h (by simp)
    · rw [h2] at h
      exact absurd (Option.some.injEq .. ▸ h) (by simp)

theorem evolves_back_source {g0 g : PGraph} (h01 : Evolves g0 g) (x : Nat)
    (sp : Product) (rate : ℚ) (h : kindAt g x = some (.source sp rate)) :
    kindAt g0 x = some (.source sp rate) := by
  obtain ⟨hE, hK, hL, hW⟩ := h01
  by_cases hx : x < g0.vertices.length
  · obtain ⟨k0, hk0⟩ := kindAt_total g0 x hx
    rcases hK x k0 hk0 with h2 | ⟨p, r2, r3, hk, h2⟩
    · rw [h2] at h
      rw [hk0, h]
    · rw [h2] at h
      exact absurd (Option.some.injEq .. ▸ h) (by simp)
  · rcases hW x (by omega) with h2 | ⟨p, r2, h2⟩
    · rw [h2] at h
      exact absurd h (by simp)
    · rw [h2] at h
      exact absurd (Option.some.injEq .. ▸ h) (by simp)

/-- Forward preservation of machine kinds. -/
theorem evolves_fwd_machine {g0 g : PGraph} (h01 : Evolves g0 g) (x : Nat)
    (r : Recipe) (sc : ℤ) (h : kindAt g0 x = some (.machine r sc)) :
    kindAt g x = some (.machine r sc) := by
  rcases h01.2.1 x _ h with h2 | ⟨p, r2, r3, hk, h2⟩
  · exact h2
  · exact absurd hk (by simp)

theorem evolves_fwd_source {g0 g : PGraph} (h01 : Evolves g0 g) (x : Nat)
    (sp : Product) (rate : ℚ) (h : kindAt g0 x = some (.source sp rate)) :
    kindAt g x = some (.source sp rate) := by
  rcases h01.2.1 x _ h with h2 | ⟨p, r2, r3, hk, h2⟩
  · exact h2
  · exact absurd hk (by simp)

/-- Pass 1 vertex count: one vertex per input, per output and per
non-zero plan entry. -/
theorem length_base (plan : List (Recipe × ℤ))
    (inputsL outputsL : List (Product × ℚ)) :
    (createBase plan inputsL outputsL).vertices.length =
      inputsL.length + outputsL.length +
        (plan.filter fun rs => decide (rs.2 ≠ 0)).length := by
  have hsrc : ∀ (l : List (Product × ℚ)) (g : PGraph),
      (addSourceVertices g l).vertices.length =
        g.vertices.length + l.length := by
    intro l
    induction l with
    | nil => intro g; simp [addSourceVertices]
    | cons pr rest ih =>
      intro g
      rw [addSourceVertices_cons, ih, vertices_length_addVertex]
      simp only [List.length_cons]
      omega
  have hsink : ∀ (l : List (Product × ℚ)) (g : PGraph),
      (addSinkVertices g l).vertices.length =
        g.vertices.length + l.length := by
    intro l
    induction l with
    | nil => intro g; simp [addSinkVertices]
    | cons pr rest ih =>
      intro g
      rw [addSinkVertices_cons, ih, vertices_length_addVertex]
      simp only [List.length_cons]
      omega
  have hmach : ∀ (l : List (Recipe × ℤ)) (g : PGraph),
      (addMachineVertices g l).vertices.length =
        g.vertices.length + (l.filter fun rs => decide (rs.2 ≠ 0)).length := by
    intro l
    induction l with
    | nil => intro g; simp [addMachineVertices]
    | cons rs rest ih =>
      intro g
      rw [addMachineVertices_cons, ih]
      by_cases h0 : rs.2 = 0
      · simp [h0, List.filter_cons]
      · simp only [h0, if_false, vertices_length_addVertex, List.filter_cons]
        rw [if_pos (by simp [h0] : (decide (rs.2 ≠ 0)) = true)]
        simp only [List.length_cons]
        omega
  rw [createBase, hmach, hsink, hsrc]
  simp

/-! A builder step for producer b leaves the outgoing adjacency dicts of
every other vertex untouched. -/

theorem sourceMachineStep_dstAt (i : Nat) (sp : Product) (s : PGraph × ℚ)
    (j x : Nat) (hx : x ≠ i) :
    dstAt (sourceMachineStep i sp s j).1.1 x = dstAt s.1 x := by
  simp only [sourceMachineStep]
  split
  · split
    · exact dstAt_connect_ne s.1 i _ _ x hx
    · rfl
  · rfl

theorem sourceStep_dstAt (g : PGraph) (b x : Nat) (hx : x ≠ b) :
    dstAt (sourceStep g b).1 x = dstAt g x := by
  simp only [sourceStep]
  split
  · rename_i sp rate hkind
    have hloop := runSteps_obs (sourceMachineStep b sp)
      (fun s => dstAt s.1 x)
      (fun s a => sourceMachineStep_dstAt b sp s a x hx)
      (List.range g.vertices.length) (g, rate)
    split
    · rename_i g1 unused heq
      rw [heq] at hloop
      split
      · rw [dstAt_connect_ne _ b _ _ x hx, dstAt_addVertex]
        exact hloop
      · exact hloop
    · rename_i g1 u e heq
      rw [heq] at hloop
      exact hloop
  · rfl

theorem m2mConsumerStep_dstAt (i : Nat) (p : Product)
    (s : PGraph × List (Nat × List (Product × ℚ)) × List (Product × ℚ))
    (j x : Nat) (hx : x ≠ i) :
    dstAt (m2mConsumerStep i p s j).1.1 x = dstAt s.1 x := by
  obtain ⟨g, rem, unu⟩ := s
  simp only [m2mConsumerStep]
  split
  · rfl
  · split
    · rfl
    · split
      · rfl
      · split
        · rfl
        · exact dstAt_connect_ne g i _ _ x hx

theorem sinkStep_dstAt (outKeys : List Product) (i : Nat)
    (s : PGraph × List (Product × ℚ)) (p : Product) (x : Nat) (hx : x ≠ i) :
    dstAt (sinkStep outKeys i s p).1 x = dstAt s.1 x := by
  obtain ⟨g, unu⟩ := s
  simp only [sinkStep]
  split
  · split
    · rw [dstAt_bumpSink, dstAt_connect_ne g i _ _ x hx]
    · rfl
  · rfl

theorem wasteStep_dstAt (i : Nat) (g : PGraph) (pu : Product × ℚ) (x : Nat)
    (hx : x ≠ i) : dstAt (wasteStep i g pu) x = dstAt g x := by
  simp only [wasteStep]
  split
  · rw [dstAt_connect_ne _ i _ _ x hx, dstAt_addVertex]
  · rfl

theorem machineStep_dstAt (outKeys : List Product)
    (s : PGraph × List (Nat × List (Product × ℚ))) (b x : Nat) (hx : x ≠ b) :
    dstAt (machineStep outKeys s b).1.1 x = dstAt s.1 x := by
  obtain ⟨g, rem⟩ := s
  simp only [machineStep]
  split
  · rename_i r sc hkind
    have hloop := runSteps_obs (fun s3 p =>
        runSteps (m2mConsumerStep b p) s3 (List.range g.vertices.length))
      (fun s2 => dstAt s2.1 x)
      (fun s2 a => runSteps_obs (m2mConsumerStep b a)
        (fun s3 => dstAt s3.1 x)
        (fun s3 a2 => m2mConsumerStep_dstAt b a s3 a2 x hx)
        (List.range g.vertices.length) s2)
      ((outAvailable r sc).map Prod.fst) (g, rem, outAvailable r sc)
    split
    · rename_i g1 rem1 unu1 e heq
      rw [heq] at hloop
      exact hloop
    · rename_i g1 rem1 unu1 heq
      rw [heq] at hloop
      have hsink := foldl_obs (sinkStep outKeys b) (fun s2 => dstAt s2.1 x)
        (fun s2 a => sinkStep_dstAt outKeys b s2 a x hx)
        (unu1.map Prod.fst) (g1, unu1)
      cases hs2 : (unu1.map Prod.fst).foldl (sinkStep outKeys b) (g1, unu1) with
      | mk g2 unu2 =>
        rw [hs2] at hsink
        have hwaste := foldl_obs (wasteStep b) (fun g3 => dstAt g3 x)
          (fun g3 a => wasteStep_dstAt b g3 a x hx) unu2 g2
        simp only [hs2]
        rw [hwaste, hsink, hloop]
  · rfl

theorem evolves_create (plan : List (Recipe × ℤ))
    (inputsL outputsL : List (Product × ℚ)) :
    Evolves (createBase plan inputsL outputsL)
      (create plan inputsL outputsL).1 := by
  simp only [create]
  split
  · rename_i g1 e heq
    have h := evolves_sourcePass (createBase plan inputsL outputsL)
      (List.range (createBase plan inputsL outputsL).vertices.length)
    rw [heq] at h
    exact h
  · rename_i g1 heq
    have h := evolves_sourcePass (createBase plan inputsL outputsL)
      (List.range (createBase plan inputsL outputsL).vertices.length)
    rw [heq] at h
    have h2 := evolves_machinePass (outputsL.map Prod.fst)
      (g1, initRemaining g1) (List.range g1.vertices.length)
    exact Evolves.trans h h2

/-! Concrete recipes for the builder claims. -/

/-- Needs one A, makes one B. -/
def recAB : Recipe := ⟨"R", [("A", 1)], [("B", 1)]⟩

/-- Needs two A per scale, makes one B. -/
def recA2B : Recipe := ⟨"R2", [("A", 2)], [("B", 1)]⟩

/-- Produces one P from nothing. -/
def recMkP : Recipe := ⟨"M1", [], [("P", 1)]⟩

/-- Consumes one P, makes one B. -/
def recUseP1 : Recipe := ⟨"M2", [("P", 1)], [("B", 1)]⟩

/-- Consumes one P, makes one C. -/
def recUseP2 : Recipe := ⟨"M3", [("P", 1)], [("C", 1)]⟩

/-- Two outputs P and Q from one X. -/
def recTwoOut : Recipe := ⟨"P1", [("X", 1)], [("P", 1), ("Q", 1)]⟩

/-- Consumes both P and Q. -/
def recTwoIn : Recipe := ⟨"P2", [("P", 1), ("Q", 1)], [("W", 1)]⟩

/-- C8 (counterexample). The builder does not reject a plan entry with a
negative scale: create on the plan [(recAB, -1)] completes with no error
and builds a machine vertex of scale -1 (pass 1 skips only scale 0, and
no later check exists; create does not even receive a catalog against
which an unknown recipe could be detected). -/
theorem claim8_counterexample :
    (create [(recAB, -1)] [] []).2 = none ∧
      kindAt (create [(recAB, -1)] [] []).1 0 =
        some (.machine recAB (-1)) := by
  constructor
  · decide
  · decide

/-- C8 (amended): create performs no precondition validation at all. Its
signature has no catalog, so membership of a plan recipe in the catalog
cannot be and is not checked, and a negative scale is accepted: every
plan entry with non-zero scale (negative included) yields a machine
vertex in the constructed graph. -/
theorem claim8_no_validation (plan : List (Recipe × ℤ))
    (inputsL outputsL : List (Product × ℚ)) (r : Recipe) (sc : ℤ)
    (hmem : (r, sc) ∈ plan) (hsc : sc ≠ 0) :
    ∃ x, kindAt (create plan inputsL outputsL).1 x =
      some (VKind.machine r sc) := by
  obtain ⟨x, hx⟩ := machine_mem_base plan inputsL outputsL r sc hmem hsc
  exact ⟨x, evolves_fwd_machine (evolves_create plan inputsL outputsL) x r sc hx⟩

/-- Witness for claim8_no_validation at the concrete negative-scale plan. -/
theorem claim8_witness :
    ∃ x, kindAt (create [(recAB, -1)] [] []).1 x =
      some (VKind.machine recAB (-1)) :=
  claim8_no_validation [(recAB, -1)] [] [] recAB (-1) (by decide) (by decide)

/-- C9 (counterexample). Construction is not atomic: with input A at rate
1 and a machine demanding 2 A, create raises the negative-unused-rate
error, but the partially built graph (both vertices and the already
created over-demand edge) remains in the ProductionGraph object. -/
theorem claim9_counterexample :
    (create [(recA2B, 1)] [("A", 1)] []).2 =
        some (BuildErr.sourceUnused "A" (-1)) ∧
      (create [(recA2B, 1)] [("A", 1)] []).1.vertices.length = 2 ∧
      (create [(recA2B, 1)] [("A", 1)] []).1.edges =
        [⟨"A", 2, 2⟩] := by
  refine ⟨by decide, by decide, by decide⟩

/-- C9 (amended): a build either completes or raises on the first
detected violation, but it is not atomic: create mutates the graph in
place, so every pass 1 vertex (one per input, per output, per non-zero
plan entry) is present in the returned object even when an error was
raised, and edges created before the raise remain as well. -/
theorem claim9_partial_state (plan : List (Recipe × ℤ))
    (inputsL outputsL : List (Product × ℚ)) :
    inputsL.length + outputsL.length +
        (plan.filter fun rs => decide (rs.2 ≠ 0)).length ≤
      (create plan inputsL outputsL).1.vertices.length := by
  have h1 := length_base plan inputsL outputsL
  have h2 := (evolves_create plan inputsL outputsL).2.2.1
  omega

/-! Non-negativity of edge rates: under a plan with non-negative recipe
rates and scales, every edge ever created has a non-negative rate, with
or without a successful completion. -/

/-- All recipe rates and all scales of the plan are non-negative. -/
def PlanNN (plan : List (Recipe × ℤ)) : Prop :=
  ∀ rs ∈ plan, 0 ≤ rs.2 ∧ (∀ pq ∈ rs.1.inputs, 0 ≤ pq.2) ∧
    (∀ pq ∈ rs.1.outputs, 0 ≤ pq.2)

def EdgesNonneg (g : PGraph) : Prop :=
  ∀ e ∈ g.edges, 0 ≤ e.provide ∧ 0 ≤ e.consume

theorem EdgesNonneg_connect {g : PGraph} (h : EdgesNonneg g) (i j : Nat)
    (p : Product) {q : ℚ} (hq : 0 ≤ q) :
    EdgesNonneg (connect g i j ⟨p, q, q⟩) := by
  intro e he
  rw [edges_connect] at he
  rcases List.mem_append.mp he with he | he
  · exact h e he
  · simp only [List.mem_singleton] at he
    subst he
    exact ⟨hq, hq⟩

/-- For every machine vertex of a graph evolved from pass 1 of a
non-negative plan, all scaled demands and availabilities are
non-negative. -/
theorem mach_rates_nonneg {plan : List (Recipe × ℤ)}
    {inputsL outputsL : List (Product × ℚ)} (hplan : PlanNN plan)
    {g : PGraph} (hE : Evolves (createBase plan inputsL outputsL) g)
    (x : Nat) (r : Recipe) (sc : ℤ)
    (hk : kindAt g x = some (.machine r sc)) :
    (∀ pd ∈ inDemands r sc, 0 ≤ pd.2) ∧
      (∀ pd ∈ outAvailable r sc, 0 ≤ pd.2) := by
  have h0 := evolves_back_machine hE x r sc hk
  rcases kindAt_base plan inputsL outputsL x _ h0 with
    ⟨pr, _, h1⟩ | ⟨pr, _, h1⟩ | ⟨rs, hrs, _, h1⟩
  · exact absurd h1 (by simp)
  · exact absurd h1 (by simp)
  · obtain ⟨hr, hs⟩ := VKind.machine.injEq .. ▸ h1
    subst hr
    subst hs
    obtain ⟨hsc0, hin, hout⟩ := hplan rs hrs
    have hscQ : (0 : ℚ) ≤ ((rs.2 : ℤ) : ℚ) := by exact_mod_cast hsc0
    constructor
    · intro pd hpd
      obtain ⟨pq, hpq, hpd2⟩ := List.mem_map.mp hpd
      rw [← hpd2]
      exact mul_nonneg (hin pq hpq) hscQ
    · intro pd hpd
      obtain ⟨pq, hpq, hpd2⟩ := List.mem_map.mp hpd
      rw [← hpd2]
      exact mul_nonneg (hout pq hpq) hscQ

def RemNN (rem : List (Nat × List (Product × ℚ))) : Prop :=
  ∀ jd ∈ rem, ∀ pd ∈ jd.2, 0 ≤ pd.2

def UnuNN (unu : List (Product × ℚ)) : Prop :=
  ∀ pd ∈ unu, 0 ≤ pd.2

theorem create_edges_nonneg (plan : List (Recipe × ℤ))
    (inputsL outputsL : List (Product × ℚ)) (hplan : PlanNN plan) :
    EdgesNonneg (create plan inputsL outputsL).1 := by
  set g0 := createBase plan inputsL outputsL with hg0
  have hbase : EdgesNonneg g0 := by
    intro e he
    rw [hg0, edges_base] at he
    simp at he
  -- invariant through the source pass
  have hQ1 : ∀ (l : List Nat) (g : PGraph), Evolves g0 g ∧ EdgesNonneg g →
      Evolves g0 (runSteps sourceStep g l).1 ∧
        EdgesNonneg (runSteps sourceStep g l).1 := by
    intro l g hg
    refine runSteps_always sourceStep
      (fun g2 => Evolves g0 g2 ∧ EdgesNonneg g2) ?_ l g hg
    intro g2 b hg2
    constructor
    · exact hg2.1.trans (evolves_sourceStep g2 b)
    · -- edges added by one sourceStep are non-negative
      simp only [sourceStep]
      split
      · rename_i sp rate hkind
        have hloop : Evolves g0 (runSteps (sourceMachineStep b sp)
              (g2, rate) (List.range g2.vertices.length)).1.1 ∧
            EdgesNonneg (runSteps (sourceMachineStep b sp)
              (g2, rate) (List.range g2.vertices.length)).1.1 := by
          refine runSteps_always (sourceMachineStep b sp)
            (fun s => Evolves g0 s.1 ∧ EdgesNonneg s.1) ?_ _ (g2, rate) hg2
          intro s j hs
          simp only [sourceMachineStep]
          split
          · rename_i r sc hk
            split
            · rename_i d hd
              refine ⟨hs.1.trans (evolves_connect s.1 b j _), ?_⟩
              have hd0 : 0 ≤ d := by
                have hmr := mach_rates_nonneg hplan hs.1 j r sc (by
                  simp only [kindAt]
                  exact hk)
                exact hmr.1 (sp, d) (dictGet_mem _ _ _ hd)
              exact EdgesNonneg_connect hs.2 b j sp (round2_nonneg hd0)
            · exact hs
          · exact hs
        split
        · rename_i g1 unused heq
          rw [heq] at hloop
          split
          · rename_i hu
            refine EdgesNonneg_connect ?_ b g1.vertices.length sp
              (round2_nonneg (le_of_lt hu))
            intro e he
            rw [edges_addVertex] at he
            exact hloop.2 e he
          · exact hloop.2
        · rename_i g1 u e2 heq
          rw [heq] at hloop
          exact hloop.2
      · exact hg2.2
  -- invariant through the machine pass
  have hstep3 : ∀ (b : Nat) (s : PGraph ×
        List (Nat × List (Product × ℚ)) × List (Product × ℚ)),
      (Evolves g0 s.1 ∧ EdgesNonneg s.1 ∧ RemNN s.2.1 ∧ UnuNN s.2.2) →
      ∀ (p : Product) (j : Nat),
      (Evolves g0 (m2mConsumerStep b p s j).1.1 ∧
        EdgesNonneg (m2mConsumerStep b p s j).1.1 ∧
        RemNN (m2mConsumerStep b p s j).1.2.1 ∧
        UnuNN (m2mConsumerStep b p s j).1.2.2) := by
    intro b s hs p j
    obtain ⟨g, rem, unu⟩ := s
    obtain ⟨hE, hEN, hRem, hUnu⟩ := hs
    simp only [m2mConsumerStep]
    split
    · exact ⟨hE, hEN, hRem, hUnu⟩
    · rename_i dm hj
      split
      · exact ⟨hE, hEN, hRem, hUnu⟩
      · rename_i rd hrd
        split
        · exact ⟨hE, hEN, hRem, hUnu⟩
        · split
          · exact ⟨hE, hEN, hRem, hUnu⟩
          · rename_i hneg hzero
            have hrd0 : 0 ≤ rd :=
              hRem (j, dm) (dictGet_mem _ _ _ hj) (p, rd) (dictGet_mem _ _ _ hrd)
            have hup0 : 0 ≤ (dictGet unu p).getD 0 := by
              cases hu : dictGet unu p with
              | none => simp
              | some u =>
                simp only [Option.getD_some]
                exact hUnu (p, u) (dictGet_mem _ _ _ hu)
            have hassign : 0 ≤ min ((dictGet unu p).getD 0) rd :=
              le_min hup0 hrd0
            refine ⟨hE.trans (evolves_connect g b j _),
              EdgesNonneg_connect hEN b j p (round2_nonneg hassign), ?_, ?_⟩
            · intro jd hjd
              rcases dictSet_mem _ _ _ _ hjd with hjd2 | hjd2
              · exact hRem jd hjd2
              · subst hjd2
                intro pd hpd
                rcases dictSet_mem _ _ _ _ hpd with hpd2 | hpd2
                · exact hRem (j, dm) (dictGet_mem _ _ _ hj) pd hpd2
                · subst hpd2
                  simp only
                  have := min_le_right ((dictGet unu p).getD 0) rd
                  linarith
            · intro pd hpd
              rcases dictSet_mem _ _ _ _ hpd with hpd2 | hpd2
              · exact hUnu pd hpd2
              · subst hpd2
                simp only
                have := min_le_left ((dictGet unu p).getD 0) rd
                linarith
  have hstep4 : ∀ (b : Nat) (s : PGraph × List (Product × ℚ)) (p : Product),
      (Evolves g0 s.1 ∧ EdgesNonneg s.1 ∧ UnuNN s.2) →
      (Evolves g0 (sinkStep (outputsL.map Prod.fst) b s p).1 ∧
        EdgesNonneg (sinkStep (outputsL.map Prod.fst) b s p).1 ∧
        UnuNN (sinkStep (outputsL.map Prod.fst) b s p).2) := by
    intro b s p hs
    obtain ⟨g, unu⟩ := s
    obtain ⟨hE, hEN, hUnu⟩ := hs
    simp only [sinkStep]
    split
    · split
      · rename_i oj hoj
        have hr0 : 0 ≤ (dictGet unu p).getD 0 := by
          cases hu : dictGet unu p with
          | none => simp
          | some u =>
            simp only [Option.getD_some]
            exact hUnu (p, u) (dictGet_mem _ _ _ hu)
        refine ⟨(hE.trans (evolves_connect g b oj _)).trans
          (evolves_bumpSink _ oj _), ?_, ?_⟩
        · intro e he
          rw [edges_bumpSink] at he
          exact EdgesNonneg_connect hEN b oj p (round2_nonneg hr0) e he
        · intro pd hpd
          rcases dictSet_mem _ _ _ _ hpd with hpd2 | hpd2
          · exact hUnu pd hpd2
          · subst hpd2
            simp only
            rw [round2_zero]
      · exact ⟨hE, hEN, hUnu⟩
    · exact ⟨hE, hEN, hUnu⟩
  have hstep5 : ∀ (b : Nat) (g : PGraph) (pu : Product × ℚ),
      (Evolves g0 g ∧ EdgesNonneg g) →
      (Evolves g0 (wasteStep b g pu) ∧ EdgesNonneg (wasteStep b g pu)) := by
    intro b g pu hs
    obtain ⟨hE, hEN⟩ := hs
    simp only [wasteStep]
    split
    · rename_i hpos
      refine ⟨(hE.trans (evolves_addVertex g pu.1 (round2 pu.2))).trans
        (evolves_connect _ b _ _), ?_⟩
      refine EdgesNonneg_connect ?_ b _ pu.1 (round2_nonneg (le_of_lt hpos))
      intro e he
      rw [edges_addVertex] at he
      exact hEN e he
    · exact ⟨hE, hEN⟩
  have hstep2 : ∀ (s : PGraph × List (Nat × List (Product × ℚ))) (b : Nat),
      (Evolves g0 s.1 ∧ EdgesNonneg s.1 ∧ RemNN s.2) →
      (Evolves g0 (machineStep (outputsL.map Prod.fst) s b).1.1 ∧
        EdgesNonneg (machineStep (outputsL.map Prod.fst) s b).1.1 ∧
        RemNN (machineStep (outputsL.map Prod.fst) s b).1.2) := by
    intro s b hs
    obtain ⟨g, rem⟩ := s
    obtain ⟨hE, hEN, hRem⟩ := hs
    simp only [machineStep]
    split
    · rename_i r sc hkind
      have hunu0 : UnuNN (outAvailable r sc) := by
        intro pd hpd
        exact (mach_rates_nonneg hplan hE b r sc (by
          simp only [kindAt]
          exact hkind)).2 pd hpd
      have hloop := runSteps_always (fun s3 p =>
          runSteps (m2mConsumerStep b p) s3 (List.range g.vertices.length))
        (fun s3 => Evolves g0 s3.1 ∧ EdgesNonneg s3.1 ∧
          RemNN s3.2.1 ∧ UnuNN s3.2.2)
        (fun s3 p hs3 => runSteps_always (m2mConsumerStep b p)
          (fun s4 => Evolves g0 s4.1 ∧ EdgesNonneg s4.1 ∧
            RemNN s4.2.1 ∧ UnuNN s4.2.2)
          (fun s4 j hs4 => hstep3 b s4 hs4 p j)
          (List.range g.vertices.length) s3 hs3)
        ((outAvailable r sc).map Prod.fst) (g, rem, outAvailable r sc)
        ⟨hE, hEN, hRem, hunu0⟩
      split
      · rename_i g1 rem1 unu1 e heq
        rw [heq] at hloop
        exact ⟨hloop.1, hloop.2.1, hloop.2.2.1⟩
      · rename_i g1 rem1 unu1 heq
        rw [heq] at hloop
        have hsink := foldl_always (sinkStep (outputsL.map Prod.fst) b)
          (fun s2 => Evolves g0 s2.1 ∧ EdgesNonneg s2.1 ∧ UnuNN s2.2)
          (fun s2 p hs2 => hstep4 b s2 p hs2)
          (unu1.map Prod.fst) (g1, unu1) ⟨hloop.1, hloop.2.1, hloop.2.2.2⟩
        cases hs2 : (unu1.map Prod.fst).foldl
            (sinkStep (outputsL.map Prod.fst) b) (g1, unu1) with
        | mk g2 unu2 =>
          rw [hs2] at hsink
          have hwaste := foldl_always (wasteStep b)
            (fun g3 => Evolves g0 g3 ∧ EdgesNonneg g3)
            (fun g3 pu hg3 => hstep5 b g3 pu hg3)
            unu2 g2 ⟨hsink.1, hsink.2.1⟩
          simp only [hs2]
          exact ⟨hwaste.1, hwaste.2, hloop.2.2.1⟩
    · exact ⟨hE, hEN, hRem⟩
  -- assemble
  simp only [create]
  split
  · rename_i g1 e heq
    have h := hQ1 (List.range g0.vertices.length) g0 ⟨evolves_self g0, hbase⟩
    rw [heq] at h
    exact h.2
  · rename_i g1 heq
    have h := hQ1 (List.range g0.vertices.length) g0 ⟨evolves_self g0, hbase⟩
    rw [heq] at h
    have hrem0 : RemNN (initRemaining g1) := by
      intro jd hjd
      obtain ⟨j, hjr, hjf⟩ := List.mem_filterMap.mp hjd
      revert hjf
      cases hk : (g1.vertices[j]?).map Vertex.kind with
      | none => intro hjf; simp at hjf
      | some k =>
        cases k with
        | machine r sc =>
          intro hjf
          simp only [Option.some.injEq] at hjf
          rw [← hjf]
          intro pd hpd
          exact (mach_rates_nonneg hplan h.1 j r sc hk).1 pd hpd
        | source p r => intro hjf; simp at hjf
        | sink p r => intro hjf; simp at hjf
        | waste p r => intro hjf; simp at hjf
    have h2 := runSteps_always (machineStep (outputsL.map Prod.fst))
      (fun s => Evolves g0 s.1 ∧ EdgesNonneg s.1 ∧ RemNN s.2)
      (fun s b hs => hstep2 s b hs)
      (List.range g1.vertices.length) (g1, initRemaining g1)
      ⟨h.1, h.2, hrem0⟩
    exact h2.2.1

/-- C4 (counterexample). A zero-rate edge is created exactly in the
situation the claim singles out: machine M1 produces 1 P, consumer M2
takes all of it, and the later consumer M3 still has unmet demand, so
the allocation pass assigns min(0, 1) = 0 and stores a zero-rate edge
(the loop skips only consumers whose remaining demand is zero, not
producers whose output is exhausted, graph.py lines 177-181). The build
completes without error. -/
theorem claim4_counterexample :
    (create [(recMkP, 1), (recUseP1, 1), (recUseP2, 1)] [] []).2 = none ∧
      (create [(recMkP, 1), (recUseP1, 1), (recUseP2, 1)] [] []).1.edges[1]? =
        some ⟨"P", 0, 0⟩ := by
  constructor
  · decide
  · decide

/-- C4 (amended): for a plan whose recipe rates and scales are all
non-negative, every edge ever stored in the graph has a non-negative
rate, whether or not the build completes; but an edge with rate exactly
0 can be created, namely in the machine-to-machine pass when the
producer is exhausted while a later consumer still has unmet demand
(claim4_counterexample). -/
theorem claim4_edges_nonneg (plan : List (Recipe × ℤ))
    (inputsL outputsL : List (Product × ℚ)) (hplan : PlanNN plan) :
    ∀ e ∈ (create plan inputsL outputsL).1.edges,
      0 ≤ e.provide ∧ 0 ≤ e.consume :=
  create_edges_nonneg plan inputsL outputsL hplan

/-- Witness for claim4_edges_nonneg on the concrete zero-edge build: the
zero-rate edge stored by that build has non-negative rates. -/
theorem claim4_witness :
    0 ≤ (FlowEdge.mk "P" 0 0).provide ∧
      0 ≤ (FlowEdge.mk "P" 0 0).consume :=
  claim4_edges_nonneg [(recMkP, 1), (recUseP1, 1), (recUseP2, 1)] [] [] (by
    unfold PlanNN
    decide) ⟨"P", 0, 0⟩ (by decide)

/-! Source conservation (claim C2): definitions, the transfer lemma, and
preservation of the established property across later builder steps. -/

/-- Sum of the rates of all edges leaving vertex i. -/
def dstSum (g : PGraph) (i : Nat) : ℚ :=
  ((dstAt g i).map fun jk => edgeVal g jk.2).sum

/-- Outgoing entries of vertex i that point at a Waste vertex. -/
def dstWasteEntries (g : PGraph) (i : Nat) : List (Nat × Nat) :=
  (dstAt g i).filter fun jk => isWasteTgt g jk.1

/-- Sum of outgoing edge rates of vertex i excluding the Waste edge. -/
def dstNonWasteSum (g : PGraph) (i : Nat) : ℚ :=
  (((dstAt g i).filter fun jk => !(isWasteTgt g jk.1)).map
    fun jk => edgeVal g jk.2).sum

/-- Every outgoing entry of vertex i references a stored edge and a
present target vertex. -/
def DstClosed (g : PGraph) (i : Nat) : Prop :=
  ∀ jk ∈ dstAt g i, (∃ e, g.edges[jk.2]? = some e) ∧
    (∃ k, kindAt g jk.1 = some k)

/-- The conservation facts for one processed source vertex. -/
def SrcDone (g : PGraph) (i : Nat) (sp : Product) (rate : ℚ) : Prop :=
  kindAt g i = some (.source sp rate) ∧ DstClosed g i ∧
  dstSum g i = rate ∧
  (dstWasteEntries g i).length ≤ 1 ∧
  dstNonWasteSum g i ≤ rate ∧
  (dstNonWasteSum g i < rate → (dstWasteEntries g i).length = 1)

theorem kindAt_some_lt {g : PGraph} {x : Nat} {k : VKind}
    (h : kindAt g x = some k) : x < g.vertices.length := by
  by_contra hc
  rw [kindAt, getElem_none_of_le _ _ (by omega)] at h
  simp at h

theorem edgeVal_stable {g g' : PGraph} (hE : Evolves g g') {k : Nat}
    {e : FlowEdge} (he : g.edges[k]? = some e) :
    edgeVal g' k = edgeVal g k := by
  unfold edgeVal
  rw [he, hE.1 k e he]

theorem isWasteTgt_stable {g g' : PGraph} (hE : Evolves g g') {x : Nat}
    {k : VKind} (hk : kindAt g x = some k) :
    isWasteTgt g' x = isWasteTgt g x := by
  unfold isWasteTgt
  rcases hE.2.1 x k hk with h2 | ⟨p, r, r2, hkk, h2⟩
  · rw [hk, h2]
  · subst hkk
    rw [hk, h2]

theorem SrcDone_evolves {g g' : PGraph} (hE : Evolves g g') {i : Nat}
    {sp : Product} {rate : ℚ} (hdst : dstAt g' i = dstAt g i)
    (h : SrcDone g i sp rate) : SrcDone g' i sp rate := by
  obtain ⟨hkind, hclosed, hsum, hwc, hnw, himp⟩ := h
  have hval : ∀ jk ∈ dstAt g i, edgeVal g' jk.2 = edgeVal g jk.2 := by
    intro jk hjk
    obtain ⟨e, he⟩ := (hclosed jk hjk).1
    exact edgeVal_stable hE he
  have hwst : ∀ jk ∈ dstAt g i, isWasteTgt g' jk.1 = isWasteTgt g jk.1 := by
    intro jk hjk
    obtain ⟨k, hk⟩ := (hclosed jk hjk).2
    exact isWasteTgt_stable hE hk
  have hsum2 : dstSum g' i = dstSum g i := by
    unfold dstSum
    rw [hdst]
    congr 1
    exact List.map_congr_left hval
  have hwc2 : dstWasteEntries g' i = dstWasteEntries g i := by
    unfold dstWasteEntries
    rw [hdst]
    exact List.filter_congr (fun jk hjk => by rw [hwst jk hjk])
  have hnw2 : dstNonWasteSum g' i = dstNonWasteSum g i := by
    unfold dstNonWasteSum
    rw [hdst]
    rw [List.filter_congr (fun jk hjk => by rw [hwst jk hjk])]
    congr 1
    refine List.map_congr_left ?_
    intro jk hjk
    exact hval jk (List.mem_of_mem_filter hjk)
  refine ⟨evolves_fwd_source hE i sp rate hkind, ?_, by rw [hsum2, hsum],
    by rw [hwc2]; exact hwc, by rw [hnw2]; exact hnw, ?_⟩
  · intro jk hjk
    rw [hdst] at hjk
    obtain ⟨⟨e, he⟩, ⟨k, hk⟩⟩ := hclosed jk hjk
    refine ⟨⟨e, hE.1 jk.2 e he⟩, ?_⟩
    rcases hE.2.1 jk.1 k hk with h2 | ⟨p, r, r2, hkk, h2⟩
    · exact ⟨k, h2⟩
    · exact ⟨_, h2⟩
  · intro hlt
    rw [hwc2]
    rw [hnw2] at hlt
    exact himp hlt

theorem SrcDone_sourceStep {g : PGraph} {b i : Nat} {sp : Product}
    {rate : ℚ} (hne : i ≠ b) (h : SrcDone g i sp rate) :
    SrcDone (sourceStep g b).1 i sp rate :=
  SrcDone_evolves (evolves_sourceStep g b) (sourceStep_dstAt g b i hne) h

theorem SrcDone_machineStep (outKeys : List Product)
    (s : PGraph × List (Nat × List (Product × ℚ))) (b i : Nat)
    (sp : Product) (rate : ℚ) (h : SrcDone s.1 i sp rate) :
    SrcDone (machineStep outKeys s b).1.1 i sp rate := by
  by_cases hib : i = b
  · subst hib
    obtain ⟨g, rem⟩ := s
    have hk := h.1
    simp only [machineStep]
    split
    · rename_i r sc hkind
      unfold kindAt at hk
      rw [hkind] at hk
      simp at hk
    · exact h
  · exact SrcDone_evolves (evolves_machineStep outKeys s b)
      (machineStep_dstAt outKeys s b i hib) h

theorem mach_demands_twodec {plan : List (Recipe × ℤ)}
    {inputsL outputsL : List (Product × ℚ)}
    (hplan : ∀ rs ∈ plan, ∀ pq ∈ rs.1.inputs, TwoDec (pq.2 * (rs.2 : ℚ)))
    {g : PGraph} (hE : Evolves (createBase plan inputsL outputsL) g)
    (x : Nat) (r : Recipe) (sc : ℤ)
    (hk : kindAt g x = some (.machine r sc)) :
    ∀ pd ∈ inDemands r sc, TwoDec pd.2 := by
  have h0 := evolves_back_machine hE x r sc hk
  rcases kindAt_base plan inputsL outputsL x _ h0 with
    ⟨pr, _, h1⟩ | ⟨pr, _, h1⟩ | ⟨rs, hrs, _, h1⟩
  · exact absurd h1 (by simp)
  · exact absurd h1 (by simp)
  · obtain ⟨hr, hs⟩ := VKind.machine.injEq .. ▸ h1
    subst hr
    subst hs
    intro pd hpd
    obtain ⟨pq, hpq, hpd2⟩ := List.mem_map.mp hpd
    rw [← hpd2]
    exact hplan rs hrs pq hpq

theorem source_rate_base {plan : List (Recipe × ℤ)}
    {inputsL outputsL : List (Product × ℚ)}
    (hin : ∀ pr ∈ inputsL, 0 ≤ pr.2)
    {g : PGraph} (hE : Evolves (createBase plan inputsL outputsL) g)
    (x : Nat) (sp : Product) (rate : ℚ)
    (hk : kindAt g x = some (.source sp rate)) :
    TwoDec rate ∧ 0 ≤ rate := by
  have h0 := evolves_back_source hE x sp rate hk
  rcases kindAt_base plan inputsL outputsL x _ h0 with
    ⟨pr, hpr, h1⟩ | ⟨pr, _, h1⟩ | ⟨rs, _, _, h1⟩
  · obtain ⟨hsp, hrt⟩ := VKind.source.injEq .. ▸ h1
    subst hrt
    exact ⟨round2_twoDec _, round2_nonneg (hin pr hpr)⟩
  · exact absurd h1 (by simp)
  · exact absurd h1 (by simp)

theorem edgeVal_connect_new (g : PGraph) (i j : Nat) (e : FlowEdge) :
    edgeVal (connect g i j e) g.edges.length = e.provide := by
  unfold edgeVal
  rw [edges_connect, get_append_one]
  simp

theorem isWasteTgt_of_machine {g : PGraph} {x : Nat} {r : Recipe} {sc : ℤ}
    (h : kindAt g x = some (.machine r sc)) : isWasteTgt g x = false := by
  unfold isWasteTgt
  rw [h]

theorem isWasteTgt_of_waste {g : PGraph} {x : Nat} {p : Product} {q : ℚ}
    (h : kindAt g x = some (.waste p q)) : isWasteTgt g x = true := by
  unfold isWasteTgt
  rw [h]

/-- The running invariant of the one-source edge-creation loop (graph.py
lines 129-144): the graph has only evolved, the tracked unused rate is
two-decimal and non-negative, created flow plus unused equals the supply
rate exactly, and every created entry records a stored edge to a machine
not yet visited. -/
def SrcLoopQ (g : PGraph) (i : Nat) (rate : ℚ) (s : PGraph × ℚ)
    (l : List Nat) : Prop :=
  Evolves g s.1 ∧ TwoDec s.2 ∧ 0 ≤ s.2 ∧ dstSum s.1 i + s.2 = rate ∧
  ∀ jk ∈ dstAt s.1 i, jk.1 ∉ l ∧
    (∃ e : FlowEdge, s.1.edges[jk.2]? = some e) ∧
    ∃ r sc, kindAt s.1 jk.1 = some (.machine r sc)

theorem SrcLoopQ.weaken {g : PGraph} {i : Nat} {rate : ℚ} {s : PGraph × ℚ}
    {b : Nat} {bs : List Nat} (h : SrcLoopQ g i rate s (b :: bs)) :
    SrcLoopQ g i rate s bs := by
  obtain ⟨h1, h2, h3, h4, h5⟩ := h
  refine ⟨h1, h2, h3, h4, fun jk hjk => ?_⟩
  obtain ⟨hl, he, hm⟩ := h5 jk hjk
  exact ⟨fun hh => hl (List.mem_cons_of_mem b hh), he, hm⟩

theorem sourceLoop_step (g : PGraph) (i : Nat) (sp : Product) (rate : ℚ)
    (hk : kindAt g i = some (.source sp rate))
    (hdm : ∀ x r sc, kindAt g x = some (.machine r sc) →
      ∀ pd ∈ inDemands r sc, TwoDec pd.2)
    (s : PGraph × ℚ) (b : Nat) (bs : List Nat) (hb : b ∉ bs)
    (hQ : SrcLoopQ g i rate s (b :: bs))
    (hsucc : (sourceMachineStep i sp s b).2 = none) :
    SrcLoopQ g i rate (sourceMachineStep i sp s b).1 bs := by
  obtain ⟨g1, u⟩ := s
  simp only [sourceMachineStep] at hsucc ⊢
  split
  · rename_i r sc hkind
    split
    · rename_i d hd
      obtain ⟨hE, htd, hnn, hsum, hent⟩ := hQ
      simp only [hkind, hd] at hsucc
      -- the step succeeded, so the decremented unused rate is not negative
      have hnn2 : ¬(round2 (u - d) < 0) := by
        intro hlt
        rw [if_pos hlt] at hsucc
        exact Option.noConfusion hsucc
      have hkb : kindAt g1 b = some (.machine r sc) := hkind
      have htdd : TwoDec d :=
        hdm b r sc (evolves_back_machine hE b r sc hkb) (sp, d)
          (dictGet_mem _ _ _ hd)
      have hru : round2 (u - d) = u - d := (htd.sub htdd).round2_self
      have hrd : round2 d = d := htdd.round2_self
      have hi1 : i < g1.vertices.length :=
        kindAt_some_lt (evolves_fwd_source hE i sp rate hk)
      have hkeys : b ∉ (dstAt g1 i).map Prod.fst := by
        intro hmem
        obtain ⟨jk, hjk, hjk1⟩ := List.mem_map.mp hmem
        exact (hent jk hjk).1 (hjk1 ▸ List.mem_cons_self b bs)
      have hdstEq : dstAt (connect g1 i b ⟨sp, round2 d, round2 d⟩) i =
          dstAt g1 i ++ [(b, g1.edges.length)] := by
        rw [dstAt_connect_self g1 i b _ hi1, dictSet_fresh _ _ _ hkeys]
      have hold : ∀ jk ∈ dstAt g1 i,
          edgeVal (connect g1 i b ⟨sp, round2 d, round2 d⟩) jk.2 =
            edgeVal g1 jk.2 := by
        intro jk hjk
        obtain ⟨e0, he0⟩ := (hent jk hjk).2.1
        exact edgeVal_stable (evolves_connect g1 i b _) he0
      have hsum3 : dstSum g1 i + u = rate := hsum
      have hsum2 : dstSum (connect g1 i b ⟨sp, round2 d, round2 d⟩) i =
          dstSum g1 i + d := by
        unfold dstSum
        rw [hdstEq, List.map_append, List.sum_append,
          List.map_congr_left hold]
        simp only [List.map_cons, List.map_nil, List.sum_cons, List.sum_nil]
        rw [edgeVal_connect_new g1 i b ⟨sp, round2 d, round2 d⟩, hrd]
        simp
      refine ⟨hE.trans (evolves_connect g1 i b _), round2_twoDec _, ?_, ?_, ?_⟩
      · show (0 : ℚ) ≤ round2 (u - d)
        rw [hru]
        rw [hru] at hnn2
        exact le_of_not_lt hnn2
      · show dstSum (connect g1 i b ⟨sp, round2 d, round2 d⟩) i +
          round2 (u - d) = rate
        rw [hsum2, hru]
        linarith [hsum3]
      · intro jk hjk
        rw [hdstEq] at hjk
        rcases List.mem_append.mp hjk with hjk1 | hjk1
        · obtain ⟨hl, ⟨e0, he0⟩, r2, sc2, hm⟩ := hent jk hjk1
          refine ⟨fun hh => hl (List.mem_cons_of_mem b hh),
            ⟨e0, (evolves_connect g1 i b _).1 jk.2 e0 he0⟩, r2, sc2, ?_⟩
          rw [kindAt_connect]
          exact hm
        · have hjk2 : jk = (b, g1.edges.length) := by
            simpa using hjk1
          subst hjk2
          refine ⟨hb, ⟨⟨sp, round2 d, round2 d⟩, ?_⟩, r, sc, ?_⟩
          · rw [edges_connect, get_append_one]
            simp
          · rw [kindAt_connect]
            exact hkb
    · exact hQ.weaken
  · exact hQ.weaken

theorem sourceLoop_inv (g : PGraph) (i : Nat) (sp : Product) (rate : ℚ)
    (hk : kindAt g i = some (.source sp rate))
    (hdm : ∀ x r sc, kindAt g x = some (.machine r sc) →
      ∀ pd ∈ inDemands r sc, TwoDec pd.2)
    (hrate : TwoDec rate) (hrate0 : 0 ≤ rate)
    (hempty : dstAt g i = [])
    (g1 : PGraph) (u : ℚ)
    (heq : runSteps (sourceMachineStep i sp) (g, rate)
      (List.range g.vertices.length) = ((g1, u), none)) :
    SrcLoopQ g i rate (g1, u) [] := by
  have hinit : SrcLoopQ g i rate (g, rate) (List.range g.vertices.length) := by
    refine ⟨evolves_self g, hrate, hrate0, ?_, ?_⟩
    · unfold dstSum
      rw [hempty]
      simp
    · rw [hempty]
      intro jk hjk
      simp at hjk
  have h := runSteps_inv2 (sourceMachineStep i sp) (SrcLoopQ g i rate)
    (sourceLoop_step g i sp rate hk hdm)
    (List.range g.vertices.length) (g, rate) (List.nodup_range _) hinit
    (by rw [heq])
  rw [heq] at h
  exact h


theorem srcdone_nowaste (g1 : PGraph) (i : Nat) (sp : Product) (rate : ℚ)
    (hkind1 : kindAt g1 i = some (.source sp rate))
    (hsum1 : dstSum g1 i = rate)
    (hmach1 : ∀ jk ∈ dstAt g1 i,
      (∃ e : FlowEdge, g1.edges[jk.2]? = some e) ∧
      ∃ r sc, kindAt g1 jk.1 = some (.machine r sc)) :
    SrcDone g1 i sp rate := by
  have hwzero : dstWasteEntries g1 i = [] := by
    unfold dstWasteEntries
    rw [List.filter_eq_nil_iff]
    intro jk hjk
    obtain ⟨r, sc, hm⟩ := (hmach1 jk hjk).2
    simp [isWasteTgt_of_machine hm]
  have hfil : (dstAt g1 i).filter (fun jk => !(isWasteTgt g1 jk.1)) =
      dstAt g1 i := by
    rw [List.filter_eq_self]
    intro jk hjk
    obtain ⟨r, sc, hm⟩ := (hmach1 jk hjk).2
    simp [isWasteTgt_of_machine hm]
  have hnwall : dstNonWasteSum g1 i = dstSum g1 i := by
    unfold dstNonWasteSum dstSum
    rw [hfil]
  refine ⟨hkind1, ?_, hsum1, ?_, ?_, ?_⟩
  · intro jk hjk
    obtain ⟨he, r, sc, hm⟩ := hmach1 jk hjk
    exact ⟨he, ⟨_, hm⟩⟩
  · rw [hwzero]
    simp
  · rw [hnwall, hsum1]
  · intro hlt
    rw [hnwall, hsum1] at hlt
    exact absurd hlt (lt_irrefl _)

theorem srcdone_waste (g1 : PGraph) (i : Nat) (sp : Product)
    (rate unused : ℚ)
    (hkind1 : kindAt g1 i = some (.source sp rate))
    (htdu : TwoDec unused) (hpos : 0 < unused)
    (hsum1 : dstSum g1 i + unused = rate)
    (hmach1 : ∀ jk ∈ dstAt g1 i,
      (∃ e : FlowEdge, g1.edges[jk.2]? = some e) ∧
      ∃ r sc, kindAt g1 jk.1 = some (.machine r sc)) :
    SrcDone (connect (addVertex g1 (.waste sp (round2 unused))) i
      g1.vertices.length ⟨sp, round2 unused, round2 unused⟩) i sp rate := by
  have hru : round2 unused = unused := htdu.round2_self
  have hi1 : i < g1.vertices.length := kindAt_some_lt hkind1
  have hiw : i < (addVertex g1 (.waste sp (round2 unused))).vertices.length := by
    rw [vertices_length_addVertex]
    omega
  have hEc : Evolves g1 (connect (addVertex g1 (.waste sp (round2 unused))) i
      g1.vertices.length ⟨sp, round2 unused, round2 unused⟩) :=
    (evolves_addVertex g1 sp (round2 unused)).trans (evolves_connect _ i _ _)
  have hkc : kindAt (connect (addVertex g1 (.waste sp (round2 unused))) i
      g1.vertices.length ⟨sp, round2 unused, round2 unused⟩) i =
      some (.source sp rate) := evolves_fwd_source hEc i sp rate hkind1
  have hkmach : ∀ jk ∈ dstAt g1 i, ∃ r sc,
      kindAt (connect (addVertex g1 (.waste sp (round2 unused))) i
        g1.vertices.length ⟨sp, round2 unused, round2 unused⟩) jk.1 =
        some (.machine r sc) := by
    intro jk hjk
    obtain ⟨r, sc, hm⟩ := (hmach1 jk hjk).2
    have hlt : jk.1 < g1.vertices.length := kindAt_some_lt hm
    have hne2 : ¬(jk.1 = g1.vertices.length) := by omega
    refine ⟨r, sc, ?_⟩
    rw [kindAt_connect, kindAt_addVertex, if_neg hne2]
    exact hm
  have hkwaste : kindAt (connect (addVertex g1 (.waste sp (round2 unused))) i
      g1.vertices.length ⟨sp, round2 unused, round2 unused⟩)
      g1.vertices.length = some (.waste sp (round2 unused)) := by
    rw [kindAt_connect, kindAt_addVertex, if_pos rfl]
  have hkeys : g1.vertices.length ∉
      (dstAt (addVertex g1 (.waste sp (round2 unused))) i).map Prod.fst := by
    rw [dstAt_addVertex]
    intro hmem
    obtain ⟨jk, hjk, hjk1⟩ := List.mem_map.mp hmem
    obtain ⟨r, sc, hm⟩ := (hmach1 jk hjk).2
    have hlt : jk.1 < g1.vertices.length := kindAt_some_lt hm
    omega
  have hdstEq : dstAt (connect (addVertex g1 (.waste sp (round2 unused))) i
      g1.vertices.length ⟨sp, round2 unused, round2 unused⟩) i =
      dstAt g1 i ++ [(g1.vertices.length, g1.edges.length)] := by
    rw [dstAt_connect_self _ i _ _ hiw, dictSet_fresh _ _ _ hkeys,
      dstAt_addVertex, edges_addVertex]
  have hold : ∀ jk ∈ dstAt g1 i,
      edgeVal (connect (addVertex g1 (.waste sp (round2 unused))) i
        g1.vertices.length ⟨sp, round2 unused, round2 unused⟩) jk.2 =
        edgeVal g1 jk.2 := by
    intro jk hjk
    obtain ⟨e0, he0⟩ := (hmach1 jk hjk).1
    exact edgeVal_stable hEc he0
  have hnewval : edgeVal (connect (addVertex g1 (.waste sp (round2 unused))) i
      g1.vertices.length ⟨sp, round2 unused, round2 unused⟩)
      g1.edges.length = round2 unused := by
    have h := edgeVal_connect_new (addVertex g1 (.waste sp (round2 unused))) i
      g1.vertices.length ⟨sp, round2 unused, round2 unused⟩
    rw [edges_addVertex] at h
    exact h
  have hfold : ((dstAt g1 i).map fun jk => edgeVal g1 jk.2).sum =
      dstSum g1 i := rfl
  have hsum2 : dstSum (connect (addVertex g1 (.waste sp (round2 unused))) i
      g1.vertices.length ⟨sp, round2 unused, round2 unused⟩) i = rate := by
    unfold dstSum
    rw [hdstEq, List.map_append, List.sum_append, List.map_congr_left hold]
    simp only [List.map_cons, List.map_nil, List.sum_cons, List.sum_nil]
    rw [hnewval, hru, hfold]
    linarith [hsum1]
  have hwfilter : dstWasteEntries (connect (addVertex g1
      (.waste sp (round2 unused))) i g1.vertices.length
      ⟨sp, round2 unused, round2 unused⟩) i =
      [(g1.vertices.length, g1.edges.length)] := by
    unfold dstWasteEntries
    rw [hdstEq, List.filter_append]
    have h1 : (dstAt g1 i).filter
        (fun jk => isWasteTgt (connect (addVertex g1
          (.waste sp (round2 unused))) i g1.vertices.length
          ⟨sp, round2 unused, round2 unused⟩) jk.1) = [] := by
      rw [List.filter_eq_nil_iff]
      intro jk hjk
      obtain ⟨r, sc, hm⟩ := hkmach jk hjk
      simp [isWasteTgt_of_machine hm]
    rw [h1]
    simp [isWasteTgt_of_waste hkwaste]
  have hfilnw : (dstAt g1 i).filter
      (fun jk => !(isWasteTgt (connect (addVertex g1
        (.waste sp (round2 unused))) i g1.vertices.length
        ⟨sp, round2 unused, round2 unused⟩) jk.1)) = dstAt g1 i := by
    rw [List.filter_eq_self]
    intro jk hjk
    obtain ⟨r, sc, hm⟩ := hkmach jk hjk
    simp [isWasteTgt_of_machine hm]
  have hnw2 : dstNonWasteSum (connect (addVertex g1
      (.waste sp (round2 unused))) i g1.vertices.length
      ⟨sp, round2 unused, round2 unused⟩) i = dstSum g1 i := by
    unfold dstNonWasteSum
    rw [hdstEq, List.filter_append, hfilnw]
    have h2 : ([(g1.vertices.length, g1.edges.length)] :
        List (Nat × Nat)).filter
        (fun jk => !(isWasteTgt (connect (addVertex g1
          (.waste sp (round2 unused))) i g1.vertices.length
          ⟨sp, round2 unused, round2 unused⟩) jk.1)) = [] := by
      simp [isWasteTgt_of_waste hkwaste]
    rw [h2, List.append_nil, List.map_congr_left hold, hfold]
  refine ⟨hkc, ?_, hsum2, ?_, ?_, ?_⟩
  · intro jk hjk
    rw [hdstEq] at hjk
    rcases List.mem_append.mp hjk with hjk1 | hjk1
    · obtain ⟨⟨e0, he0⟩, _⟩ := hmach1 jk hjk1
      obtain ⟨r, sc, hm⟩ := hkmach jk hjk1
      exact ⟨⟨e0, hEc.1 jk.2 e0 he0⟩, ⟨_, hm⟩⟩
    · have hjk2 : jk = (g1.vertices.length, g1.edges.length) := by
        simpa using hjk1
      subst hjk2
      refine ⟨⟨⟨sp, round2 unused, round2 unused⟩, ?_⟩, ⟨_, hkwaste⟩⟩
      rw [edges_connect, edges_addVertex, get_append_one]
      simp
  · rw [hwfilter]
    simp
  · rw [hnw2]
    linarith [hsum1, hpos]
  · intro hlt
    rw [hwfilter]
    simp

theorem sourceStep_establish (g : PGraph) (i : Nat) (sp : Product) (rate : ℚ)
    (hk : kindAt g i = some (.source sp rate))
    (hrate : TwoDec rate) (hrate0 : 0 ≤ rate)
    (hempty : dstAt g i = [])
    (hdm : ∀ x r sc, kindAt g x = some (.machine r sc) →
      ∀ pd ∈ inDemands r sc, TwoDec pd.2) :
    (sourceStep g i).2 = none → SrcDone (sourceStep g i).1 i sp rate := by
  unfold sourceStep
  split
  · rename_i sp2 rate2 hkind
    have hk3 := hk
    unfold kindAt at hk3
    rw [hkind] at hk3
    injection hk3 with hk4
    obtain ⟨hsp2, hrt2⟩ := VKind.source.injEq .. ▸ hk4
    have hsp3 := hsp2.symm
    have hrt3 := hrt2.symm
    subst hsp3
    subst hrt3
    split
    · rename_i g1 unused heq
      intro _
      obtain ⟨hE1, htdu, hnnu, hsum1, hent1⟩ :=
        sourceLoop_inv g i sp rate hk hdm hrate hrate0 hempty g1 unused heq
      have hkind1 : kindAt g1 i = some (.source sp rate) :=
        evolves_fwd_source hE1 i sp rate hk
      have hsum2 : dstSum g1 i + unused = rate := hsum1
      have htdu2 : TwoDec unused := htdu
      have hnnu2 : (0 : ℚ) ≤ unused := hnnu
      have hmach1 : ∀ jk ∈ dstAt g1 i,
          (∃ e : FlowEdge, g1.edges[jk.2]? = some e) ∧
          ∃ r sc, kindAt g1 jk.1 = some (.machine r sc) := by
        intro jk hjk
        exact ⟨(hent1 jk hjk).2.1, (hent1 jk hjk).2.2⟩
      by_cases hpos : 0 < unused
      · rw [if_pos hpos]
        exact srcdone_waste g1 i sp rate unused hkind1 htdu2 hpos hsum2 hmach1
      · rw [if_neg hpos]
        have hz : unused = 0 := le_antisymm (le_of_not_lt hpos) hnnu2
        exact srcdone_nowaste g1 i sp rate hkind1
          (by rw [← hsum2, hz]; ring) hmach1
    · rename_i g1 u2 e heq
      intro hbad
      simp at hbad
  · rename_i hno
    intro _
    exact (hno sp rate hk).elim



/-- C2 counterexample instance: a single negative-rate input, no machines,
no outputs. The build completes without raising (graph.py only raises when
the decremented unused rate goes negative inside the machine loop, and only
creates a Waste vertex when the remainder is strictly positive). -/
theorem claim2_counterexample :
    (create [] [("A", -5)] []).2 = none ∧
    kindAt (create [] [("A", -5)] []).1 0 = some (.source "A" (-5)) ∧
    dstSum (create [] [("A", -5)] []).1 0 = 0 ∧
    (dstWasteEntries (create [] [("A", -5)] []).1 0).length = 0 := by
  refine ⟨by decide, by decide, by decide, by decide⟩

/-- C2 (amended): after create completes without raising, provided every
supplied input rate is non-negative and every scaled machine demand is
exactly representable at two decimals, every Source vertex satisfies exact
conservation: the sum of the rates of all its outgoing edges (Waste edge
included) equals its supply rate, the non-Waste outgoing flow never exceeds
the supply rate, at most one Waste edge leaves the source, and a strictly
smaller non-Waste flow is balanced by exactly one Waste edge. -/
theorem claim2_source_conservation
    (plan : List (Recipe × ℤ)) (inputsL outputsL : List (Product × ℚ))
    (hin : ∀ pr ∈ inputsL, 0 ≤ pr.2)
    (hdm : ∀ rs ∈ plan, ∀ pq ∈ rs.1.inputs, TwoDec (pq.2 * (rs.2 : ℚ)))
    (hok : (create plan inputsL outputsL).2 = none)
    (i : Nat) (sp : Product) (rate : ℚ)
    (hsrc : kindAt (create plan inputsL outputsL).1 i =
      some (.source sp rate)) :
    dstSum (create plan inputsL outputsL).1 i = rate ∧
    dstNonWasteSum (create plan inputsL outputsL).1 i ≤ rate ∧
    (dstWasteEntries (create plan inputsL outputsL).1 i).length ≤ 1 ∧
    (dstNonWasteSum (create plan inputsL outputsL).1 i < rate →
      (dstWasteEntries (create plan inputsL outputsL).1 i).length = 1) := by
  rcases hres1 : runSteps sourceStep (createBase plan inputsL outputsL)
    (List.range (createBase plan inputsL outputsL).vertices.length)
    with ⟨g1, e1⟩
  cases e1 with
  | some err =>
    have hbad : (create plan inputsL outputsL).2 = some err := by
      show (match runSteps sourceStep (createBase plan inputsL outputsL)
          (List.range (createBase plan inputsL outputsL).vertices.length) with
        | (g1, some e) => (g1, some e)
        | (g1, none) =>
          match runSteps (machineStep (outputsL.map Prod.fst))
              (g1, initRemaining g1) (List.range g1.vertices.length) with
          | ((g2, _), e) => (g2, e)).2 = some err
      rw [hres1]
    rw [hbad] at hok
    exact absurd hok (by simp)
  | none =>
    rcases hres2 : runSteps (machineStep (outputsL.map Prod.fst))
      (g1, initRemaining g1) (List.range g1.vertices.length)
      with ⟨⟨g2, rem2⟩, e2⟩
    have hcr : create plan inputsL outputsL = (g2, e2) := by
      show (match runSteps sourceStep (createBase plan inputsL outputsL)
          (List.range (createBase plan inputsL outputsL).vertices.length) with
        | (g1, some e) => (g1, some e)
        | (g1, none) =>
          match runSteps (machineStep (outputsL.map Prod.fst))
              (g1, initRemaining g1) (List.range g1.vertices.length) with
          | ((g2, _), e) => (g2, e)) = (g2, e2)
      rw [hres1]
      show (match runSteps (machineStep (outputsL.map Prod.fst))
          (g1, initRemaining g1) (List.range g1.vertices.length) with
        | ((g2, _), e) => (g2, e)) = (g2, e2)
      rw [hres2]
    rw [hcr] at hok hsrc ⊢
    have hsrcg2 : kindAt g2 i = some (.source sp rate) := hsrc
    have hE01 : Evolves (createBase plan inputsL outputsL) g1 := by
      have h := evolves_sourcePass (createBase plan inputsL outputsL)
        (List.range (createBase plan inputsL outputsL).vertices.length)
      rw [hres1] at h
      exact h
    have hE12 : Evolves g1 g2 := by
      have h := evolves_machinePass (outputsL.map Prod.fst)
        (g1, initRemaining g1) (List.range g1.vertices.length)
      rw [hres2] at h
      exact h
    have hE02 : Evolves (createBase plan inputsL outputsL) g2 :=
      hE01.trans hE12
    have hsrc0 : kindAt (createBase plan inputsL outputsL) i =
        some (.source sp rate) := evolves_back_source hE02 i sp rate hsrcg2
    obtain ⟨hrate, hrate0⟩ :=
      source_rate_base hin (evolves_self _) i sp rate hsrc0
    have hQg1 : SrcDone g1 i sp rate := by
      have hone := runSteps_one sourceStep i
        (fun s => Evolves (createBase plan inputsL outputsL) s ∧
          dstAt s i = [])
        (fun s => SrcDone s i sp rate)
        (fun s b hbne hP hsc => ⟨hP.1.trans (evolves_sourceStep s b),
          by rw [sourceStep_dstAt s b i (fun hh => hbne hh.symm)]
             exact hP.2⟩)
        (fun s b hbne hQ hsc => SrcDone_sourceStep (fun hh => hbne hh.symm) hQ)
        (fun s hP hsc => sourceStep_establish s i sp rate
          (evolves_fwd_source hP.1 i sp rate hsrc0) hrate hrate0 hP.2
          (fun x r sc hkx => mach_demands_twodec hdm hP.1 x r sc hkx) hsc)
        (List.range (createBase plan inputsL outputsL).vertices.length)
        (createBase plan inputsL outputsL)
        (List.mem_range.mpr (kindAt_some_lt hsrc0))
        (List.nodup_range _)
        ⟨evolves_self _, (dstAt_empty_base plan inputsL outputsL i).1⟩
        (by rw [hres1])
      rw [hres1] at hone
      exact hone
    have hQg2 : SrcDone g2 i sp rate := by
      have h := runSteps_always (machineStep (outputsL.map Prod.fst))
        (fun s => SrcDone s.1 i sp rate)
        (fun s a hQ => SrcDone_machineStep (outputsL.map Prod.fst) s a i sp
          rate hQ)
        (List.range g1.vertices.length) (g1, initRemaining g1) hQg1
      rw [hres2] at h
      exact h
    exact ⟨hQg2.2.2.1, hQg2.2.2.2.2.1, hQg2.2.2.2.1, hQg2.2.2.2.2.2⟩

/-- Recipe, plan, inputs and outputs of the C2 witness build: one machine
consuming 2 A and 4 B per scale to make one C, supplies A at 2 and B at
12, requested output C. -/
def recW : Recipe := ⟨"RW", [("A", 2), ("B", 4)], [("C", 1)]⟩

def c2plan : List (Recipe × ℤ) := [(recW, 1)]

def c2inputs : List (Product × ℚ) := [("A", 2), ("B", 12)]

def c2outputs : List (Product × ℚ) := [("C", 1)]

/-- C2 witness: on the concrete witness build the source for B (vertex 1,
supply 12) satisfies the amended conservation statement; 4 flow to the
machine and 8 to its single Waste edge. -/
theorem claim2_witness :
    dstSum (create c2plan c2inputs c2outputs).1 1 = 12 ∧
    dstNonWasteSum (create c2plan c2inputs c2outputs).1 1 ≤ 12 ∧
    (dstWasteEntries (create c2plan c2inputs c2outputs).1 1).length ≤ 1 ∧
    (dstNonWasteSum (create c2plan c2inputs c2outputs).1 1 < 12 →
      (dstWasteEntries (create c2plan c2inputs c2outputs).1 1).length = 1) :=
  claim2_source_conservation c2plan c2inputs c2outputs
    (by decide)
    (by
      intro rs hrs pq hpq
      simp only [c2plan, List.mem_singleton] at hrs
      subst hrs
      simp only [recW, List.mem_cons, List.mem_singleton] at hpq
      rcases hpq with h | h | h
      · subst h
        exact ⟨200, by norm_num⟩
      · subst h
        exact ⟨400, by norm_num⟩
      · simp at h)
    (by decide) 1 "B" 12 (by decide)

/-! Machine satisfaction (claim C3): the key fact is that the source pass
connects every source to every machine demanding its product at the full
scaled demand, and the stored full-demand edge into the machine's incoming
adjacency dict survives the rest of the build. -/

theorem mem_of_lookup {α : Type} {l : List α} {k : Nat} {e : α}
    (h : l[k]? = some e) : e ∈ l := by
  obtain ⟨hlt, hEq⟩ := List.getElem?_eq_some_iff.mp h
  exact hEq ▸ List.getElem_mem hlt

/-- Vertex m holds, under key i0 of its incoming adjacency dict, a stored
edge carrying product p at rate d for both rates. -/
def SrcCov (g : PGraph) (m i0 : Nat) (p : Product) (d : ℚ) : Prop :=
  ∃ k, dictGet (srcAt g m) i0 = some k ∧
    g.edges[k]? = some ⟨p, d, d⟩

theorem SrcCov.lt {g : PGraph} {m i0 : Nat} {p : Product} {d : ℚ}
    (h : SrcCov g m i0 p d) : m < g.vertices.length := by
  obtain ⟨k, h1, _⟩ := h
  by_contra hc
  have h0 : srcAt g m = [] := by
    unfold srcAt
    rw [getElem_none_of_le _ _ (by omega)]
    rfl
  rw [h0] at h1
  simp [dictGet] at h1

theorem SrcCov_connect {g : PGraph} {m i0 : Nat} {p : Product} {d : ℚ}
    (h : SrcCov g m i0 p d) (a b : Nat) (e : FlowEdge) (ha : a ≠ i0) :
    SrcCov (connect g a b e) m i0 p d := by
  have hm := h.lt
  obtain ⟨k, h1, h2⟩ := h
  refine ⟨k, ?_, (evolves_connect g a b e).1 k _ h2⟩
  by_cases hb : b = m
  · subst hb
    rw [srcAt_connect_self g a b e hm, dictGet_dictSet_ne _ _ _ _
      (fun hh => ha hh.symm)]
    exact h1
  · rw [srcAt_connect_ne g a b e m (fun hh => hb hh.symm)]
    exact h1

theorem SrcCov_connect_tgt_ne {g : PGraph} {m i0 : Nat} {p : Product}
    {d : ℚ} (h : SrcCov g m i0 p d) (a b : Nat) (e : FlowEdge)
    (hbm : b ≠ m) : SrcCov (connect g a b e) m i0 p d := by
  obtain ⟨k, h1, h2⟩ := h
  refine ⟨k, ?_, (evolves_connect g a b e).1 k _ h2⟩
  rw [srcAt_connect_ne g a b e m (fun hh => hbm hh.symm)]
  exact h1

theorem SrcCov_addVertex {g : PGraph} {m i0 : Nat} {p : Product} {d : ℚ}
    (h : SrcCov g m i0 p d) (k : VKind) :
    SrcCov (addVertex g k) m i0 p d := by
  obtain ⟨k2, h1, h2⟩ := h
  refine ⟨k2, ?_, ?_⟩
  · rw [srcAt_addVertex]
    exact h1
  · rw [edges_addVertex]
    exact h2

theorem SrcCov_bumpSink {g : PGraph} {m i0 : Nat} {p : Product} {d : ℚ}
    (h : SrcCov g m i0 p d) (oj : Nat) (q : ℚ) :
    SrcCov (bumpSink g oj q) m i0 p d := by
  obtain ⟨k2, h1, h2⟩ := h
  refine ⟨k2, ?_, ?_⟩
  · rw [srcAt_bumpSink]
    exact h1
  · rw [edges_bumpSink]
    exact h2

theorem inDemands_keys (r : Recipe) (sc : ℤ) :
    (inDemands r sc).map Prod.fst = r.inputs.map Prod.fst := by
  unfold inDemands
  rw [List.map_map]
  rfl

theorem source_mem_base (plan : List (Recipe × ℤ))
    (inputsL outputsL : List (Product × ℚ)) (pr : Product × ℚ)
    (hmem : pr ∈ inputsL) :
    ∃ x, kindAt (createBase plan inputsL outputsL) x =
      some (VKind.source pr.1 (round2 pr.2)) := by
  have key : ∀ (l : List (Product × ℚ)) (g : PGraph), pr ∈ l →
      ∃ x, kindAt (addSourceVertices g l) x =
        some (VKind.source pr.1 (round2 pr.2)) := by
    intro l
    induction l with
    | nil => intro g h; simp at h
    | cons pq rest ih =>
      intro g h
      rw [addSourceVertices_cons]
      rcases List.mem_cons.mp h with h1 | h1
      · subst h1
        have hstable : ∀ (l2 : List (Product × ℚ)) (g2 : PGraph) (x : Nat),
            kindAt g2 x = some (VKind.source pr.1 (round2 pr.2)) →
            kindAt (addSourceVertices g2 l2) x =
              some (VKind.source pr.1 (round2 pr.2)) := by
          intro l2
          induction l2 with
          | nil => intro g2 x hx; exact hx
          | cons pq2 rest2 ih2 =>
            intro g2 x hx
            rw [addSourceVertices_cons]
            refine ih2 _ x ?_
            rw [kindAt_addVertex]
            split
            · rename_i hxe
              unfold kindAt at hx
              rw [getElem_none_of_le _ _ (by omega)] at hx
              simp at hx
            · exact hx
        refine ⟨g.vertices.length, hstable rest _ _ ?_⟩
        rw [kindAt_addVertex, if_pos rfl]
      · exact ih _ h1
  obtain ⟨x, hx⟩ := key inputsL ⟨[], []⟩ hmem
  have hsink : ∀ (l : List (Product × ℚ)) (g : PGraph) (x : Nat),
      kindAt g x = some (VKind.source pr.1 (round2 pr.2)) →
      kindAt (addSinkVertices g l) x =
        some (VKind.source pr.1 (round2 pr.2)) := by
    intro l
    induction l with
    | nil => intro g x2 hx2; exact hx2
    | cons pq rest ih =>
      intro g x2 hx2
      rw [addSinkVertices_cons]
      refine ih _ x2 ?_
      rw [kindAt_addVertex]
      split
      · rename_i hxe
        unfold kindAt at hx2
        rw [getElem_none_of_le _ _ (by omega)] at hx2
        simp at hx2
      · exact hx2
  have hmach : ∀ (l : List (Recipe × ℤ)) (g : PGraph) (x : Nat),
      kindAt g x = some (VKind.source pr.1 (round2 pr.2)) →
      kindAt (addMachineVertices g l) x =
        some (VKind.source pr.1 (round2 pr.2)) := by
    intro l
    induction l with
    | nil => intro g x2 hx2; exact hx2
    | cons rs rest ih =>
      intro g x2 hx2
      rw [addMachineVertices_cons]
      refine ih _ x2 ?_
      split
      · exact hx2
      · rw [kindAt_addVertex]
        split
        · rename_i hxe
          unfold kindAt at hx2
          rw [getElem_none_of_le _ _ (by omega)] at hx2
          simp at hx2
        · exact hx2
  exact ⟨x, hmach plan _ x (hsink outputsL _ x hx)⟩

theorem SrcCov_sourceMachineStep {m i0 : Nat} {p : Product} {d : ℚ}
    (a : Nat) (sp : Product) (s : PGraph × ℚ) (j : Nat) (ha : a ≠ i0)
    (h : SrcCov s.1 m i0 p d) :
    SrcCov (sourceMachineStep a sp s j).1.1 m i0 p d := by
  simp only [sourceMachineStep]
  split
  · split
    · exact SrcCov_connect h a j _ ha
    · exact h
  · exact h

theorem SrcCov_sourceMachineStep_tgtne {m i0 : Nat} {p : Product} {d : ℚ}
    (a : Nat) (sp : Product) (s : PGraph × ℚ) (j : Nat) (hj : j ≠ m)
    (h : SrcCov s.1 m i0 p d) :
    SrcCov (sourceMachineStep a sp s j).1.1 m i0 p d := by
  simp only [sourceMachineStep]
  split
  · split
    · exact SrcCov_connect_tgt_ne h a j _ hj
    · exact h
  · exact h

theorem SrcCov_sourceStep {m i0 : Nat} {p : Product} {d : ℚ}
    (g : PGraph) (b : Nat) (hb : b ≠ i0) (h : SrcCov g m i0 p d) :
    SrcCov (sourceStep g b).1 m i0 p d := by
  simp only [sourceStep]
  split
  · rename_i sp rate hkind
    have hloop := runSteps_always (sourceMachineStep b sp)
      (fun s2 => SrcCov s2.1 m i0 p d)
      (fun s2 a2 h2 => SrcCov_sourceMachineStep b sp s2 a2 hb h2)
      (List.range g.vertices.length) (g, rate) h
    split
    · rename_i g1 unused heq
      rw [heq] at hloop
      split
      · exact SrcCov_connect (SrcCov_addVertex hloop _) b _ _ hb
      · exact hloop
    · rename_i g1 u e heq
      rw [heq] at hloop
      exact hloop
  · exact h

theorem SrcCov_m2mConsumerStep {m i0 : Nat} {p : Product} {d : ℚ}
    (a : Nat) (q : Product)
    (s : PGraph × List (Nat × List (Product × ℚ)) × List (Product × ℚ))
    (j : Nat) (ha : a ≠ i0) (h : SrcCov s.1 m i0 p d) :
    SrcCov (m2mConsumerStep a q s j).1.1 m i0 p d := by
  obtain ⟨g, rem, unu⟩ := s
  simp only [m2mConsumerStep]
  split
  · exact h
  · split
    · exact h
    · split
      · exact h
      · split
        · exact h
        · exact SrcCov_connect h a j _ ha

theorem SrcCov_sinkStep {m i0 : Nat} {p : Product} {d : ℚ}
    (outKeys : List Product) (a : Nat) (s : PGraph × List (Product × ℚ))
    (q : Product) (ha : a ≠ i0) (h : SrcCov s.1 m i0 p d) :
    SrcCov (sinkStep outKeys a s q).1 m i0 p d := by
  obtain ⟨g, unu⟩ := s
  simp only [sinkStep]
  split
  · split
    · exact SrcCov_bumpSink (SrcCov_connect h a _ _ ha) _ _
    · exact h
  · exact h

theorem SrcCov_wasteStep {m i0 : Nat} {p : Product} {d : ℚ}
    (a : Nat) (g : PGraph) (pu : Product × ℚ) (ha : a ≠ i0)
    (h : SrcCov g m i0 p d) :
    SrcCov (wasteStep a g pu) m i0 p d := by
  simp only [wasteStep]
  split
  · exact SrcCov_connect (SrcCov_addVertex h _) a _ _ ha
  · exact h

theorem SrcCov_machineStep {m i0 : Nat} {p : Product} {d : ℚ}
    {sp0 : Product} {srate0 : ℚ} (outKeys : List Product)
    (s : PGraph × List (Nat × List (Product × ℚ))) (b : Nat)
    (hsrck : kindAt s.1 i0 = some (.source sp0 srate0))
    (h : SrcCov s.1 m i0 p d) :
    SrcCov (machineStep outKeys s b).1.1 m i0 p d := by
  obtain ⟨g, rem⟩ := s
  simp only [machineStep]
  split
  · rename_i r sc hkind
    have hb : b ≠ i0 := by
      intro hh
      have hk2 : kindAt g i0 = some (VKind.machine r sc) :=
        hh ▸ (hkind : kindAt g b = some (VKind.machine r sc))
      rw [hsrck] at hk2
      simp at hk2
    have hloop := runSteps_always (fun s3 q =>
        runSteps (m2mConsumerStep b q) s3 (List.range g.vertices.length))
      (fun s3 => SrcCov s3.1 m i0 p d)
      (fun s3 q h3 => runSteps_always (m2mConsumerStep b q)
        (fun s4 => SrcCov s4.1 m i0 p d)
        (fun s4 j h5 => SrcCov_m2mConsumerStep b q s4 j hb h5)
        (List.range g.vertices.length) s3 h3)
      ((outAvailable r sc).map Prod.fst) (g, rem, outAvailable r sc) h
    split
    · rename_i g1 rem1 unu1 e heq
      rw [heq] at hloop
      exact hloop
    · rename_i g1 rem1 unu1 heq
      rw [heq] at hloop
      have hsink := foldl_always (sinkStep outKeys b)
        (fun s2 => SrcCov s2.1 m i0 p d)
        (fun s2 q h2 => SrcCov_sinkStep outKeys b s2 q hb h2)
        (unu1.map Prod.fst) (g1, unu1) hloop
      cases hs2 : (unu1.map Prod.fst).foldl (sinkStep outKeys b) (g1, unu1) with
      | mk g2 unu2 =>
        rw [hs2] at hsink
        have hwaste := foldl_always (wasteStep b)
          (fun g3 => SrcCov g3 m i0 p d)
          (fun g3 pu h2 => SrcCov_wasteStep b g3 pu hb h2) unu2 g2 hsink
        simp only [hs2]
        exact hwaste
  · exact h

theorem sourceStep_srccov (g : PGraph) (i0 m : Nat) (p : Product)
    (srate : ℚ) (r : Recipe) (sc : ℤ) (d : ℚ)
    (hk : kindAt g i0 = some (.source p srate))
    (hm : kindAt g m = some (.machine r sc))
    (hmem : (p, d) ∈ inDemands r sc)
    (hnd : ((inDemands r sc).map Prod.fst).Nodup)
    (hrd : round2 d = d) :
    (sourceStep g i0).2 = none → SrcCov (sourceStep g i0).1 m i0 p d := by
  unfold sourceStep
  split
  · rename_i sp2 rate2 hkind
    have hk3 := hk
    unfold kindAt at hk3
    rw [hkind] at hk3
    injection hk3 with hk4
    obtain ⟨hsp2, hrt2⟩ := VKind.source.injEq .. ▸ hk4
    have hsp3 := hsp2.symm
    have hrt3 := hrt2.symm
    subst hsp3
    subst hrt3
    split
    · rename_i g1 unused heq
      intro _
      have hminner : SrcCov g1 m i0 p d := by
        have hone := runSteps_one (sourceMachineStep i0 p) m
          (fun s2 => Evolves g s2.1)
          (fun s2 => SrcCov s2.1 m i0 p d)
          (fun s2 j hj hP hsc =>
            hP.trans (evolves_sourceMachineStep i0 p s2 j))
          (fun s2 j hj hQ hsc =>
            SrcCov_sourceMachineStep_tgtne i0 p s2 j hj hQ)
          (fun s2 hP hsc => by
            have hm2 : kindAt s2.1 m = some (.machine r sc) :=
              evolves_fwd_machine hP m r sc hm
            have hm3 : (s2.1.vertices[m]?).map Vertex.kind =
                some (VKind.machine r sc) := hm2
            have hd : dictGet (inDemands r sc) p = some d :=
              dictGet_of_mem_nodup _ _ _ hnd hmem
            simp only [sourceMachineStep, hm3, hd]
            have hmlt : m < s2.1.vertices.length := kindAt_some_lt hm2
            refine ⟨s2.1.edges.length, ?_, ?_⟩
            · rw [srcAt_connect_self s2.1 i0 m _ hmlt, dictGet_dictSet_self]
            · have hedge : (⟨p, round2 d, round2 d⟩ : FlowEdge) =
                  ⟨p, d, d⟩ := by
                rw [hrd]
              rw [hedge, edges_connect, get_append_one]
              simp)
          (List.range g.vertices.length) (g, srate)
          (List.mem_range.mpr (kindAt_some_lt hm))
          (List.nodup_range _) (evolves_self g) (by rw [heq])
        rw [heq] at hone
        exact hone
      by_cases hpos : 0 < unused
      · rw [if_pos hpos]
        show SrcCov (connect (addVertex g1 (.waste p (round2 unused))) i0
          g1.vertices.length ⟨p, round2 unused, round2 unused⟩) m i0 p d
        have hmlt1 : m < g1.vertices.length := hminner.lt
        exact SrcCov_connect_tgt_ne (SrcCov_addVertex hminner _) i0 _ _
          (by omega)
      · rw [if_neg hpos]
        exact hminner
    · rename_i g1 u2 e heq
      intro hbad
      simp at hbad
  · rename_i hno
    intro _
    exact (hno p srate hk).elim

/-- C3 counterexample instance: a machine demanding A with no input
supplies at all. The builder never checks satisfaction, so the build
completes and the machine is unsatisfied. -/
theorem claim3_counterexample :
    (create [(recAB, 1)] [] []).2 = none ∧
    satisfied (create [(recAB, 1)] [] []).1 0 = false := by
  refine ⟨by decide, by decide⟩

/-- C3 (amended): in a completed build every machine is satisfied,
provided the plan has non-negative scales and recipe rates, all scaled
demands are two-decimal representable, recipe input dicts have unique
keys, and every input product demanded by some plan entry is supplied by
at least one input. Without the coverage hypothesis the claim fails: the
builder performs no satisfaction check. -/
theorem claim3_machines_satisfied
    (plan : List (Recipe × ℤ)) (inputsL outputsL : List (Product × ℚ))
    (hplan : PlanNN plan)
    (hdm : ∀ rs ∈ plan, ∀ pq ∈ rs.1.inputs, TwoDec (pq.2 * (rs.2 : ℚ)))
    (hnd : ∀ rs ∈ plan, (rs.1.inputs.map Prod.fst).Nodup)
    (hcov : ∀ rs ∈ plan, ∀ pq ∈ rs.1.inputs, ∃ pr ∈ inputsL, pr.1 = pq.1)
    (hok : (create plan inputsL outputsL).2 = none)
    (x : Nat) :
    satisfied (create plan inputsL outputsL).1 x = true := by
  rcases hres1 : runSteps sourceStep (createBase plan inputsL outputsL)
    (List.range (createBase plan inputsL outputsL).vertices.length)
    with ⟨g1, e1⟩
  cases e1 with
  | some err =>
    have hbad : (create plan inputsL outputsL).2 = some err := by
      show (match runSteps sourceStep (createBase plan inputsL outputsL)
          (List.range (createBase plan inputsL outputsL).vertices.length) with
        | (g1, some e) => (g1, some e)
        | (g1, none) =>
          match runSteps (machineStep (outputsL.map Prod.fst))
              (g1, initRemaining g1) (List.range g1.vertices.length) with
          | ((g2, _), e) => (g2, e)).2 = some err
      rw [hres1]
    rw [hbad] at hok
    exact absurd hok (by simp)
  | none =>
    rcases hres2 : runSteps (machineStep (outputsL.map Prod.fst))
      (g1, initRemaining g1) (List.range g1.vertices.length)
      with ⟨⟨g2, rem2⟩, e2⟩
    have hcr : create plan inputsL outputsL = (g2, e2) := by
      show (match runSteps sourceStep (createBase plan inputsL outputsL)
          (List.range (createBase plan inputsL outputsL).vertices.length) with
        | (g1, some e) => (g1, some e)
        | (g1, none) =>
          match runSteps (machineStep (outputsL.map Prod.fst))
              (g1, initRemaining g1) (List.range g1.vertices.length) with
          | ((g2, _), e) => (g2, e)) = (g2, e2)
      rw [hres1]
      show (match runSteps (machineStep (outputsL.map Prod.fst))
          (g1, initRemaining g1) (List.range g1.vertices.length) with
        | ((g2, _), e) => (g2, e)) = (g2, e2)
      rw [hres2]
    rw [hcr]
    show satisfied g2 x = true
    have hEN : EdgesNonneg g2 := by
      have h := create_edges_nonneg plan inputsL outputsL hplan
      rw [hcr] at h
      exact h
    have hE01 : Evolves (createBase plan inputsL outputsL) g1 := by
      have h := evolves_sourcePass (createBase plan inputsL outputsL)
        (List.range (createBase plan inputsL outputsL).vertices.length)
      rw [hres1] at h
      exact h
    have hE12 : Evolves g1 g2 := by
      have h := evolves_machinePass (outputsL.map Prod.fst)
        (g1, initRemaining g1) (List.range g1.vertices.length)
      rw [hres2] at h
      exact h
    have hE02 : Evolves (createBase plan inputsL outputsL) g2 :=
      hE01.trans hE12
    unfold satisfied
    split
    · rename_i v hv
      split
      · rename_i r sc hkv
        rw [List.all_eq_true]
        intro pd hpd
        rw [decide_eq_true_eq]
        have hkx2 : kindAt g2 x = some (.machine r sc) := by
          unfold kindAt
          rw [hv]
          simp [hkv]
        have hkx0 : kindAt (createBase plan inputsL outputsL) x =
            some (.machine r sc) := evolves_back_machine hE02 x r sc hkx2
        rcases kindAt_base plan inputsL outputsL x _ hkx0 with
          ⟨pr, _, h1⟩ | ⟨pr, _, h1⟩ | ⟨rs, hrs, hsc0, h1⟩
        · exact absurd h1 (by simp)
        · exact absurd h1 (by simp)
        obtain ⟨hr, hs⟩ := VKind.machine.injEq .. ▸ h1
        subst hr
        subst hs
        obtain ⟨pq, hpq, hpdEq⟩ := List.mem_map.mp hpd
        have htd : TwoDec pd.2 := by
          rw [← hpdEq]
          exact hdm rs hrs pq hpq
        have hrd : round2 pd.2 = pd.2 := htd.round2_self
        have hpd1 : pd.1 = pq.1 := by
          rw [← hpdEq]
        obtain ⟨pr, hpr, hprEq⟩ := hcov rs hrs pq hpq
        obtain ⟨i0, hi0⟩ := source_mem_base plan inputsL outputsL pr hpr
        have hi0p : kindAt (createBase plan inputsL outputsL) i0 =
            some (.source pd.1 (round2 pr.2)) := by
          rw [hi0, hprEq, ← hpd1]
        have hmemD : (pd.1, pd.2) ∈ inDemands rs.1 rs.2 := hpd
        have hndD : ((inDemands rs.1 rs.2).map Prod.fst).Nodup := by
          rw [inDemands_keys]
          exact hnd rs hrs
        have hQg1 : SrcCov g1 x i0 pd.1 pd.2 := by
          have hone := runSteps_one sourceStep i0
            (fun s => Evolves (createBase plan inputsL outputsL) s)
            (fun s => SrcCov s x i0 pd.1 pd.2 ∧
              Evolves (createBase plan inputsL outputsL) s)
            (fun s b hb hP hsc => hP.trans (evolves_sourceStep s b))
            (fun s b hb hQ hsc => ⟨SrcCov_sourceStep s b hb hQ.1,
              hQ.2.trans (evolves_sourceStep s b)⟩)
            (fun s hP hsc => ⟨sourceStep_srccov s i0 x pd.1 (round2 pr.2)
              rs.1 rs.2 pd.2
              (evolves_fwd_source hP i0 pd.1 (round2 pr.2) hi0p)
              (evolves_fwd_machine hP x rs.1 rs.2 hkx0)
              hmemD hndD hrd hsc, hP.trans (evolves_sourceStep s i0)⟩)
            (List.range (createBase plan inputsL outputsL).vertices.length)
            (createBase plan inputsL outputsL)
            (List.mem_range.mpr (kindAt_some_lt hi0p))
            (List.nodup_range _) (evolves_self _) (by rw [hres1])
          rw [hres1] at hone
          exact hone.1
        have hQg2 : SrcCov g2 x i0 pd.1 pd.2 := by
          have h := runSteps_always (machineStep (outputsL.map Prod.fst))
            (fun s => SrcCov s.1 x i0 pd.1 pd.2 ∧
              Evolves (createBase plan inputsL outputsL) s.1)
            (fun s b hQ => ⟨SrcCov_machineStep (outputsL.map Prod.fst) s b
              (evolves_fwd_source hQ.2 i0 pd.1 (round2 pr.2) hi0p) hQ.1,
              hQ.2.trans (evolves_machineStep (outputsL.map Prod.fst) s b)⟩)
            (List.range g1.vertices.length) (g1, initRemaining g1)
            ⟨hQg1, hE01⟩
          rw [hres2] at h
          exact h.1
        obtain ⟨k, hdg, hedge⟩ := hQg2
        have hsrcv : srcAt g2 x = v.src := by
          unfold srcAt
          rw [hv]
          rfl
        rw [hsrcv] at hdg
        have hmemsrc : (i0, k) ∈ v.src := dictGet_mem _ _ _ hdg
        unfold inFlowSum
        have hterm : (match g2.edges[k]? with
            | some e => if e.product = pd.1 then e.provide else 0
            | none => 0) = pd.2 := by
          rw [hedge]
          simp
        have hnonneg : ∀ y ∈ v.src.map (fun jk : Nat × Nat =>
            match g2.edges[jk.2]? with
            | some e => if e.product = pd.1 then e.provide else 0
            | none => 0), 0 ≤ y := by
          intro y hy
          obtain ⟨jk, hjk, hyEq⟩ := List.mem_map.mp hy
          rw [← hyEq]
          cases hge : g2.edges[jk.2]? with
          | none => simp
          | some e =>
            simp only [hge]
            split
            · exact (hEN e (mem_of_lookup hge)).1
            · exact le_refl 0
        have hfin := List.single_le_sum hnonneg _
          (List.mem_map_of_mem _ hmemsrc)
        have hfin2 : (match g2.edges[k]? with
            | some e => if e.product = pd.1 then e.provide else 0
            | none => 0) ≤ (v.src.map (fun jk : Nat × Nat =>
            match g2.edges[jk.2]? with
            | some e => if e.product = pd.1 then e.provide else 0
            | none => 0)).sum := hfin
        rw [hterm] at hfin2
        exact hfin2
      all_goals rfl
    · rfl

/-- C3 witness: on the concrete C2 witness build (machine demanding 2 A
and 4 B, supplies A at 2 and B at 12), the machine at vertex 3 is
satisfied; the amended theorem applies to every vertex index. -/
theorem claim3_witness :
    satisfied (create c2plan c2inputs c2outputs).1 3 = true :=
  claim3_machines_satisfied c2plan c2inputs c2outputs
    (by unfold PlanNN; decide)
    (by
      intro rs hrs pq hpq
      simp only [c2plan, List.mem_singleton] at hrs
      subst hrs
      simp only [recW, List.mem_cons, List.mem_singleton] at hpq
      rcases hpq with h | h | h
      · subst h
        exact ⟨200, by norm_num⟩
      · subst h
        exact ⟨400, by norm_num⟩
      · simp at h)
    (by decide)
    (by decide)
    (by decide) 3

/-! Adjacency-map agreement (claim C10): every entry of a producer's
outgoing dict is mirrored in the consumer's incoming dict and vice versa.
The invariant survives every connect with in-range endpoints because both
dicts are updated in the same edge-creation triple. -/

def AdjSync (g : PGraph) : Prop :=
  ∀ (i j k : Nat), dictGet (dstAt g i) j = some k ↔
    dictGet (srcAt g j) i = some k

theorem AdjSync_connect {g : PGraph} (h : AdjSync g) (a b : Nat)
    (e : FlowEdge) (ha : a < g.vertices.length)
    (hb : b < g.vertices.length) : AdjSync (connect g a b e) := by
  intro i j k
  by_cases hia : i = a
  · subst hia
    rw [dstAt_connect_self g i b e ha]
    by_cases hjb : j = b
    · subst hjb
      rw [srcAt_connect_self g i j e hb]
      rw [dictGet_dictSet_self, dictGet_dictSet_self]
    · rw [dictGet_dictSet_ne _ _ _ _ hjb,
        srcAt_connect_ne g i b e j hjb]
      exact h i j k
  · rw [dstAt_connect_ne g a b e i hia]
    by_cases hjb : j = b
    · subst hjb
      rw [srcAt_connect_self g a j e hb,
        dictGet_dictSet_ne _ _ _ _ hia]
      exact h i j k
    · rw [srcAt_connect_ne g a b e j hjb]
      exact h i j k

theorem AdjSync_addVertex {g : PGraph} (h : AdjSync g) (k : VKind) :
    AdjSync (addVertex g k) := by
  intro i j k2
  rw [dstAt_addVertex, srcAt_addVertex]
  exact h i j k2

theorem AdjSync_bumpSink {g : PGraph} (h : AdjSync g) (oj : Nat) (q : ℚ) :
    AdjSync (bumpSink g oj q) := by
  intro i j k2
  rw [dstAt_bumpSink, srcAt_bumpSink]
  exact h i j k2

theorem adjSync_base (plan : List (Recipe × ℤ))
    (inputsL outputsL : List (Product × ℚ)) :
    AdjSync (createBase plan inputsL outputsL) := by
  intro i j k
  rw [(dstAt_empty_base plan inputsL outputsL i).1,
    (dstAt_empty_base plan inputsL outputsL j).2]
  simp [dictGet]

theorem findSinkFrom_lt (vs : List Vertex) (p : Product) :
    ∀ (k oj : Nat), findSinkFrom vs p k = some oj → oj < k + vs.length := by
  induction vs with
  | nil => intro k oj h; simp [findSinkFrom] at h
  | cons v rest ih =>
    intro k oj h
    simp only [findSinkFrom] at h
    split at h
    · split at h
      · injection h with h2
        simp only [List.length_cons]
        omega
      · have := ih (k + 1) oj h
        simp only [List.length_cons]
        omega
    · have := ih (k + 1) oj h
      simp only [List.length_cons]
      omega

theorem AdjSync_sourceStep (g0 : PGraph) (g : PGraph) (b : Nat)
    (h : AdjSync g ∧ Evolves g0 g) :
    AdjSync (sourceStep g b).1 ∧ Evolves g0 (sourceStep g b).1 := by
  simp only [sourceStep]
  split
  · rename_i sp rate hkind
    have hb : b < g.vertices.length :=
      kindAt_some_lt (hkind : kindAt g b = some (VKind.source sp rate))
    have hloop := runSteps_always (sourceMachineStep b sp)
      (fun s2 => AdjSync s2.1 ∧ Evolves g s2.1)
      (fun s2 j h2 => by
        simp only [sourceMachineStep]
        split
        · rename_i r sc hkind2
          split
          · rename_i d hd
            have hb2 : b < s2.1.vertices.length :=
              Nat.lt_of_lt_of_le hb h2.2.2.2.1
            have hj2 : j < s2.1.vertices.length := kindAt_some_lt
              (hkind2 : kindAt s2.1 j = some (VKind.machine r sc))
            exact ⟨AdjSync_connect h2.1 b j _ hb2 hj2,
              h2.2.trans (evolves_connect s2.1 b j _)⟩
          · exact h2
        · exact h2)
      (List.range g.vertices.length) (g, rate) ⟨h.1, evolves_self g⟩
    split
    · rename_i g1 unused heq
      rw [heq] at hloop
      split
      · have hb1 : b < g1.vertices.length :=
          Nat.lt_of_lt_of_le hb hloop.2.2.2.1
        have hbw : b <
            (addVertex g1 (.waste sp (round2 unused))).vertices.length := by
          rw [vertices_length_addVertex]
          omega
        have hww : g1.vertices.length <
            (addVertex g1 (.waste sp (round2 unused))).vertices.length := by
          rw [vertices_length_addVertex]
          omega
        exact ⟨AdjSync_connect (AdjSync_addVertex hloop.1 _) b _ _ hbw hww,
          (h.2.trans hloop.2).trans ((evolves_addVertex g1 sp _).trans
            (evolves_connect _ b _ _))⟩
      · exact ⟨hloop.1, h.2.trans hloop.2⟩
    · rename_i g1 u e heq
      rw [heq] at hloop
      exact ⟨hloop.1, h.2.trans hloop.2⟩
  · exact h

theorem AdjSync_m2mConsumerStep (g : PGraph) (b : Nat) (q : Product)
    (s : PGraph × List (Nat × List (Product × ℚ)) × List (Product × ℚ))
    (j : Nat) (hb : b < g.vertices.length)
    (h : AdjSync s.1 ∧ Evolves g s.1 ∧
      ∀ jd ∈ s.2.1, jd.1 < s.1.vertices.length) :
    AdjSync (m2mConsumerStep b q s j).1.1 ∧
      Evolves g (m2mConsumerStep b q s j).1.1 ∧
      ∀ jd ∈ (m2mConsumerStep b q s j).1.2.1,
        jd.1 < (m2mConsumerStep b q s j).1.1.vertices.length := by
  obtain ⟨g4, rem4, unu4⟩ := s
  obtain ⟨hA, hE, hR⟩ := h
  simp only [m2mConsumerStep]
  split
  · exact ⟨hA, hE, hR⟩
  · rename_i dm hdm2
    split
    · exact ⟨hA, hE, hR⟩
    · rename_i rd hrd2
      split
      · exact ⟨hA, hE, hR⟩
      · split
        · exact ⟨hA, hE, hR⟩
        · have hb4 : b < g4.vertices.length :=
            Nat.lt_of_lt_of_le hb hE.2.2.1
          have hj4 : j < g4.vertices.length :=
            hR (j, dm) (dictGet_mem _ _ _ hdm2)
          refine ⟨AdjSync_connect hA b j _ hb4 hj4,
            hE.trans (evolves_connect g4 b j _), ?_⟩
          intro jd hjd
          rw [vertices_length_connect]
          rcases dictSet_mem _ _ _ _ hjd with h1 | h1
          · exact hR jd h1
          · rw [h1]
            exact hj4

theorem AdjSync_sinkStep (g : PGraph) (outKeys : List Product) (b : Nat)
    (s : PGraph × List (Product × ℚ)) (q : Product)
    (hb : b < g.vertices.length) (h : AdjSync s.1 ∧ Evolves g s.1) :
    AdjSync (sinkStep outKeys b s q).1 ∧
      Evolves g (sinkStep outKeys b s q).1 := by
  obtain ⟨g4, unu4⟩ := s
  simp only [sinkStep]
  split
  · split
    · rename_i oj hoj
      have hb4 : b < g4.vertices.length := Nat.lt_of_lt_of_le hb h.2.2.2.1
      have hoj4 : oj < g4.vertices.length := by
        have h2 := findSinkFrom_lt g4.vertices q 0 oj hoj
        omega
      exact ⟨AdjSync_bumpSink (AdjSync_connect h.1 b oj _ hb4 hoj4) _ _,
        h.2.trans ((evolves_connect g4 b oj _).trans
          (evolves_bumpSink _ _ _))⟩
    · exact h
  · exact h

theorem AdjSync_wasteStep (g : PGraph) (b : Nat) (g4 : PGraph)
    (pu : Product × ℚ) (hb : b < g.vertices.length)
    (h : AdjSync g4 ∧ Evolves g g4) :
    AdjSync (wasteStep b g4 pu) ∧ Evolves g (wasteStep b g4 pu) := by
  simp only [wasteStep]
  split
  · have hb4 : b < g4.vertices.length := Nat.lt_of_lt_of_le hb h.2.2.2.1
    have hbw : b <
        (addVertex g4 (.waste pu.1 (round2 pu.2))).vertices.length := by
      rw [vertices_length_addVertex]
      omega
    have hww : g4.vertices.length <
        (addVertex g4 (.waste pu.1 (round2 pu.2))).vertices.length := by
      rw [vertices_length_addVertex]
      omega
    exact ⟨AdjSync_connect (AdjSync_addVertex h.1 _) b _ _ hbw hww,
      h.2.trans ((evolves_addVertex g4 pu.1 _).trans
        (evolves_connect _ b _ _))⟩
  · exact h

theorem AdjSync_machineStep (g1 : PGraph) (outKeys : List Product)
    (s : PGraph × List (Nat × List (Product × ℚ))) (b : Nat)
    (h : AdjSync s.1 ∧ Evolves g1 s.1 ∧
      ∀ jd ∈ s.2, jd.1 < s.1.vertices.length) :
    AdjSync (machineStep outKeys s b).1.1 ∧
      Evolves g1 (machineStep outKeys s b).1.1 ∧
      ∀ jd ∈ (machineStep outKeys s b).1.2,
        jd.1 < (machineStep outKeys s b).1.1.vertices.length := by
  obtain ⟨g, rem⟩ := s
  obtain ⟨hA, hE, hR⟩ := h
  simp only [machineStep]
  split
  · rename_i r sc hkind
    have hb : b < g.vertices.length :=
      kindAt_some_lt (hkind : kindAt g b = some (VKind.machine r sc))
    have hloop := runSteps_always (fun s3 q =>
        runSteps (m2mConsumerStep b q) s3 (List.range g.vertices.length))
      (fun s3 => AdjSync s3.1 ∧ Evolves g s3.1 ∧
        ∀ jd ∈ s3.2.1, jd.1 < s3.1.vertices.length)
      (fun s3 q h3 => runSteps_always (m2mConsumerStep b q)
        (fun s4 => AdjSync s4.1 ∧ Evolves g s4.1 ∧
          ∀ jd ∈ s4.2.1, jd.1 < s4.1.vertices.length)
        (fun s4 j h5 => AdjSync_m2mConsumerStep g b q s4 j hb h5)
        (List.range g.vertices.length) s3 h3)
      ((outAvailable r sc).map Prod.fst) (g, rem, outAvailable r sc)
      ⟨hA, evolves_self g, hR⟩
    split
    · rename_i g2 rem2 unu2 e heq
      rw [heq] at hloop
      exact ⟨hloop.1, hE.trans hloop.2.1, hloop.2.2⟩
    · rename_i g2 rem2 unu2 heq
      rw [heq] at hloop
      have hsink := foldl_always (sinkStep outKeys b)
        (fun s4 => AdjSync s4.1 ∧ Evolves g s4.1)
        (fun s4 q h4 => AdjSync_sinkStep g outKeys b s4 q hb h4)
        (unu2.map Prod.fst) (g2, unu2) ⟨hloop.1, hloop.2.1⟩
      cases hs2 : (unu2.map Prod.fst).foldl (sinkStep outKeys b) (g2, unu2) with
      | mk g3 unu3 =>
        rw [hs2] at hsink
        have hwaste := foldl_always (wasteStep b)
          (fun g4 => AdjSync g4 ∧ Evolves g g4)
          (fun g4 pu h4 => AdjSync_wasteStep g b g4 pu hb h4) unu3 g3 hsink
        simp only [hs2]
        refine ⟨hwaste.1, hE.trans hwaste.2, ?_⟩
        intro jd hjd
        have h1 := hloop.2.2 jd hjd
        have hsinkE := foldl_rel (sinkStep outKeys b)
          (fun a b2 => Evolves a.1 b2.1) (fun s5 => evolves_self s5.1)
          (fun _ _ _ => Evolves.trans)
          (fun s5 a2 => evolves_sinkStep outKeys b s5 a2)
          (unu2.map Prod.fst) (g2, unu2)
        rw [hs2] at hsinkE
        have hwasteE := foldl_rel (wasteStep b) Evolves evolves_self
          (fun _ _ _ => Evolves.trans)
          (fun s5 a2 => evolves_wasteStep b s5 a2) unu3 g3
        exact Nat.lt_of_lt_of_le h1
          (Nat.le_trans hsinkE.2.2.1 hwasteE.2.2.1)
  · exact ⟨hA, hE, hR⟩

theorem initRemaining_keys (g : PGraph) :
    ∀ jd ∈ initRemaining g, jd.1 < g.vertices.length := by
  intro jd hjd
  unfold initRemaining at hjd
  obtain ⟨j, hj, hjd2⟩ := List.mem_filterMap.mp hjd
  split at hjd2
  · injection hjd2 with h2
    rw [← h2]
    exact List.mem_range.mp hj
  · exact absurd hjd2 (by simp)

/-- C10 counterexample instance: one machine making P and Q, one machine
consuming P and Q. The build completes with edge 0 (the P edge between
the same vertex pair) referenced by no adjacency entry of any vertex:
the Q edge overwrote both dict values keyed by the partner vertex. -/
theorem claim10_counterexample :
    (create [(recTwoOut, 1), (recTwoIn, 1)] [] []).2 = none ∧
    (create [(recTwoOut, 1), (recTwoIn, 1)] [] []).1.edges[0]? =
      some ⟨"P", 1, 1⟩ ∧
    ((List.range
      (create [(recTwoOut, 1), (recTwoIn, 1)] [] []).1.vertices.length).all
      fun i =>
        ((dstAt (create [(recTwoOut, 1), (recTwoIn, 1)] [] []).1 i).all
          fun jk => jk.2 != 0) &&
        ((srcAt (create [(recTwoOut, 1), (recTwoIn, 1)] [] []).1 i).all
          fun jk => jk.2 != 0)) = true := by
  refine ⟨by decide, by decide, by decide⟩

/-- C10 (amended): the two adjacency maps always agree — an entry j ↦ k
in a producer's outgoing dict exists exactly when the entry i ↦ k exists
in the consumer's incoming dict — because every edge-creation triple
updates both dicts together; but joint ownership of every stored edge
fails, since a second product edge between the same vertex pair
overwrites both dict values, orphaning the first edge (see the
counterexample). The agreement holds for every build, aborted or not. -/
theorem claim10_adjacency_sync (plan : List (Recipe × ℤ))
    (inputsL outputsL : List (Product × ℚ)) (i j k : Nat) :
    dictGet (dstAt (create plan inputsL outputsL).1 i) j = some k ↔
    dictGet (srcAt (create plan inputsL outputsL).1 j) i = some k := by
  rcases hres1 : runSteps sourceStep (createBase plan inputsL outputsL)
    (List.range (createBase plan inputsL outputsL).vertices.length)
    with ⟨g1, e1⟩
  have hQ1 : AdjSync g1 ∧
      Evolves (createBase plan inputsL outputsL) g1 := by
    have h := runSteps_always sourceStep
      (fun s => AdjSync s ∧ Evolves (createBase plan inputsL outputsL) s)
      (fun s b h2 =>
        AdjSync_sourceStep (createBase plan inputsL outputsL) s b h2)
      (List.range (createBase plan inputsL outputsL).vertices.length)
      (createBase plan inputsL outputsL)
      ⟨adjSync_base plan inputsL outputsL, evolves_self _⟩
    rw [hres1] at h
    exact h
  cases e1 with
  | some err =>
    have hcr : create plan inputsL outputsL = (g1, some err) := by
      show (match runSteps sourceStep (createBase plan inputsL outputsL)
          (List.range (createBase plan inputsL outputsL).vertices.length) with
        | (g1, some e) => (g1, some e)
        | (g1, none) =>
          match runSteps (machineStep (outputsL.map Prod.fst))
              (g1, initRemaining g1) (List.range g1.vertices.length) with
          | ((g2, _), e) => (g2, e)) = (g1, some err)
      rw [hres1]
    rw [hcr]
    exact hQ1.1 i j k
  | none =>
    rcases hres2 : runSteps (machineStep (outputsL.map Prod.fst))
      (g1, initRemaining g1) (List.range g1.vertices.length)
      with ⟨⟨g2, rem2⟩, e2⟩
    have hcr : create plan inputsL outputsL = (g2, e2) := by
      show (match runSteps sourceStep (createBase plan inputsL outputsL)
          (List.range (createBase plan inputsL outputsL).vertices.length) with
        | (g1, some e) => (g1, some e)
        | (g1, none) =>
          match runSteps (machineStep (outputsL.map Prod.fst))
              (g1, initRemaining g1) (List.range g1.vertices.length) with
          | ((g2, _), e) => (g2, e)) = (g2, e2)
      rw [hres1]
      show (match runSteps (machineStep (outputsL.map Prod.fst))
          (g1, initRemaining g1) (List.range g1.vertices.length) with
        | ((g2, _), e) => (g2, e)) = (g2, e2)
      rw [hres2]
    rw [hcr]
    have hQ2 := runSteps_always (machineStep (outputsL.map Prod.fst))
      (fun s => AdjSync s.1 ∧ Evolves g1 s.1 ∧
        ∀ jd ∈ s.2, jd.1 < s.1.vertices.length)
      (fun s b h2 =>
        AdjSync_machineStep g1 (outputsL.map Prod.fst) s b h2)
      (List.range g1.vertices.length) (g1, initRemaining g1)
      ⟨hQ1.1, evolves_self g1, initRemaining_keys g1⟩
    rw [hres2] at hQ2
    exact hQ2.1 i j k

end RecipeOpt
